import Mathlib

/-!
# Sfdk: the Sdk facade, its collaborators and two of its clients

A shallow embedding of `src/libs/sfdk/sdk.cpp` (the `Sdk` facade),
`src/plugins/mer/merdevicedebugsupport.cpp` (`GdbServerReadyWatcher`) and
`src/plugins/mer/meremulatormodedialog.cpp` (`MerEmulatorModeDialog::execDialog`),
together with models of the command queue, the asynchronous callback contract
and the resource registries, whose sources are not part of the tree and which
are therefore written down from the specification.
-/

namespace Sfdk

/-! ## The Sdk object: construction and teardown (sdk.cpp, lines 59-120) -/

/-- The three `Sdk::Option` flags the constructor inspects. -/
structure Options where
  versionedSettings : Bool
  systemSettingsOnly : Bool
  cachedVmInfo : Bool
deriving DecidableEq, Repr

/-- Signals of the three managers that the constructor connects. -/
inductive ManagerSignal where
  | buildEngineAdded
  | aboutToRemoveBuildEngine
  | emulatorAdded
  | aboutToRemoveEmulator
  | deviceModelsChanged
  | deviceAdded
  | aboutToRemoveDevice
deriving DecidableEq, Repr

/-- Signals of the `Sdk` facade that are the receiving end of a connection. -/
inductive SdkSignal where
  | buildEngineAdded
  | aboutToRemoveBuildEngine
  | emulatorAdded
  | aboutToRemoveEmulator
  | deviceModelsChanged
  | deviceAdded
  | aboutToRemoveDevice
deriving DecidableEq, Repr

/-- The objects `SdkPrivate` owns through a `std::unique_ptr`. -/
inductive Member where
  | commandQueue
  | virtualMachineFactory
  | buildEngineManager
  | emulatorManager
  | deviceManager
deriving DecidableEq, Repr

/-- The manager class that declares a signal. -/
def ManagerSignal.sender : ManagerSignal → Member
  | .buildEngineAdded => .buildEngineManager
  | .aboutToRemoveBuildEngine => .buildEngineManager
  | .emulatorAdded => .emulatorManager
  | .aboutToRemoveEmulator => .emulatorManager
  | .deviceModelsChanged => .emulatorManager
  | .deviceAdded => .deviceManager
  | .aboutToRemoveDevice => .deviceManager

/-- The identifier of a manager signal as written in the source. -/
def ManagerSignal.name : ManagerSignal → String
  | .buildEngineAdded => "buildEngineAdded"
  | .aboutToRemoveBuildEngine => "aboutToRemoveBuildEngine"
  | .emulatorAdded => "emulatorAdded"
  | .aboutToRemoveEmulator => "aboutToRemoveEmulator"
  | .deviceModelsChanged => "deviceModelsChanged"
  | .deviceAdded => "deviceAdded"
  | .aboutToRemoveDevice => "aboutToRemoveDevice"

/-- The identifier of a facade signal as written in the source. -/
def SdkSignal.name : SdkSignal → String
  | .buildEngineAdded => "buildEngineAdded"
  | .aboutToRemoveBuildEngine => "aboutToRemoveBuildEngine"
  | .emulatorAdded => "emulatorAdded"
  | .aboutToRemoveEmulator => "aboutToRemoveEmulator"
  | .deviceModelsChanged => "deviceModelsChanged"
  | .deviceAdded => "deviceAdded"
  | .aboutToRemoveDevice => "aboutToRemoveDevice"

/-- One `connect(manager, &Manager::signal, this, &Sdk::slot)` call. -/
structure Connection where
  signal : ManagerSignal
  slot : SdkSignal
deriving DecidableEq, Repr

/-- The state behind `d_ptr`.  A `Bool` field records whether the
`std::unique_ptr` of that name holds an object. -/
structure SdkPrivate where
  options_ : Options
  generalSettingsRead : Bool
  commandQueue_ : Bool
  virtualMachineFactory : Bool
  vboxTypeRegistered : Bool
  buildEngineManager : Bool
  emulatorManager : Bool
  deviceManager : Bool
  connections : List Connection
  updateOnceRequested : Bool
deriving DecidableEq, Repr

/-- The state right after `std::make_unique<SdkPrivate>(this)`: every pointer
null, nothing connected. -/
def SdkPrivate.fresh : SdkPrivate :=
  { options_ := ⟨false, false, false⟩
    generalSettingsRead := false
    commandQueue_ := false
    virtualMachineFactory := false
    vboxTypeRegistered := false
    buildEngineManager := false
    emulatorManager := false
    deviceManager := false
    connections := []
    updateOnceRequested := false }

/-- The effect of `connect(manager, &Manager::signal, this, &Sdk::slot)`: one more
connection, after the existing ones. -/
def SdkPrivate.connect (d : SdkPrivate) (signal : ManagerSignal) (slot : SdkSignal) :
    SdkPrivate :=
  { d with connections := d.connections ++ [{ signal := signal, slot := slot }] }

/-- The first `QTC_ASSERT` of the constructor: `VersionedSettings` and
`SystemSettingsOnly` are not both set. -/
def Options.consistent (options : Options) : Bool :=
  !options.versionedSettings || !options.systemSettingsOnly

/-- Body of `Sdk::Sdk(Options)` on the private state (the assignment to
`s_instance` is in `World.step`).  `isVersionedSettingsEnabled` is the value the
helper of that name (declared in sdk_p.h) returns at the end of the body. -/
def Sdk.construct (isVersionedSettingsEnabled : Bool) (options : Options) : SdkPrivate :=
  let d := SdkPrivate.fresh
  -- QTC_ASSERT(!(options & VersionedSettings) || !(options & SystemSettingsOnly), return)
  if !(!options.versionedSettings || !options.systemSettingsOnly) then d
  else
    -- QTC_ASSERT(!(options & SystemSettingsOnly) || !(options & CachedVmInfo),
    --            options &= ~CachedVmInfo)
    let options : Options :=
      if !(!options.systemSettingsOnly || !options.cachedVmInfo)
      then { options with cachedVmInfo := false } else options
    let d := { d with options_ := options }
    let d := { d with generalSettingsRead := true }
    let d := { d with commandQueue_ := true }
    let d := { d with virtualMachineFactory := true }
    let d := { d with vboxTypeRegistered := true }
    let d := { d with buildEngineManager := true }
    let d := d.connect .buildEngineAdded .buildEngineAdded
    let d := d.connect .aboutToRemoveBuildEngine .aboutToRemoveBuildEngine
    let d := { d with emulatorManager := true }
    let d := d.connect .emulatorAdded .emulatorAdded
    let d := d.connect .aboutToRemoveEmulator .aboutToRemoveEmulator
    let d := d.connect .deviceModelsChanged .deviceModelsChanged
    let d := { d with deviceManager := true }
    let d := d.connect .deviceAdded .deviceAdded
    let d := d.connect .aboutToRemoveDevice .aboutToRemoveDevice
    if !isVersionedSettingsEnabled then { d with updateOnceRequested := true } else d

/-- Whether the `std::unique_ptr` for a member holds an object. -/
def SdkPrivate.holds (d : SdkPrivate) : Member → Bool
  | .commandQueue => d.commandQueue_
  | .virtualMachineFactory => d.virtualMachineFactory
  | .buildEngineManager => d.buildEngineManager
  | .emulatorManager => d.emulatorManager
  | .deviceManager => d.deviceManager

/-- What happens, in order, while an `Sdk` is destroyed. -/
inductive TeardownEvent where
  | commandQueueWait
  | clearInstance
  | destroyMember (m : Member)
deriving DecidableEq, Repr

/-- The destructor `Sdk::~Sdk()` followed by the destruction of `d_ptr`:
`d->commandQueue_->wait(); s_instance = nullptr;` and then the members of
`SdkPrivate`, in the reverse of their declaration order.  The declaration
order is in sdk_p.h and is a parameter here.  Dereferencing a null
`commandQueue_` has no defined behaviour: `none`. -/
def Sdk.destroy (declarationOrder : List Member) (d : SdkPrivate) :
    Option (List TeardownEvent) :=
  if d.commandQueue_ then
    some ([TeardownEvent.commandQueueWait, TeardownEvent.clearInstance] ++
      ((declarationOrder.reverse.filter d.holds).map TeardownEvent.destroyMember))
  else none

/-! ## The facade operations and what each calls (sdk.cpp, lines 117-265) -/

/-- The static operations of `Sdk` defined in sdk.cpp. -/
inductive FacadeOp where
  | instance_
  | osVariant
  | sdkVariant
  | ideVariant
  | enableUpdates
  | isApplyingUpdates
  | saveSettings
  | installationPath
  | unusedVirtualMachines
  | buildEngines
  | buildEngine
  | createBuildEngine
  | addBuildEngine
  | removeBuildEngine
  | emulators
  | emulator
  | createEmulator
  | addEmulator
  | removeEmulator
  | deviceModels
  | deviceModel
  | setDeviceModels
  | devices
  | deviceById
  | deviceByEmulator
  | addDevice
  | removeDevice
deriving DecidableEq, Repr

/-- Functions of other classes that the bodies in sdk.cpp call. -/
inductive Callee where
  | CommandQueue_wait
  | SdkPrivate_isVersionedSettingsEnabled
  | SdkPrivate_useSystemSettingsOnly
  | SdkPrivate_enableUpdatesRequested
  | SdkPrivate_saveSettingsRequested
  | UserSettings_isApplyingUpdates
  | BuildEngineManager_installDir
  | VirtualMachineFactory_unusedVirtualMachines
  | BuildEngineManager_buildEngines
  | BuildEngineManager_buildEngine
  | BuildEngineManager_createBuildEngine
  | BuildEngineManager_addBuildEngine
  | BuildEngineManager_removeBuildEngine
  | EmulatorManager_emulators
  | EmulatorManager_emulator
  | EmulatorManager_createEmulator
  | EmulatorManager_addEmulator
  | EmulatorManager_removeEmulator
  | EmulatorManager_deviceModels
  | EmulatorManager_deviceModel
  | EmulatorManager_setDeviceModels
  | DeviceManager_devices
  | DeviceManager_deviceById
  | DeviceManager_deviceByEmulator
  | DeviceManager_addDevice
  | DeviceManager_removeDevice
deriving DecidableEq, Repr

/-- The calls written in the body of each facade operation, in source order
(`tr`, `separator` and logging left out). -/
def FacadeOp.calls : FacadeOp → List Callee
  | .instance_ => []
  | .osVariant => []
  | .sdkVariant => []
  | .ideVariant => []
  | .enableUpdates =>
      [.SdkPrivate_isVersionedSettingsEnabled, .SdkPrivate_enableUpdatesRequested]
  | .isApplyingUpdates =>
      [.SdkPrivate_isVersionedSettingsEnabled, .UserSettings_isApplyingUpdates]
  | .saveSettings =>
      [.SdkPrivate_useSystemSettingsOnly, .SdkPrivate_saveSettingsRequested]
  | .installationPath => [.BuildEngineManager_installDir]
  | .unusedVirtualMachines => [.VirtualMachineFactory_unusedVirtualMachines]
  | .buildEngines => [.BuildEngineManager_buildEngines]
  | .buildEngine => [.BuildEngineManager_buildEngine]
  | .createBuildEngine => [.BuildEngineManager_createBuildEngine]
  | .addBuildEngine => [.BuildEngineManager_addBuildEngine]
  | .removeBuildEngine => [.BuildEngineManager_removeBuildEngine]
  | .emulators => [.EmulatorManager_emulators]
  | .emulator => [.EmulatorManager_emulator]
  | .createEmulator => [.EmulatorManager_createEmulator]
  | .addEmulator => [.EmulatorManager_addEmulator]
  | .removeEmulator => [.EmulatorManager_removeEmulator]
  | .deviceModels => [.EmulatorManager_deviceModels]
  | .deviceModel => [.EmulatorManager_deviceModel]
  | .setDeviceModels => [.EmulatorManager_setDeviceModels]
  | .devices => [.DeviceManager_devices]
  | .deviceById => [.DeviceManager_deviceById]
  | .deviceByEmulator => [.DeviceManager_deviceByEmulator]
  | .addDevice => [.DeviceManager_addDevice]
  | .removeDevice => [.DeviceManager_removeDevice]

/-- The five owned members, in an arbitrary order used for examples. -/
def Member.all : List Member :=
  [.commandQueue, .virtualMachineFactory, .buildEngineManager, .emulatorManager,
   .deviceManager]

/-! ## The command queue (specification, section 4.3) -/

namespace CommandQueue

/-- Modelled from the spec: a command queue entry.  The class `CommandQueue` is
declared in asynchronous_p.h, which is not in the tree; sdk.cpp only constructs
it and calls `wait()`.  An entry has a target key, a unit of work (here only its
submission number `id`) and an optional completion sink, of which the context is
kept. -/
structure Entry where
  id : Nat
  target : Nat
  context : Option Nat
deriving DecidableEq, Repr

/-- Modelled from the spec: the state of the command queue, which is missing
from the tree.  `running` are the operations in flight, `waiting` the queued
units in submission order, `destroyedContexts` the contexts destroyed so far;
`submitted`, `completed` and `fired` record the enqueue calls, the completions
and the callback invocations in the order in which they happened. -/
structure State where
  submitted : List Entry
  running : List Entry
  waiting : List Entry
  destroyedContexts : List Nat
  completed : List Entry
  fired : List Entry
deriving DecidableEq, Repr

/-- The queue right after its construction. -/
def State.empty : State :=
  { submitted := [], running := [], waiting := [], destroyedContexts := [],
    completed := [], fired := [] }

/-- Whether an entry is scoped to the given target key. -/
def onTarget (target : Nat) (e : Entry) : Bool := e.target == target

/-- The first entry satisfying `p`, and the list without it. -/
def takeFirst (p : Entry → Bool) : List Entry → Option (Entry × List Entry)
  | [] => none
  | e :: es =>
    if p e then some (e, es)
    else (takeFirst p es).map (fun r => (r.1, e :: r.2))

/-- Modelled from the spec: `enqueue(target, operation, context, callback)` of
the missing class `CommandQueue` "appends a unit of work to the per-target
ordered queue; if the target has no operation currently running, starts it
immediately, else the unit waits". -/
def enqueue (q : State) (target : Nat) (context : Option Nat) : State :=
  let e : Entry := { id := q.submitted.length, target := target, context := context }
  if q.running.any (onTarget target) then
    { q with submitted := q.submitted ++ [e], waiting := q.waiting ++ [e] }
  else
    { q with submitted := q.submitted ++ [e], running := q.running ++ [e] }

/-- Modelled from the spec: the cancellation rule of the missing class
`CommandQueue`, applied when the operation of entry `e` has completed: "if the
context supplied at enqueue time is destroyed before the operation completes,
the callback is never invoked"; otherwise the callback is invoked (recorded in
`fired`).  An entry without completion sink has no callback. -/
def fire (q : State) (e : Entry) : List Entry :=
  match e.context with
  | none => q.fired
  | some c => if c ∈ q.destroyedContexts then q.fired else q.fired ++ [e]

/-- Modelled from the spec: the operation in flight on `target` completes (the
completion path of the missing class `CommandQueue`).  The completion is
recorded, the callback is invoked as `fire` says, and the next unit waiting for
the same target is started.  With nothing in flight on `target` nothing
happens. -/
def complete (q : State) (target : Nat) : State :=
  match takeFirst (onTarget target) q.running with
  | none => q
  | some (e, running) =>
    let q1 : State :=
      { q with running := running, completed := q.completed ++ [e], fired := fire q e }
    match takeFirst (onTarget target) q1.waiting with
    | none => q1
    | some (next, waiting) => { q1 with waiting := waiting, running := q1.running ++ [next] }

/-- Modelled from the spec: a context object given to `enqueue` is destroyed;
the queue of the missing class `CommandQueue` sees it as no longer alive. -/
def destroyContext (q : State) (context : Nat) : State :=
  { q with destroyedContexts := context :: q.destroyedContexts }

/-- What can happen to the queue. -/
inductive Event where
  | enqueue (target : Nat) (context : Option Nat)
  | complete (target : Nat)
  | destroyContext (context : Nat)
deriving DecidableEq, Repr

/-- One event. -/
def step (q : State) : Event → State
  | .enqueue target context => enqueue q target context
  | .complete target => complete q target
  | .destroyContext context => destroyContext q context

/-- A sequence of events, from the empty queue. -/
def run (events : List Event) : State := events.foldl step State.empty

/-- The target and context of the enqueue calls of an event sequence, in order. -/
def enqueueCalls (events : List Event) : List (Nat × Option Nat) :=
  events.filterMap fun
    | .enqueue target context => some (target, context)
    | _ => none

/-- The invariant of the queue: per target, the submissions are the completed
entries, then the one in flight, then the waiting ones; at most one entry per
target is in flight; nothing waits for an idle target; callbacks are a
subsequence of the completions; submission numbers count from zero. -/
structure Inv (q : State) : Prop where
  split : ∀ t, q.submitted.filter (onTarget t)
    = q.completed.filter (onTarget t) ++ q.running.filter (onTarget t)
      ++ q.waiting.filter (onTarget t)
  single : ∀ t, (q.running.filter (onTarget t)).length ≤ 1
  idle : ∀ t, q.running.filter (onTarget t) = [] → q.waiting.filter (onTarget t) = []
  fired : q.fired.Sublist q.completed
  ids : q.submitted.map (fun e => e.id) = List.range q.submitted.length

end CommandQueue

/-! ## The asynchronous callback contract (specification, section 4.5) -/

namespace Async

/-- The facade operations that take a context and a functor. -/
inductive Operation where
  | unusedVirtualMachines
  | createBuildEngine
  | createEmulator
  | setDeviceModels
deriving DecidableEq, Repr

/-- Modelled from the spec: what the missing framework keeps for an operation
that has been started and has not completed yet: its number (which also stands
for its functor), what it is, and the context object given with the functor. -/
structure Pending where
  id : Nat
  operation : Operation
  context : Nat
deriving DecidableEq, Repr

/-- Modelled from the spec: the bookkeeping of the asynchronous callback
contract, whose implementation (asynchronous_p.h and the managers) is missing
from the tree.  `started` counts the operations started, `pending` are those
not yet completed, `destroyedContexts` the context objects destroyed so far and
`invoked` the operations whose functor has been invoked, in order. -/
structure State where
  started : Nat
  pending : List Pending
  destroyedContexts : List Nat
  invoked : List Nat
deriving DecidableEq, Repr

/-- Nothing started yet. -/
def State.initial : State :=
  { started := 0, pending := [], destroyedContexts := [], invoked := [] }

/-- Modelled from the spec: what the missing managers and factory do with a
context and a functor: "every asynchronous operation above takes a context and
a functor"; the operation is started and its completion sink remembered. -/
def start (s : State) (operation : Operation) (context : Nat) : State :=
  { s with started := s.started + 1
           pending := s.pending ++ [{ id := s.started, operation := operation,
                                      context := context }] }

/-- Modelled from the spec: `VirtualMachineFactory::unusedVirtualMachines`, not
in the tree; it starts an asynchronous enumeration under the contract. -/
def VirtualMachineFactory.unusedVirtualMachines (s : State) (context : Nat) : State :=
  start s .unusedVirtualMachines context

/-- Modelled from the spec: `BuildEngineManager::createBuildEngine`, not in the
tree; it starts an asynchronous creation under the contract. -/
def BuildEngineManager.createBuildEngine (s : State) (context : Nat) : State :=
  start s .createBuildEngine context

/-- Modelled from the spec: `EmulatorManager::createEmulator`, not in the tree;
it starts an asynchronous creation under the contract. -/
def EmulatorManager.createEmulator (s : State) (context : Nat) : State :=
  start s .createEmulator context

/-- Modelled from the spec: `EmulatorManager::setDeviceModels`, not in the tree;
it starts an asynchronous catalog replacement under the contract. -/
def EmulatorManager.setDeviceModels (s : State) (context : Nat) : State :=
  start s .setDeviceModels context

/-- The facade `Sdk::unusedVirtualMachines(context, functor)`: hands both to the
factory. -/
def Sdk.unusedVirtualMachines (s : State) (context : Nat) : State :=
  VirtualMachineFactory.unusedVirtualMachines s context

/-- The facade `Sdk::createBuildEngine(virtualMachineUri, context, functor)`. -/
def Sdk.createBuildEngine (s : State) (context : Nat) : State :=
  BuildEngineManager.createBuildEngine s context

/-- The facade `Sdk::createEmulator(virtualMachineUri, context, functor)`. -/
def Sdk.createEmulator (s : State) (context : Nat) : State :=
  EmulatorManager.createEmulator s context

/-- The facade `Sdk::setDeviceModels(deviceModels, context, functor)`. -/
def Sdk.setDeviceModels (s : State) (context : Nat) : State :=
  EmulatorManager.setDeviceModels s context

/-- Modelled from the spec: the underlying operation number `id` completes (the
delivery path of the missing asynchronous_p.h).  "The functor executes at most
once.  If the context object is destroyed before the underlying operation
completes, the framework guarantees the functor is never invoked."  An
operation that is not pending cannot complete. -/
def complete (s : State) (id : Nat) : State :=
  match s.pending.find? (fun p => p.id == id) with
  | none => s
  | some p =>
    { s with pending := s.pending.filter (fun p => p.id != id)
             invoked := if p.context ∈ s.destroyedContexts then s.invoked
                        else s.invoked ++ [p.id] }

/-- Modelled from the spec: a context object is destroyed; the missing
framework records that it is no longer alive. -/
def destroyContext (s : State) (context : Nat) : State :=
  { s with destroyedContexts := context :: s.destroyedContexts }

/-- What can happen: a facade call, the completion of an operation, the
destruction of a context object. -/
inductive Event where
  | call (operation : Operation) (context : Nat)
  | complete (id : Nat)
  | destroyContext (context : Nat)
deriving DecidableEq, Repr

/-- One event; a call goes through the facade operation of that name. -/
def step (s : State) : Event → State
  | .call .unusedVirtualMachines context => Sdk.unusedVirtualMachines s context
  | .call .createBuildEngine context => Sdk.createBuildEngine s context
  | .call .createEmulator context => Sdk.createEmulator s context
  | .call .setDeviceModels context => Sdk.setDeviceModels s context
  | .complete id => complete s id
  | .destroyContext context => destroyContext s context

/-- A sequence of events from a given state. -/
def runFrom (s : State) (events : List Event) : State := events.foldl step s

/-- A sequence of events from the initial state. -/
def run (events : List Event) : State := runFrom State.initial events

/-- The invariant of the bookkeeping: pending operations are numbered below
`started`, with distinct numbers, and have not had their functor invoked; no
functor has been invoked twice, and only functors of started operations have
been invoked. -/
structure Wf (s : State) : Prop where
  pendingLt : ∀ p ∈ s.pending, p.id < s.started
  pendingNodup : (s.pending.map fun p => p.id).Nodup
  pendingFresh : ∀ p ∈ s.pending, p.id ∉ s.invoked
  invokedNodup : s.invoked.Nodup
  invokedLt : ∀ i ∈ s.invoked, i < s.started

/-- An operation whose context was destroyed while it was pending: its functor
has not been invoked, and whatever is pending under its number is that
operation. -/
structure Cancelled (s : State) (p : Pending) : Prop where
  dead : p.context ∈ s.destroyedContexts
  notInvoked : p.id ∉ s.invoked
  lt : p.id < s.started
  same : ∀ r ∈ s.pending, r.id = p.id → r = p

end Async

/-! ## The resource registries (specification, sections 3 and 4.4) -/

/-- Modelled from the spec: the error codes the missing managers and virtual
machines report (the taxonomy of section 7). -/
inductive Error where
  | VmStartFailed
  | VmStartTimeout
  | VmBusy
  | BackendEnumerationFailed
  | ResourceAlreadyExists
  | ResourceNotFound
  | DeviceModelReconciliationFailed
deriving DecidableEq, Repr

/-- Modelled from the spec: `DeviceModelData` (emulator.h, not in the tree), "a
named descriptor (display resolution, etc.)"; meremulatormodedialog.cpp reads
its `name` and `displayResolution`. -/
structure DeviceModelData where
  name : String
  displayResolution : Nat × Nat
deriving DecidableEq, Repr

/-- Modelled from the spec: `BuildEngine` (buildengine.h, not in the tree):
identity (a URI) and the two shared paths. -/
structure BuildEngine where
  uri : String
  sharedHomePath : String
  sharedSrcPath : String
deriving DecidableEq, Repr

/-- Modelled from the spec: `Emulator` (emulator.h, not in the tree): identity
(a URI), device-model reference, orientation and view-scaling flag. -/
structure Emulator where
  uri : String
  deviceModel : DeviceModelData
  portrait : Bool
  viewScaled : Bool
deriving DecidableEq, Repr

/-- Modelled from the spec: `Device` (device.h, not in the tree): identity (a
string id) and, for an emulator-backed device, the URI of its emulator. -/
structure Device where
  id : String
  emulatorUri : Option String
deriving DecidableEq, Repr

/-- Modelled from the spec: the notifications the missing managers send to
their observers: "resource added", "about to remove resource", "device models
changed". -/
inductive Notification where
  | added (identity : String)
  | aboutToRemove (identity : String)
  | deviceModelsChanged
deriving DecidableEq, Repr

/-- Modelled from the spec: the canonical collection one Resource Manager owns
(the managers are declared in buildengine_p.h, emulator_p.h and device_p.h,
which are not in the tree): the resources in insertion order and the
notifications emitted so far. -/
structure Registry (ρ : Type) where
  resources : List ρ
  notifications : List Notification
deriving DecidableEq, Repr

namespace Registry

/-- Modelled from the spec: `find(identity)` of the missing managers; "null
signals not found, not an error". -/
def find {ρ : Type} (ident : ρ → String) (reg : Registry ρ) (identity : String) : Option ρ :=
  reg.resources.find? (fun x => ident x == identity)

/-- Modelled from the spec: `add(ownedResource) -> index` of the missing
managers: "registers a previously created resource; rejects (reports an error
code, does not throw) if the identity already exists; emits an added
notification to external observers after the registry is consistent". -/
def add {ρ : Type} (ident : ρ → String) (reg : Registry ρ) (r : ρ) :
    Except Error Nat × Registry ρ :=
  if reg.resources.any (fun x => ident x == ident r) then
    (.error .ResourceAlreadyExists, reg)
  else
    (.ok reg.resources.length,
      { resources := reg.resources ++ [r]
        notifications := reg.notifications ++ [.added (ident r)] })

/-- Modelled from the spec: `remove(identity)` of the missing managers: "emits
an about to remove notification before mutating the registry, then removes;
removing a nonexistent identity is a no-op, not an error". -/
def remove {ρ : Type} (ident : ρ → String) (reg : Registry ρ) (identity : String) :
    Registry ρ :=
  if reg.resources.any (fun x => ident x == identity) then
    { resources := reg.resources.filter (fun x => ident x != identity)
      notifications := reg.notifications ++ [.aboutToRemove identity] }
  else reg

end Registry

/-- Modelled from the spec: `BuildEngineManager::addBuildEngine` (not in the
tree), the `add` of the build engine registry. -/
def BuildEngineManager.addBuildEngine (reg : Registry BuildEngine) (r : BuildEngine) :=
  Registry.add BuildEngine.uri reg r

/-- Modelled from the spec: `BuildEngineManager::removeBuildEngine` (not in the
tree), the `remove` of the build engine registry. -/
def BuildEngineManager.removeBuildEngine (reg : Registry BuildEngine) (uri : String) :=
  Registry.remove BuildEngine.uri reg uri

/-- Modelled from the spec: `EmulatorManager::addEmulator` (not in the tree),
the `add` of the emulator registry. -/
def EmulatorManager.addEmulator (reg : Registry Emulator) (r : Emulator) :=
  Registry.add Emulator.uri reg r

/-- Modelled from the spec: `EmulatorManager::removeEmulator` (not in the
tree), the `remove` of the emulator registry. -/
def EmulatorManager.removeEmulator (reg : Registry Emulator) (uri : String) :=
  Registry.remove Emulator.uri reg uri

/-- Modelled from the spec: `DeviceManager::addDevice` (not in the tree), the
`add` of the device registry. -/
def DeviceManager.addDevice (reg : Registry Device) (r : Device) :=
  Registry.add Device.id reg r

/-- Modelled from the spec: `DeviceManager::removeDevice` (not in the tree),
the `remove` of the device registry. -/
def DeviceManager.removeDevice (reg : Registry Device) (id : String) :=
  Registry.remove Device.id reg id

/-- The facade `Sdk::addBuildEngine`: returns what the manager returns. -/
def Sdk.addBuildEngine (reg : Registry BuildEngine) (buildEngine : BuildEngine) :=
  BuildEngineManager.addBuildEngine reg buildEngine

/-- The facade `Sdk::removeBuildEngine`. -/
def Sdk.removeBuildEngine (reg : Registry BuildEngine) (uri : String) :=
  BuildEngineManager.removeBuildEngine reg uri

/-- The facade `Sdk::addEmulator`. -/
def Sdk.addEmulator (reg : Registry Emulator) (emulator : Emulator) :=
  EmulatorManager.addEmulator reg emulator

/-- The facade `Sdk::removeEmulator`. -/
def Sdk.removeEmulator (reg : Registry Emulator) (uri : String) :=
  EmulatorManager.removeEmulator reg uri

/-- The facade `Sdk::addDevice`. -/
def Sdk.addDevice (reg : Registry Device) (device : Device) :=
  DeviceManager.addDevice reg device

/-- The facade `Sdk::removeDevice`. -/
def Sdk.removeDevice (reg : Registry Device) (id : String) :=
  DeviceManager.removeDevice reg id

/-! ## The device model catalog (specification, section 4.4) -/

/-- Modelled from the spec: the part of the emulator manager (emulator_p.h, not
in the tree) that owns the device model catalog next to the emulator
registry. -/
structure EmulatorManager where
  emulators : Registry Emulator
  deviceModels : List DeviceModelData
deriving DecidableEq, Repr

/-- Modelled from the spec: reconciling one emulator with a new catalog (inside
the missing `EmulatorManager::setDeviceModels`): the catalog change must
"propagate to Emulators referencing an entry by name", and an emulator whose
model is missing from the new catalog "cannot be reconciled". -/
def EmulatorManager.reconcile (deviceModels : List DeviceModelData) (e : Emulator) :
    Option Emulator :=
  match deviceModels.find? (fun m => m.name == e.deviceModel.name) with
  | some m => some { e with deviceModel := m }
  | none => none

/-- Modelled from the spec: reconciling every emulator, in registry order;
fails when one of them cannot be reconciled. -/
def EmulatorManager.reconcileAll (deviceModels : List DeviceModelData) :
    List Emulator → Option (List Emulator)
  | [] => some []
  | e :: es =>
    match EmulatorManager.reconcile deviceModels e with
    | none => none
    | some e1 =>
      match EmulatorManager.reconcileAll deviceModels es with
      | none => none
      | some es1 => some (e1 :: es1)

/-- Modelled from the spec: `EmulatorManager::deviceModels()` (not in the
tree): the catalog. -/
def EmulatorManager.getDeviceModels (m : EmulatorManager) : List DeviceModelData :=
  m.deviceModels

/-- Modelled from the spec: `EmulatorManager::setDeviceModels(list, context,
functor)` (not in the tree), with the value its functor receives: it "fails
atomically (no partial catalog swap) if any referencing Emulator cannot be
reconciled, and signals a device models changed notification only after a
successful swap". -/
def EmulatorManager.setDeviceModels (m : EmulatorManager)
    (deviceModels : List DeviceModelData) : Bool × EmulatorManager :=
  match EmulatorManager.reconcileAll deviceModels m.emulators.resources with
  | none => (false, m)
  | some es =>
    (true,
      { emulators :=
          { resources := es
            notifications := m.emulators.notifications ++ [.deviceModelsChanged] }
        deviceModels := deviceModels })

/-- The facade `Sdk::deviceModels()`. -/
def Sdk.deviceModels (m : EmulatorManager) : List DeviceModelData :=
  EmulatorManager.getDeviceModels m

/-- The facade `Sdk::setDeviceModels(deviceModels, context, functor)`, with the
value the functor receives. -/
def Sdk.setDeviceModels (m : EmulatorManager) (deviceModels : List DeviceModelData) :
    Bool × EmulatorManager :=
  EmulatorManager.setDeviceModels m deviceModels

/-- The facade `Sdk::emulator(uri)` on the emulator manager state. -/
def Sdk.emulator (m : EmulatorManager) (uri : String) : Option Emulator :=
  Registry.find Emulator.uri m.emulators uri

/-- An emulator manager with two emulators: E1 on device model "A" and E2 on
device model "B". -/
def EmulatorManager.twoEmulators : EmulatorManager :=
  { emulators :=
      { resources := [⟨"vm://e1", ⟨"A", (540, 960)⟩, true, false⟩,
                      ⟨"vm://e2", ⟨"B", (720, 1280)⟩, true, false⟩]
        notifications := [] }
    deviceModels := [⟨"A", (540, 960)⟩, ⟨"B", (720, 1280)⟩] }

/-! ## GdbServerReadyWatcher (merdevicedebugsupport.cpp, lines 57-105) -/

namespace GdbServerReadyWatcher

/-- The constant `GDB_SERVER_READY_TIMEOUT_MS`. -/
def GDB_SERVER_READY_TIMEOUT_MS : Int := 10000

/-- A terminal notification of a `RunWorker`. -/
inductive Report where
  | done
  | failure (message : String)
deriving DecidableEq, Repr

/-- The constant `MSECS_PER_DAY` of Qt: the milliseconds of a day. -/
def MSECS_PER_DAY : Int := 86400000

/-- The method `QTime::isValid()` of Qt 5.  A `QTime` is held as its member `mds`:
the milliseconds since midnight, or -1 (`NullTime`) when default-constructed. -/
def QTime.isValid (mds : Int) : Bool := decide (-1 < mds) && decide (mds < MSECS_PER_DAY)

/-- The method `QTime::ds()` of Qt 5: `mds == -1 ? 0 : mds`. -/
def QTime.ds (mds : Int) : Int := if mds = -1 then 0 else mds

/-- The method `QTime::msecsTo(t)` of Qt 5: 0 unless both times are valid, else the
difference of the times of day. -/
def QTime.msecsTo (mds t : Int) : Int :=
  if !QTime.isValid mds || !QTime.isValid t then 0 else QTime.ds t - QTime.ds mds

/-- The method `QTime::elapsed()` of Qt 5, called when `QTime::currentTime()` is
`currentTime`: `msecsTo(currentTime())`, a day longer when that is negative.  It
is a difference of times of day and starts again from 0 after 24 hours. -/
def QTime.elapsed (mds currentTime : Int) : Int :=
  let n := QTime.msecsTo mds currentTime
  if n < 0 then n + 86400 * 1000 else n

/-- The watcher: the gdbserver port it waits for (`gdbServerPort()` of the
ports gatherer), the messages appended, how often `m_usedPortsGatherer.start`
was called, the `QTime` member `m_startTime` (its `mds`), and the terminal
notifications reported so far, in order. -/
structure Watcher where
  gdbServerPort : Nat
  messages : List String
  pollsStarted : Nat
  startTime : Int
  reports : List Report
deriving DecidableEq, Repr

/-- A watcher right after its construction; `m_startTime` is the null time. -/
def Watcher.new (gdbServerPort : Nat) : Watcher :=
  { gdbServerPort := gdbServerPort, messages := [], pollsStarted := 0, startTime := -1,
    reports := [] }

/-- The call `reportDone()`. -/
def Watcher.reportDone (w : Watcher) : Watcher :=
  { w with reports := w.reports ++ [.done] }

/-- The call `reportFailure(message)`. -/
def Watcher.reportFailure (w : Watcher) (message : String) : Watcher :=
  { w with reports := w.reports ++ [.failure message] }

/-- The method `start()`, called when `QTime::currentTime()` is `now` (milliseconds
since midnight); `m_startTime.restart()` sets `m_startTime` to it. -/
def Watcher.start (w : Watcher) (now : Int) : Watcher :=
  let w := { w with messages := w.messages ++ ["Waiting for gdbserver..."] }
  let w := { w with pollsStarted := w.pollsStarted + 1 }
  { w with startTime := now }

/-- The value of `m_startTime.elapsed()` when `QTime::currentTime()` is `now`. -/
def Watcher.elapsed (w : Watcher) (now : Int) : Int := QTime.elapsed w.startTime now

/-- The slot `handlePortListReady()`, run when `QTime::currentTime()` is `now` and
the gatherer holds `usedPorts`. -/
def Watcher.handlePortListReady (w : Watcher) (usedPorts : List Nat) (now : Int) : Watcher :=
  if !usedPorts.contains w.gdbServerPort then
    if w.elapsed now > GDB_SERVER_READY_TIMEOUT_MS then
      w.reportFailure "Timeout waiting for gdbserver to become ready."
    else
      let w := { w with pollsStarted := w.pollsStarted + 1 }
      w.reportDone
  else
    w.reportDone

/-- The slot connected to `DeviceUsedPortsGatherer::error`: `reportFailure`
with the message of the gatherer. -/
def Watcher.handleError (w : Watcher) (message : String) : Watcher :=
  w.reportFailure message

/-- One answer of the used-ports gatherer: the ports in use and the value of
`QTime::currentTime()` when `portListReady` is delivered. -/
structure PortList where
  usedPorts : List Nat
  now : Int
deriving DecidableEq, Repr

/-- A watcher together with the number of polls already answered. -/
structure Session where
  watcher : Watcher
  answered : Nat
deriving DecidableEq, Repr

/-- Delivery of one `portListReady`: a poll that was started and not yet
answered is answered and the slot runs; with no poll outstanding, there is
nothing to deliver. -/
def Session.deliver (s : Session) (p : PortList) : Session :=
  if s.answered < s.watcher.pollsStarted then
    { watcher := s.watcher.handlePortListReady p.usedPorts p.now, answered := s.answered + 1 }
  else s

/-- The watcher is started when `QTime::currentTime()` is `startedAt` and the
answers arrive, one per poll, in the given order. -/
def session (gdbServerPort : Nat) (startedAt : Int) (answers : List PortList) : Session :=
  answers.foldl Session.deliver
    { watcher := (Watcher.new gdbServerPort).start startedAt, answered := 0 }

/-- Whether a poll is still to be answered. -/
def Session.outstanding (s : Session) : Bool := s.answered < s.watcher.pollsStarted

/-- The value of `QTime::currentTime()` at the instant `t`, in milliseconds on a
steady time line, of a system clock that is not changed meanwhile: the clock shows
the time of day `setting` at the instant 0 and runs on from there. -/
def currentTime (setting t : Int) : Int := (setting + t) % MSECS_PER_DAY

end GdbServerReadyWatcher

/-! ## MerEmulatorModeDialog::execDialog (meremulatormodedialog.cpp, lines 192-257) -/

namespace MerEmulatorModeDialog

/-- The calls of `execDialog` on the dialog, the emulator and its virtual
machine, as they appear in a trace. -/
inductive Call where
  | dialogExec
  | lockDown (enable : Bool)
  | setDisplayPropertiesCalled (deviceModel : String) (portrait : Bool) (scaled : Bool)
  | setDisplayPropertiesReturned (result : Bool)
  | connectTo
deriving DecidableEq, Repr

/-- What `execDialog` reads from its surroundings, in the order it reads it. -/
structure Env where
  /-- The value of `m_emulator != 0`. -/
  emulatorSet : Bool
  /-- The value of `m_ui == 0`. -/
  uiUnused : Bool
  /-- The value of `m_ui->deviceModelComboBox->count()`. -/
  modelCount : Nat
  /-- The value of `isOff()` while the dialog is set up (line 225). -/
  offAtSetup : Bool
  /-- The state in which an enabled 'restart emulator' check box is left. -/
  restartBoxLeftChecked : Bool
  /-- The value of `m_dialog->exec() == QDialog::Accepted`. -/
  accepted : Bool
  /-- The value of `isOff()` right after the dialog was accepted (line 234). -/
  offAtAccept : Bool
  /-- The device model selected in the combo box. -/
  currentDeviceModel : String
  /-- The value of `m_ui->portraitRadioButton->isChecked()`. -/
  portrait : Bool
  /-- The value of `m_ui->scaledViewModeRadioButton->isChecked()`. -/
  scaled : Bool
  /-- The value `Emulator::setDisplayProperties` delivers. -/
  setDisplayPropertiesResult : Bool
  /-- The value of `isOff()` after `setDisplayProperties` (line 246). -/
  offAfter : Bool
deriving DecidableEq, Repr

/-- The value of `m_ui->restartEmulatorCheckBox->isChecked()` once the dialog
has run: the box is unchecked and disabled when the virtual machine was off at
set-up or there is no device model to choose from (lines 225-228). -/
def Env.restartChecked (env : Env) : Bool :=
  let supportsMultipleModels := env.modelCount != 0
  if env.offAtSetup || !supportsMultipleModels then false else env.restartBoxLeftChecked

/-- Modelled from the spec: `execAsynchronous` (asynchronous.h, not in the tree),
which runs an asynchronous operation for a caller that needs its result: "every
async-returning operation suspends the logical caller (via the callback
contract) until the queued unit of work completes".  The trace holds the call
and then its completion with the delivered result, which is stored into the
caller's variable. -/
def execAsynchronous (deviceModel : String) (portrait scaled : Bool) (delivered : Bool) :
    Bool × List Call :=
  (delivered,
    [Call.setDisplayPropertiesCalled deviceModel portrait scaled,
     Call.setDisplayPropertiesReturned delivered])

/-- The function `execDialog()`: its return value and the trace of its calls. -/
def execDialog (env : Env) : Bool × List Call :=
  -- QTC_ASSERT(m_emulator != 0, return false)
  if !env.emulatorSet then (false, [])
  -- QTC_ASSERT(m_ui == 0, return false)
  else if !env.uiUnused then (false, [])
  else
    let trace := [Call.dialogExec]
    let result := env.accepted
    if !result then (result, trace)
    else
      let trace :=
        if !env.offAtAccept && env.restartChecked then trace ++ [Call.lockDown true]
        else trace
      let run := execAsynchronous env.currentDeviceModel env.portrait env.scaled
        env.setDisplayPropertiesResult
      let result := run.1
      let trace := trace ++ run.2
      let trace :=
        if env.offAfter && env.restartChecked then
          trace ++ [Call.lockDown false, Call.connectTo]
        else trace
      (result, trace)

end MerEmulatorModeDialog

/-! ## Signal forwarding (sdk.cpp, lines 83-104) -/

/-- Delivery of a signal emitted by a manager: every connection made for that
signal, in the order the connections were made, re-emits its facade signal with
the argument of the emission. -/
def SdkPrivate.emit {α : Type} (d : SdkPrivate) (signal : ManagerSignal) (argument : α) :
    List (SdkSignal × α) :=
  (d.connections.filter (fun c => c.signal == signal)).map (fun c => (c.slot, argument))

/-! ## The facade as a pass-through (sdk.cpp, lines 168-265) -/

/-- The registry operations of the facade. -/
inductive RegistryOp where
  | unusedVirtualMachines
  | buildEngines
  | buildEngine
  | createBuildEngine
  | addBuildEngine
  | removeBuildEngine
  | emulators
  | emulator
  | createEmulator
  | addEmulator
  | removeEmulator
  | deviceModels
  | deviceModel
  | setDeviceModels
  | devices
  | deviceById
  | deviceByEmulator
  | addDevice
  | removeDevice
deriving DecidableEq, Repr

/-- The number of parameters of each registry operation of the facade. -/
def RegistryOp.arity : RegistryOp → Nat
  | .unusedVirtualMachines => 2
  | .buildEngines => 0
  | .buildEngine => 1
  | .createBuildEngine => 3
  | .addBuildEngine => 1
  | .removeBuildEngine => 1
  | .emulators => 0
  | .emulator => 1
  | .createEmulator => 3
  | .addEmulator => 1
  | .removeEmulator => 1
  | .deviceModels => 0
  | .deviceModel => 1
  | .setDeviceModels => 3
  | .devices => 0
  | .deviceById => 1
  | .deviceByEmulator => 1
  | .addDevice => 1
  | .removeDevice => 1

/-- A body of the form `return Callee(parameters...)`: the function called and,
for each argument of the call, the position of the parameter passed. -/
structure CallExpr where
  callee : Callee
  arguments : List Nat
deriving DecidableEq, Repr

/-- The body of each registry operation as written in sdk.cpp. -/
def RegistryOp.body : RegistryOp → CallExpr
  | .unusedVirtualMachines => ⟨.VirtualMachineFactory_unusedVirtualMachines, [0, 1]⟩
  | .buildEngines => ⟨.BuildEngineManager_buildEngines, []⟩
  | .buildEngine => ⟨.BuildEngineManager_buildEngine, [0]⟩
  | .createBuildEngine => ⟨.BuildEngineManager_createBuildEngine, [0, 1, 2]⟩
  | .addBuildEngine => ⟨.BuildEngineManager_addBuildEngine, [0]⟩
  | .removeBuildEngine => ⟨.BuildEngineManager_removeBuildEngine, [0]⟩
  | .emulators => ⟨.EmulatorManager_emulators, []⟩
  | .emulator => ⟨.EmulatorManager_emulator, [0]⟩
  | .createEmulator => ⟨.EmulatorManager_createEmulator, [0, 1, 2]⟩
  | .addEmulator => ⟨.EmulatorManager_addEmulator, [0]⟩
  | .removeEmulator => ⟨.EmulatorManager_removeEmulator, [0]⟩
  | .deviceModels => ⟨.EmulatorManager_deviceModels, []⟩
  | .deviceModel => ⟨.EmulatorManager_deviceModel, [0]⟩
  | .setDeviceModels => ⟨.EmulatorManager_setDeviceModels, [0, 1, 2]⟩
  | .devices => ⟨.DeviceManager_devices, []⟩
  | .deviceById => ⟨.DeviceManager_deviceById, [0]⟩
  | .deviceByEmulator => ⟨.DeviceManager_deviceByEmulator, [0]⟩
  | .addDevice => ⟨.DeviceManager_addDevice, [0]⟩
  | .removeDevice => ⟨.DeviceManager_removeDevice, [0]⟩

/-- The parameters picked by a call, `none` when a position is out of range. -/
def CallExpr.actuals {α : Type} (parameters : List α) : List Nat → Option (List α)
  | [] => some []
  | i :: rest =>
    match parameters[i]?, CallExpr.actuals parameters rest with
    | some a, some as => some (a :: as)
    | _, _ => none

/-- Running a registry operation of the facade on given managers: the body's
callee is applied to the parameters the body passes, and what it returns and
the state it leaves are those of the facade operation. -/
def Sdk.exec {σ α β : Type} (managers : Callee → List α → σ → β × σ) (op : RegistryOp)
    (parameters : List α) (s : σ) : Option (β × σ) :=
  match CallExpr.actuals parameters op.body.arguments with
  | some actuals => some (managers op.body.callee actuals s)
  | none => none

/-- The manager or factory operation that corresponds to a facade operation, by
the specification: the operation of the same name on the manager of that
resource kind, and on the factory for the unused virtual machines. -/
def RegistryOp.corresponding : RegistryOp → Callee
  | .unusedVirtualMachines => .VirtualMachineFactory_unusedVirtualMachines
  | .buildEngines => .BuildEngineManager_buildEngines
  | .buildEngine => .BuildEngineManager_buildEngine
  | .createBuildEngine => .BuildEngineManager_createBuildEngine
  | .addBuildEngine => .BuildEngineManager_addBuildEngine
  | .removeBuildEngine => .BuildEngineManager_removeBuildEngine
  | .emulators => .EmulatorManager_emulators
  | .emulator => .EmulatorManager_emulator
  | .createEmulator => .EmulatorManager_createEmulator
  | .addEmulator => .EmulatorManager_addEmulator
  | .removeEmulator => .EmulatorManager_removeEmulator
  | .deviceModels => .EmulatorManager_deviceModels
  | .deviceModel => .EmulatorManager_deviceModel
  | .setDeviceModels => .EmulatorManager_setDeviceModels
  | .devices => .DeviceManager_devices
  | .deviceById => .DeviceManager_deviceById
  | .deviceByEmulator => .DeviceManager_deviceByEmulator
  | .addDevice => .DeviceManager_addDevice
  | .removeDevice => .DeviceManager_removeDevice

/-- The specification of a pure pass-through: the corresponding operation,
applied to the same arguments in the same state. -/
def Sdk.passThrough {σ α β : Type} (managers : Callee → List α → σ → β × σ)
    (op : RegistryOp) (parameters : List α) (s : σ) : β × σ :=
  managers op.corresponding parameters s

/-! ## The process-wide instance (sdk.cpp, lines 59-66 and 110-120) -/

/-- The `Sdk` objects that exist, by address, and the static `Sdk::s_instance`. -/
structure World where
  s_instance : Option Nat
  objects : List (Nat × SdkPrivate)
deriving DecidableEq, Repr

/-- The state at process start: `Sdk *Sdk::s_instance = nullptr`, no object. -/
def World.initial : World := { s_instance := none, objects := [] }

/-- The function `Sdk::instance()`. -/
def Sdk.instance_ (w : World) : Option Nat := w.s_instance

/-- A construction of an `Sdk` at address `self`, or the destruction of the one
at that address. -/
inductive LifeEvent where
  | construct (self : Nat) (isVersionedSettingsEnabled : Bool) (options : Options)
  | destroy (self : Nat)
deriving DecidableEq, Repr

/-- The condition of `Q_ASSERT(!s_instance)` at the start of the constructor. -/
def World.assertion (w : World) : LifeEvent → Bool
  | .construct _ _ _ => w.s_instance.isNone
  | .destroy _ => true

/-- One construction or destruction.  The constructor stores `this` in
`s_instance` and runs its body; the destructor waits on the command queue and
stores `nullptr`.  `none`: an object is constructed at the address of an
existing one, an object that does not exist is destroyed, or the destructor
dereferences a null `commandQueue_`. -/
def World.step (w : World) : LifeEvent → Option World
  | .construct self isVersionedSettingsEnabled options =>
    if w.objects.any (fun o => o.1 == self) then none
    else
      some { s_instance := some self
             objects := w.objects ++ [(self, Sdk.construct isVersionedSettingsEnabled options)] }
  | .destroy self =>
    match w.objects.find? (fun o => o.1 == self) with
    | none => none
    | some o =>
      if o.2.commandQueue_ then
        some { s_instance := none, objects := w.objects.filter (fun o => o.1 != self) }
      else none

/-- A sequence of constructions and destructions. -/
def World.run (w : World) : List LifeEvent → Option World
  | [] => some w
  | e :: es =>
    match w.step e with
    | some w1 => w1.run es
    | none => none

/-- Whether a sequence respects the constructor's assertion: no `Sdk` is
registered in `s_instance` whenever one is constructed. -/
def World.respects (w : World) : List LifeEvent → Bool
  | [] => true
  | e :: es =>
    w.assertion e &&
      match w.step e with
      | some w1 => w1.respects es
      | none => true

/-- The single-instance invariant: either no `Sdk` exists and `s_instance` is
null, or exactly one exists and `s_instance` is its address. -/
def World.single (w : World) : Prop :=
  (w.s_instance = none ∧ w.objects = []) ∨
    ∃ self d, w.s_instance = some self ∧ w.objects = [(self, d)]

/-! ## MerDeviceDebugSupport::start (merdevicedebugsupport.cpp, lines 133-162) -/

namespace MerDeviceDebugSupport

/-- The two mount point constants `start()` passes to `addSourcePathMap`:
`Sfdk::Constants::BUILD_ENGINE_SHARED_HOME_MOUNT_POINT` and
`Sfdk::Constants::BUILD_ENGINE_SHARED_SRC_MOUNT_POINT` (sfdkconstants.h). -/
inductive MountPoint where
  | BUILD_ENGINE_SHARED_HOME_MOUNT_POINT
  | BUILD_ENGINE_SHARED_SRC_MOUNT_POINT
deriving DecidableEq, Repr

/-- The calls `start()` makes on the debugger run tool. -/
inductive Call where
  | addSolibSearchDir (dir : String)
  | addSourcePathMap (mountPoint : MountPoint) (hostPath : String)
  | debuggerRunToolStart
deriving DecidableEq, Repr

/-- What `start()` reads of one project node: whether the node is a
`QmakeProFileNode`, `includedInExactParse()`, whether `projectType()` is
`SharedLibraryTemplate`, and the absolute path of the destination directory
inside the build directory. -/
structure ProjectNode where
  isQmakeProFileNode : Bool
  includedInExactParse : Bool
  isSharedLibraryTemplate : Bool
  destDirInBuildDir : String
deriving DecidableEq, Repr

/-- What `start()` reads from its surroundings: `isCppDebugging()`, the project
nodes in the order `forEachProjectNode` visits them, and the build engine of the
kit (`MerSdkKitAspect::buildEngine`, null when the kit has none). -/
structure Env where
  isCppDebugging : Bool
  projectNodes : List ProjectNode
  buildEngine : Option BuildEngine
deriving DecidableEq, Repr

/-- The body of the lambda given to `forEachProjectNode`. -/
def visitProjectNode (node : ProjectNode) : List Call :=
  if !node.isQmakeProFileNode || !node.includedInExactParse then []
  else if !node.isSharedLibraryTemplate then []
  else [Call.addSolibSearchDir node.destDirInBuildDir]

/-- The method `MerDeviceDebugSupport::start()`: the trace of its calls. -/
def start (env : Env) : List Call :=
  let trace : List Call :=
    if env.isCppDebugging then env.projectNodes.flatMap visitProjectNode else []
  let trace :=
    match env.buildEngine with
    | some engine =>
      if !engine.sharedHomePath.isEmpty then
        trace ++ [Call.addSourcePathMap .BUILD_ENGINE_SHARED_HOME_MOUNT_POINT
          engine.sharedHomePath]
      else trace
    | none => trace
  let trace :=
    match env.buildEngine with
    | some engine =>
      if !engine.sharedSrcPath.isEmpty then
        trace ++ [Call.addSourcePathMap .BUILD_ENGINE_SHARED_SRC_MOUNT_POINT
          engine.sharedSrcPath]
      else trace
    | none => trace
  trace ++ [Call.debuggerRunToolStart]

end MerDeviceDebugSupport

/-! ## CommandLineParser: static helpers (commandlineparser.cpp, lines 555-666) -/

namespace CommandLineParser

/-- The message of `unexpectedArgumentMessage(argument)`. -/
def unexpectedArgumentMessage (argument : String) : String :=
  "Unexpected argument: '" ++ argument ++ "'"

/-- The message of `missingArgumentMessage()`. -/
def missingArgumentMessage : String := "Argument expected"

/-- The message of `unrecognizedCommandMessage(command)`. -/
def unrecognizedCommandMessage (command : String) : String :=
  "Unrecognized command '" ++ command ++ "'"

/-- The function `checkPositionalArgumentsCount(arguments, min, max)`: its return
value and what it writes to `qerr()`.  `none` stands for `arguments.at(max)` with
`max` outside the list, which has no defined behaviour. -/
def checkPositionalArgumentsCount (arguments : List String) (min max : Int) :
    Option (Bool × List String) :=
  if (arguments.length : Int) < min then
    some (false, [missingArgumentMessage])
  else if max ≥ 0 && (arguments.length : Int) > max then
    match arguments[max.toNat]? with
    | some argument => some (false, [unexpectedArgumentMessage argument])
    | none => none
  else
    some (true, [])

/-- What `checkExclusiveOption` leaves behind: its return value, the option
stored through `out` (`none` for `nullptr`), and what it wrote to `qerr()`. -/
structure ExclusiveCheck where
  ok : Bool
  out : Option String
  errors : List String
deriving DecidableEq, Repr

/-- The loop of `checkExclusiveOption`, with the current value of `*out`.  An
option is named by its first name. -/
def checkExclusiveLoop (isSet : String → Bool) : List String → Option String → ExclusiveCheck
  | [], out => { ok := true, out := out, errors := [] }
  | option :: options, out =>
    if !isSet option then checkExclusiveLoop isSet options out
    else
      match out with
      | some earlier =>
        { ok := false, out := none
          errors := ["Cannot combine '" ++ earlier ++ "' and '" ++ option ++ "' options"] }
      | none => checkExclusiveLoop isSet options (some option)

/-- The function `checkExclusiveOption(parser, options, out)`; `isSet` is
`parser.isSet`. -/
def checkExclusiveOption (isSet : String → Bool) (options : List String) : ExclusiveCheck :=
  checkExclusiveLoop isSet options none

end CommandLineParser

/-! ## CommandLineParser: the constructor (commandlineparser.cpp, lines 54-338) -/

namespace CommandLineParser

/-- The values of `CommandLineParser::Result` the constructor assigns. -/
inductive Result where
  | BadUsage
  | Dispatch
  | Usage
  | Version
deriving DecidableEq, Repr

/-- The values of `CommandLineParser::Verbosity`. -/
inductive Verbosity where
  | Quiet
  | Normal
  | Debug
deriving DecidableEq, Repr

/-- What the constructor reads of a `Command` (command.h). -/
structure Command where
  name : String
  dynamic : Bool
  dynamicSubcommands : List String
  configOptions : List String
deriving DecidableEq, Repr

/-- What the constructor reads of a configuration `Option` (configuration.h): its
name, its `alias` (`none` for a null string), whether its argument type is
`MandatoryArgument`, and the name of the domain of its module. -/
structure ConfigOption where
  name : String
  aliasName : Option String
  mandatoryArgument : Bool
  domain : String
deriving DecidableEq, Repr

/-- The values of `OptionOccurence::Type` (configuration.h). -/
inductive OccurenceType where
  | Push
  | Mask
deriving DecidableEq, Repr

/-- An `OptionOccurence` that is not null: option, type and argument. -/
structure Occurence where
  option : String
  type : OccurenceType
  argument : String
deriving DecidableEq, Repr

/-- What a `QCommandLineParser` holds after a successful `parse`: the options
found, by name and in order, each with the value it was given if it takes one, and
the positional arguments. -/
structure Parsed where
  found : List (String × Option String)
  positionalArguments : List String
deriving DecidableEq, Repr

/-- The call `parser.isSet(option)`, the option named by its name. -/
def Parsed.isSet (p : Parsed) (name : String) : Bool :=
  p.found.any (fun f => f.1 == name)

/-- The call `parser.values(option)`: the values given to the option, in order. -/
def Parsed.values (p : Parsed) (name : String) : List String :=
  p.found.filterMap (fun f => if f.1 == name then f.2 else none)

/-- The usage text the constructor prints. -/
inductive UsageText where
  | allDomainsUsage
  | domainUsage (domain : String)
  | usage
  | briefUsage
  | commandBriefUsage (command : String)
  | commandUsage (command : String)
deriving DecidableEq, Repr

/-- What the constructor reads from outside the class: the dispatcher's domains
(by name, in order), options and commands; the constants
`Constants::GENERAL_DOMAIN_NAME` and `Constants::OPTIONS_ENV_VAR`
(sfdkconstants.h); the values of the environment variables named by
`OPTIONS_ENV_VAR` and `Constants::NO_SESSION_ENV_VAR` (`none` when unset);
`QtcProcess::splitArgs` with `abortOnMeta` (`none` for a
split error); `QCommandLineParser::parse` for the options the constructor
registers (the error text on failure); and `OptionOccurence::fromString` (the
error string for a null occurence). -/
structure Env where
  domains : List String
  GENERAL_DOMAIN_NAME : String
  OPTIONS_ENV_VAR : String
  options : List ConfigOption
  command : String → Option Command
  optionsEnvVar : Option String
  noSessionEnvVar : Option String
  splitArgs : String → Option (List String)
  parse : List String → Except String Parsed
  occurenceFromString : String → Except String Occurence

/-- The members of a constructed `CommandLineParser` and the effects of its
construction outside the object: `pushed` are the calls of
`Configuration::push(Configuration::Command, occurence)` in order, `validators`
the options and arguments of the validators appended to
`m_configOptionsValidators`, `pagerEnabled` is false after
`Pager::setEnabled(false)`, `errors` are the messages written to `qerr()` and
`shown` is the usage text printed. -/
structure Parser where
  result : Result
  verbosity : Verbosity
  noSession : Bool
  useSystemSettingsOnly : Bool
  command : Option Command
  commandArguments : List String
  pushed : List Occurence
  validators : List (String × String)
  pagerEnabled : Bool
  errors : List String
  shown : Option UsageText
deriving DecidableEq, Repr

/-- The members before the constructor body assigns any of them (the in-class
initialisers of commandlineparser.h): normal verbosity, no flag set, no command;
`result` is the value an early return assigns. -/
def Parser.badUsage (errors : List String) : Parser :=
  { result := .BadUsage, verbosity := .Normal, noSession := false,
    useSystemSettingsOnly := false, command := none, commandArguments := [],
    pushed := [], validators := [], pagerEnabled := true, errors := errors, shown := none }

/-- Whether `qEnvironmentVariableIsEmpty` holds of a variable. -/
def envIsEmpty : Option String → Bool
  | none => true
  | some value => value.isEmpty

/-- The function `environmentVariableAsArguments(name, &ok)` for the variable
`OPTIONS_ENV_VAR`: `none` stands for `*ok = false`. -/
def environmentVariableAsArguments (env : Env) : Option (List String) :=
  if envIsEmpty env.optionsEnvVar then some []
  else
    match env.optionsEnvVar with
    | none => some []
    | some value => env.splitArgs value

/-- Whether `QString::startsWith('-')` holds. -/
def startsWithDash (argument : String) : Bool :=
  argument.data.head? == some '-'

/-- The names of `m_domainHelpOptions`: one option `help-<domain>` per domain
other than the general one, in the order of the domains. -/
def domainHelpOptions (env : Env) : List (String × String) :=
  (env.domains.filter (fun d => d != env.GENERAL_DOMAIN_NAME)).map
    (fun d => ("help-" ++ d, d))

/-- The entries of `m_aliasOptions`: the options that have an alias, in the order of
the dispatcher's options; one whose alias is set without a mandatory argument is
skipped (`QTC_ASSERT(..., continue)`). -/
def aliasOptions (env : Env) : List (String × ConfigOption) :=
  env.options.filterMap fun option =>
    match option.aliasName with
    | none => none
    | some aliasName => if option.mandatoryArgument then some (aliasName, option) else none

/-- Lines 126-163 of the constructor: the arguments that are parsed, or the
messages of the usage error with which the constructor returns. -/
def allArguments (env : Env) (argv0 : String) (arguments : List String) :
    Except (List String) (List String) :=
  match environmentVariableAsArguments env with
  | none =>
    .error ["Malformed content of the \"" ++ env.OPTIONS_ENV_VAR ++ "\" environment variable"]
  | some argumentsFromEnvironment =>
    if !argumentsFromEnvironment.isEmpty then
      match env.parse (argv0 :: argumentsFromEnvironment) with
      | .error errorText =>
        .error [errorText ++ " (Arguments received via the \"" ++ env.OPTIONS_ENV_VAR
          ++ "\" environment variable)"]
      | .ok parsed =>
        match parsed.positionalArguments with
        | first :: _ =>
          .error ["Unexpected positional argument received via the \"" ++ env.OPTIONS_ENV_VAR
            ++ "\" environment variable: \"" ++ first ++ "\""]
        | [] => .ok (argv0 :: (argumentsFromEnvironment ++ arguments))
    else .ok (argv0 :: arguments)

/-- The UTF-16 code units of a text, which `QString` holds, counts and
compares. -/
def utf16 : List Char → List Nat
  | [] => []
  | c :: cs =>
    if c.toNat < 0x10000 then c.toNat :: utf16 cs
    else (0xD800 + (c.toNat - 0x10000) / 0x400) :: (0xDC00 + (c.toNat - 0x10000) % 0x400)
      :: utf16 cs

/-- The function `dashOption(option)`; `option.length()` counts UTF-16 code
units. -/
def dashOption (option : String) : String :=
  if startsWithDash option then option
  else if (utf16 option.data).length == 1 then "-" ++ option
  else "--" ++ option

/-- The message of `invalidArgumentToOptionMessage(problem, option, argument)`, as
the chain of `QString::arg` builds it from an option and an argument that hold no
place marker (`%` and a number). -/
def invalidArgumentToOptionMessage (problem option argument : String) : String :=
  "Invalid argument to " ++ dashOption option ++ ": '" ++ argument ++ "': " ++ problem

/-- The message of `unexpectedEmptyArgumentToOptionMessage(option)`. -/
def unexpectedEmptyArgumentToOptionMessage (option : String) : String :=
  "Unexpected empty argument to " ++ dashOption option

/-- Lines 221-244: the loop over `parser.values(cOption)`, given
`OptionOccurence::fromString`.  It returns the
occurences pushed and the validators appended so far, and the error of the value
at which it stopped, if it did. -/
def pushConfigOptions (occurenceFromString : String → Except String Occurence) :
    List String → List Occurence → List (String × String) →
      List Occurence × List (String × String) × Option String
  | [], pushed, validators => (pushed, validators, none)
  | value :: values, pushed, validators =>
    match occurenceFromString value with
    | .error errorString =>
      (pushed, validators, some (invalidArgumentToOptionMessage errorString "c" value))
    | .ok occurence =>
      let validators :=
        if occurence.type == .Push && !occurence.argument.isEmpty then
          validators ++ [("c", value)]
        else validators
      pushConfigOptions occurenceFromString values (pushed ++ [occurence]) validators

/-- Lines 246-271: the loop over `m_aliasOptions`.  An alias option takes a value,
so `parser.values` of one that is set is not empty; for a `Parsed` in which it is,
the empty string stands for `last()`. -/
def pushAliasOptions (parsed : Parsed) :
    List (String × ConfigOption) → List Occurence → List (String × String) →
      List Occurence × List (String × String) × Option String
  | [], pushed, validators => (pushed, validators, none)
  | (aliasName, option) :: rest, pushed, validators =>
    if !parsed.isSet aliasName then pushAliasOptions parsed rest pushed validators
    else
      let argument := (parsed.values aliasName).getLast?.getD ""
      if argument.isEmpty then
        (pushed, validators, some (unexpectedEmptyArgumentToOptionMessage aliasName))
      else
        pushAliasOptions parsed rest
          (pushed ++ [{ option := option.name, type := .Push, argument := argument }])
          (validators ++ [(aliasName, argument)])

/-- Lines 294-299: the arguments of a dynamic command up to the first one that
does not start with '-'. -/
def leadingOptions : List String → List String
  | [] => []
  | argument :: rest =>
    if !startsWithDash argument then [] else argument :: leadingOptions rest

/-- Lines 301-308: the arguments of a command with dynamic subcommands up to the
first one that follows a dynamic subcommand, is not one itself and does not start
with '-'. -/
def upToDynamicArgument (dynamicSubcommands : List String) :
    Bool → List String → List String
  | _, [] => []
  | underDynamic, argument :: rest =>
    if dynamicSubcommands.contains argument then
      argument :: upToDynamicArgument dynamicSubcommands true rest
    else if underDynamic && !startsWithDash argument then []
    else argument :: upToDynamicArgument dynamicSubcommands underDynamic rest

/-- Lines 293-311: the list `commandArgumentsWithoutDynamicSubcommands`. -/
def commandArgumentsWithoutDynamicSubcommands (command : Command)
    (commandArguments : List String) : List String :=
  if command.dynamic then leadingOptions commandArguments
  else if !command.dynamicSubcommands.isEmpty then
    upToDynamicArgument command.dynamicSubcommands false commandArguments
  else commandArguments

/-- The function `domainUsage(out, domain)`, lines 448-470, as to what it prints:
for the general domain it returns at its `QTC_ASSERT` with nothing printed. -/
def domainUsage (env : Env) (domain : String) : Option UsageText :=
  if domain == env.GENERAL_DOMAIN_NAME then none else some (.domainUsage domain)

/-- Lines 313-337: the result of the scan for help requests and the usage text
printed. -/
def helpRequest (env : Env) (command : Command) (scanned : List String) :
    Result × Option UsageText :=
  if scanned.contains "-h" then (.Usage, some (.commandBriefUsage command.name))
  else if scanned.contains "--help" then (.Usage, some (.commandUsage command.name))
  else if scanned.contains "--help-all" then (.Usage, some .allDomainsUsage)
  else
    match env.domains.find? (fun d => scanned.contains ("--help-" ++ d)) with
    | some d => (.Usage, domainUsage env d)
    | none => (.Dispatch, none)

end CommandLineParser

namespace CommandLineParser

/-- Lines 273-337 of the constructor: the command name, the command arguments
and the scan for help requests.  `init` holds the members as assigned so far. -/
def commandStage (env : Env) (parsed : Parsed) (init : Parser) : Parser :=
  match parsed.positionalArguments with
  | [] => { init with errors := ["Command name expected"] }
  | commandName :: positionalArguments =>
    match env.command commandName with
    | none => { init with errors := [unrecognizedCommandMessage commandName] }
    | some command =>
      let init :=
        { init with command := some command, commandArguments := positionalArguments }
      let scanned := commandArgumentsWithoutDynamicSubcommands command init.commandArguments
      let request := helpRequest env command scanned
      { init with result := request.1, shown := request.2 }

/-- Lines 210-271 of the constructor: the session flags and the configuration
pushed with `-c` and with the alias options. -/
def configurationStage (env : Env) (parsed : Parsed) (init : Parser) : Parser :=
  let init :=
    if parsed.isSet "no-session" || !envIsEmpty env.noSessionEnvVar then
      { init with noSession := true }
    else init
  -- "config" is more in line with the UI, "settings" more with the code...
  let init :=
    if parsed.isSet "system-config-only" then
      { init with useSystemSettingsOnly := true, noSession := true }
    else init
  match pushConfigOptions env.occurenceFromString (parsed.values "c") [] [] with
  | (pushed, validators, some error) =>
    { init with pushed := pushed, validators := validators, errors := [error] }
  | (pushed, validators, none) =>
    match pushAliasOptions parsed (aliasOptions env) pushed validators with
    | (pushed, validators, some error) =>
      { init with pushed := pushed, validators := validators, errors := [error] }
    | (pushed, validators, none) =>
      commandStage env parsed { init with pushed := pushed, validators := validators }

/-- Lines 183-208 of the constructor: the global help options and `--version`. -/
def helpStage (env : Env) (parsed : Parsed) (init : Parser) : Parser :=
  if parsed.isSet "help-all" then
    { init with result := .Usage, shown := some .allDomainsUsage }
  else
    match (domainHelpOptions env).find? (fun o => parsed.isSet o.1) with
    | some o => { init with result := .Usage, shown := domainUsage env o.2 }
    | none =>
      if parsed.isSet "help" then { init with result := .Usage, shown := some .usage }
      else if parsed.isSet "h" then { init with result := .Usage, shown := some .briefUsage }
      else if parsed.isSet "version" then { init with result := .Version }
      else configurationStage env parsed init

/-- Lines 171-337 of the constructor: what follows a successful
`parser.parse(allArguments)`.  Options are named as in their declarations: `h`,
`help`, `help-all`, `quiet`, `debug`, `version`, `no-pager`, `c`, `no-session`,
`system-config-only`.  The members start from their initial values, with the
result an early return assigns. -/
def afterParse (env : Env) (parsed : Parsed) : Parser :=
  let init := Parser.badUsage []
  -- if (parser.isSet(noPagerOption)) Pager::setEnabled(false)
  let init := if parsed.isSet "no-pager" then { init with pagerEnabled := false } else init
  let exclusive := checkExclusiveOption parsed.isSet ["quiet", "debug"]
  if !exclusive.ok then { init with errors := exclusive.errors }
  else
    let init :=
      if parsed.isSet "quiet" then { init with verbosity := .Quiet }
      else if parsed.isSet "debug" then { init with verbosity := .Debug }
      else init
    helpStage env parsed init

/-- The arguments the constructor parses after the environment stage and what
`QCommandLineParser::parse` makes of them; `none` when the constructor returned
with a usage error before or at that parse. -/
def parsedCommandLine (env : Env) (argv0 : String) (arguments : List String) :
    Option Parsed :=
  match allArguments env argv0 arguments with
  | .error _ => none
  | .ok all =>
    match env.parse all with
    | .error _ => none
    | .ok parsed => some parsed

/-- The constructor `CommandLineParser::CommandLineParser(arguments)`, for the
argument list `argv0 :: arguments` (the arguments of the application, of which
the constructor takes `first()` and `mid(1)`). -/
def construct (env : Env) (argv0 : String) (arguments : List String) : Parser :=
  match allArguments env argv0 arguments with
  | .error errors => Parser.badUsage errors
  | .ok all =>
    match env.parse all with
    | .error errorText => Parser.badUsage [errorText]
    | .ok parsed => afterParse env parsed

/-! ### A parser and a dispatcher for concrete runs -/

/-- The name and the value of a long option argument without its dashes:
`name` or `name=value`. -/
def splitAssignment (body : List Char) : List Char × Option (List Char) :=
  match body.span (fun c => c != '=') with
  | (name, []) => (name, none)
  | (name, _ :: value) => (name, some value)

/-- A model of `QCommandLineParser::parse` (Qt) in the mode the constructor sets,
for options without a value (`flags`) and options with one (`valued`), used for
concrete runs: `--` ends the options, `--name` and `--name=value` are long
options, `-x` is a short option, an option with a value that has none attached
takes the next argument (`pending` is such an option, with its spelling), and the
first positional argument makes every later argument positional.  The list starts
after the program name. -/
def qtParseArguments (flags valued : List String) :
    List String → Option (String × String) → List (String × Option String) →
      Except String Parsed
  | [], none, found => .ok { found := found, positionalArguments := [] }
  | [], some pending, _ => .error ("Missing value after '" ++ pending.2 ++ "'.")
  | argument :: rest, some pending, found =>
    qtParseArguments flags valued rest none (found ++ [(pending.1, some argument)])
  | argument :: rest, none, found =>
    if argument == "--" then .ok { found := found, positionalArguments := rest }
    else if argument.data.take 2 == ['-', '-'] then
      let name := String.mk (splitAssignment (argument.data.drop 2)).1
      let value := (splitAssignment (argument.data.drop 2)).2
      if valued.contains name then
        match value with
        | some v =>
          qtParseArguments flags valued rest none (found ++ [(name, some (String.mk v))])
        | none => qtParseArguments flags valued rest (some (name, "--" ++ name)) found
      else if flags.contains name then
        match value with
        | some _ => .error ("Unexpected value after '--" ++ name ++ "'.")
        | none => qtParseArguments flags valued rest none (found ++ [(name, none)])
      else .error ("Unknown option '" ++ name ++ "'.")
    else if startsWithDash argument && argument.length == 2 then
      let name := String.mk (argument.data.drop 1)
      if valued.contains name then
        qtParseArguments flags valued rest (some (name, "-" ++ name)) found
      else if flags.contains name then
        qtParseArguments flags valued rest none (found ++ [(name, none)])
      else .error ("Unknown option '" ++ name ++ "'.")
    else .ok { found := found, positionalArguments := argument :: rest }

/-- Splitting at blanks, for concrete runs: what `QtcProcess::splitArgs` returns
for a value without quotes and shell constructs. -/
def splitAtBlanks : List Char → List Char → List String
  | [], current => if current.isEmpty then [] else [String.mk current]
  | c :: cs, current =>
    if c == ' ' then
      if current.isEmpty then splitAtBlanks cs []
      else String.mk current :: splitAtBlanks cs []
    else splitAtBlanks cs (current ++ [c])

/-- The options without a value that the constructor registers for the given
domains. -/
def registeredFlags (domains : List String) (general : String) : List String :=
  ["h", "help", "help-all"] ++
    ((domains.filter (fun d => d != general)).map (fun d => "help-" ++ d)) ++
    ["quiet", "debug", "version", "no-pager", "no-session", "system-config-only"]

/-- A small installation for concrete runs: the domains `general` and `building`,
no configuration option with an alias, the commands `build` (plain), `engine`
(with the dynamic subcommand `exec`) and `run` (dynamic); the environment
variables unset; arguments split at blanks; `-c` values of the form `name=value`
or `name`. -/
def Env.sample : Env :=
  { domains := ["general", "building"]
    GENERAL_DOMAIN_NAME := "general"
    OPTIONS_ENV_VAR := "SFDK_OPTIONS"
    options := []
    command := fun name =>
      if name == "build" then some ⟨"build", false, [], ["target", "no-fix-version"]⟩
      else if name == "engine" then some ⟨"engine", false, ["exec"], []⟩
      else if name == "run" then some ⟨"run", true, [], []⟩
      else none
    optionsEnvVar := none
    noSessionEnvVar := none
    splitArgs := fun value => some (splitAtBlanks value.data [])
    parse := fun arguments =>
      qtParseArguments (registeredFlags ["general", "building"] "general") ["c"]
        (arguments.drop 1) none []
    occurenceFromString := fun value =>
      match splitAssignment value.data with
      | ([], _) => .error "Option name expected"
      | (name, none) => .ok ⟨String.mk name, .Push, ""⟩
      | (name, some []) => .ok ⟨String.mk name, .Mask, ""⟩
      | (name, some argument) => .ok ⟨String.mk name, .Push, String.mk argument⟩ }

end CommandLineParser

namespace CommandLineParser

/-- Whether one of the global help options or `--version` is set: `--help-all`,
a `--help-<domain>` option, `--help`, `-h` or `--version`. -/
def globalHelpOrVersion (env : Env) (parsed : Parsed) : Bool :=
  parsed.isSet "help-all" || (domainHelpOptions env).any (fun o => parsed.isSet o.1) ||
    parsed.isSet "help" || parsed.isSet "h" || parsed.isSet "version"

/-- Whether a parse reaches the configuration stage (line 210): `--quiet` and
`--debug` are not combined and no global help or version option is set. -/
def reachesConfigurationStage (env : Env) (parsed : Parsed) : Bool :=
  (checkExclusiveOption parsed.isSet ["quiet", "debug"]).ok && !globalHelpOrVersion env parsed

/-- Whether the configuration pushed on the command line is accepted: neither the
loop over the `-c` values nor the loop over the alias options stops with an
error. -/
def configurationAccepted (env : Env) (parsed : Parsed) : Bool :=
  match pushConfigOptions env.occurenceFromString (parsed.values "c") [] [] with
  | (_, _, some _) => false
  | (pushed, validators, none) =>
    match pushAliasOptions parsed (aliasOptions env) pushed validators with
    | (_, _, some _) => false
    | (_, _, none) => true

/-- A help request among the arguments of a command: `-h`, `--help`,
`--help-all` or `--help-<domain>` for a domain of the dispatcher. -/
def IsHelpRequest (env : Env) (argument : String) : Prop :=
  argument = "-h" ∨ argument = "--help" ∨ argument = "--help-all" ∨
    ∃ d ∈ env.domains, argument = "--help-" ++ d

/-- An argument that ends the scan of a command with dynamic subcommands is in
the list: one that is not a dynamic subcommand name, does not start with '-' and
follows a dynamic subcommand name. -/
def HasDynamicArgument (dynamicSubcommands : List String) (arguments : List String) : Prop :=
  ∃ before d between b after, arguments = before ++ d :: (between ++ b :: after) ∧
    d ∈ dynamicSubcommands ∧ b ∉ dynamicSubcommands ∧ startsWithDash b = false

/-- Where help requests are looked for, in the words of the claim: for a command
marked dynamic, before the first argument that does not start with '-'; else,
for a command with dynamic subcommands, before the first argument not starting
with '-' and not a dynamic subcommand name that follows a dynamic subcommand
name; for any other command, anywhere. -/
def HelpRequested (env : Env) (command : Command) (arguments : List String) : Prop :=
  ∃ before request after, arguments = before ++ request :: after ∧
    IsHelpRequest env request ∧
    if command.dynamic then ∀ x ∈ before, startsWithDash x = true
    else if command.dynamicSubcommands.isEmpty = false then
      ¬HasDynamicArgument command.dynamicSubcommands before
    else True

end CommandLineParser

namespace CommandLineParser

/-- The surroundings with the options environment variable set to the given value
(`none`: unset), everything else the same. -/
def Env.withOptionsEnvVar (env : Env) (value : Option String) : Env :=
  { env with optionsEnvVar := value }

end CommandLineParser

namespace CommandLineParser

/-- Whether the scan of a command with dynamic subcommands, started with the
given `underDynamic`, stops before the end of the list. -/
def stops (dynamicSubcommands : List String) : Bool → List String → Bool
  | _, [] => false
  | underDynamic, x :: rest =>
    (!dynamicSubcommands.contains x && !startsWithDash x && underDynamic) ||
      stops dynamicSubcommands (underDynamic || dynamicSubcommands.contains x) rest

end CommandLineParser

/-! ## CommandLineParser: compact option lists (commandlineparser.cpp, lines 722-787) -/

namespace CommandLineParser

/-- Whether `\w` of the regular expressions matches a character: the letters and
digits of ASCII and '_'. -/
def isWordChar (c : Char) : Bool := c.isAlphanum || c == '_'

/-- Whether `\b` matches in front of a word character, given the character before
it (`none` at the start of the text). -/
def wordStartsAfter : Option Char → Bool
  | none => true
  | some c => !isWordChar c

/-- Whether the regular expression `\bno-` matches somewhere in a text, of which
the character before its start is given.  A text is the list of its characters. -/
def containsNo : Option Char → List Char → Bool
  | _, [] => false
  | previous, c :: cs =>
    (("no-".toList).isPrefixOf (c :: cs) && wordStartsAfter previous) ||
      containsNo (some c) cs

/-- Whether a name is kept by `names.filter(oppositeCandidateRe)`: the regular
expression `\bno-` matches in it. -/
def isOppositeCandidate (name : List Char) : Bool := containsNo none name

/-- Whether `oppositeNameRe`, that is `.*\bno-` followed by the escaped `name` and
`$`, matches a text exactly (as `QStringList::indexOf` requires): the text ends
with `no-` and the name, what stands before has no line feed (`.` does not match
one), and `no-` starts at a word boundary. -/
def isOppositeOf (name opposite : List Char) : Bool :=
  ("no-".toList ++ name).isSuffixOf opposite &&
    !(opposite.take (opposite.length - (name.length + 3))).contains '\n' &&
    wordStartsAfter (opposite.take (opposite.length - (name.length + 3))).getLast?

/-- The first text a predicate holds of, and the list without it: the element
`indexOf` finds and `takeAt` removes. -/
def takeFirstMatch (p : List Char → Bool) :
    List (List Char) → Option (List Char × List (List Char))
  | [] => none
  | x :: xs =>
    if p x then some (x, xs)
    else
      match takeFirstMatch p xs with
      | none => none
      | some (y, rest) => some (y, x :: rest)

/-- The text `opposite.chopped(name.length())`. -/
def chopped (opposite : List Char) (n : Nat) : List Char :=
  opposite.take (opposite.length - n)

/-- The loop of `compactOptions` over `names`, with the current values of
`oppositeCandidates`, `compactedOpposites` and `compacted`, followed by
`compacted += oppositeCandidates`. -/
def compactLoop : List (List Char) → List (List Char) → List (List Char) →
    List (List Char) → List (List Char)
  | [], oppositeCandidates, _, compacted => compacted ++ oppositeCandidates
  | name :: names, oppositeCandidates, compactedOpposites, compacted =>
    if oppositeCandidates.contains name then
      compactLoop names oppositeCandidates compactedOpposites compacted
    else if compactedOpposites.contains name then
      compactLoop names oppositeCandidates compactedOpposites compacted
    else
      match takeFirstMatch (isOppositeOf name) oppositeCandidates with
      | none =>
        compactLoop names oppositeCandidates compactedOpposites (compacted ++ [name])
      | some (opposite, remaining) =>
        let oppositePrefix := chopped opposite name.length
        compactLoop names remaining (opposite :: compactedOpposites)
          (compacted ++ [['['] ++ oppositePrefix ++ [']'] ++ name])

/-- The function `compactOptions(names)`. -/
def compactOptions (names : List (List Char)) : List (List Char) :=
  compactLoop names (names.filter isOppositeCandidate) [] []

/-- An opposite name of `name`, in the words of the claim and with what the
regular expression adds to them: a text `q`, then `no-`, then `name`, where `q`
holds no line feed and `no-` starts at a word boundary, that is, `q` is empty or
ends in a character that is neither a letter or digit of ASCII nor '_'. -/
def IsOppositeName (name opposite : List Char) : Prop :=
  ∃ q, opposite = q ++ "no-".toList ++ name ∧ '\n' ∉ q ∧
    ∀ c, q.getLast? = some c → isWordChar c = false

/-- The first opposite name of `name` in a list, in list order. -/
def IsFirstOppositeName (name : List Char) (names : List (List Char))
    (opposite : List Char) : Prop :=
  ∃ before after, names = before ++ opposite :: after ∧ IsOppositeName name opposite ∧
    ∀ x ∈ before, ¬IsOppositeName name x

/-- The text `s.mid(s.indexOf(']') + 1)`: what follows the first ']', or all of
the text when it has none. -/
def afterBracket (s : List Char) : List Char :=
  match s.span (fun c => c != ']') with
  | (_, []) => s
  | (_, _ :: rest) => rest

/-- The order `operator<` of `QString`: lexicographic on the code units, a proper
initial part coming first. -/
def lexLess : List Nat → List Nat → Bool
  | _, [] => false
  | [], _ :: _ => true
  | a :: as, b :: bs => decide (a < b) || (a == b && lexLess as bs)

/-- The comparator given to `Utils::sort` in `listRelatedConfigurationOptions`:
`s1Base < s2Base`. -/
def baseLess (s1 s2 : List Char) : Bool :=
  lexLess (utf16 (afterBracket s1)) (utf16 (afterBracket s2))

/-- What a comparator has to be for `Utils::sort` (`std::stable_sort`) to order by
it, a strict weak ordering: nothing is less than itself, less is transitive, and
what is less than a third is less than a second or the second less than the
third. -/
def StrictWeakOrder (less : List Char → List Char → Bool) : Prop :=
  (∀ a, less a a = false) ∧
  (∀ a b c, less a b = true → less b c = true → less a c = true) ∧
  (∀ a b c, less a c = true → less a b = true ∨ less b c = true)

/-- What `Utils::sort` (utils/algorithm.h) does with a strict weak ordering: it
returns the same entries, rearranged so that no entry is less than an earlier
one. -/
def SortsBy
    (sort : (List Char → List Char → Bool) → List (List Char) → List (List Char)) : Prop :=
  ∀ less l, StrictWeakOrder less →
    (sort less l).Perm l ∧ (sort less l).Sorted (fun a b => less b a = false)

/-- The function `listRelatedConfigurationOptions(command)`, given the names of
the command's configuration options.  `sort` is `Utils::sort` (utils/algorithm.h)
with a comparator. -/
def listRelatedConfigurationOptions
    (sort : (List Char → List Char → Bool) → List (List Char) → List (List Char))
    (names : List (List Char)) : List Char :=
  let compacted := compactOptions names
  let compacted := sort baseLess compacted
  let quoted := compacted.map (fun s => ['\''] ++ s ++ ['\''])
  ", ".toList.intercalate quoted

/-- A sort by a comparator, for concrete runs: insertion sort, which keeps the
order of entries the comparator does not tell apart. -/
def sortByInsertion (less : List Char → List Char → Bool) (l : List (List Char)) :
    List (List Char) :=
  l.insertionSort (fun a b => less b a = false)

end CommandLineParser

/-! ## Teardown order -/

/-- An `Sdk` whose constructor ran to completion holds every owned member. -/
theorem Sdk.construct_holds (ver : Bool) (options : Options)
    (h : options.consistent = true) (m : Member) :
    (Sdk.construct ver options).holds m = true := by
  obtain ⟨v, s, c⟩ := options
  cases v <;> cases s <;> cases c <;> cases ver <;> cases m <;>
    first | rfl | exact absurd h (by decide)

/-- An `Sdk` whose constructor took the early return of its first `QTC_ASSERT`
holds no command queue. -/
theorem Sdk.construct_inconsistent (ver : Bool) (options : Options)
    (h : options.consistent = false) :
    Sdk.construct ver options = SdkPrivate.fresh := by
  obtain ⟨v, s, c⟩ := options
  cases v <;> cases s <;> cases c <;> cases ver <;>
    first | rfl | exact absurd h (by decide)

/-- C1: destroying an `Sdk` that holds a command queue (as every `Sdk` does whose
constructor ran to completion) produces the trace `commandQueueWait,
clearInstance, destroyMember ...`: `wait()` is called exactly once, as the first
step, before `s_instance` is cleared and before any owned member (command queue,
virtual machine factory, managers) is destroyed, whatever the declaration order
of the members; every member the `Sdk` holds is destroyed after it; and the body
of no facade operation of sdk.cpp contains a call of `wait()`. -/
theorem Sdk.destroy_waits_once_before_teardown (declarationOrder : List Member)
    (d : SdkPrivate) (h : d.commandQueue_ = true) :
    ∃ rest : List TeardownEvent,
      Sdk.destroy declarationOrder d
          = some (TeardownEvent.commandQueueWait :: TeardownEvent.clearInstance :: rest)
        ∧ (TeardownEvent.commandQueueWait :: TeardownEvent.clearInstance :: rest).count
            TeardownEvent.commandQueueWait = 1
        ∧ (∀ e ∈ rest, ∃ m, e = TeardownEvent.destroyMember m)
        ∧ (∀ m ∈ declarationOrder, d.holds m = true → TeardownEvent.destroyMember m ∈ rest)
        ∧ ∀ op : FacadeOp, Callee.CommandQueue_wait ∉ op.calls := by
  refine ⟨(declarationOrder.reverse.filter d.holds).map TeardownEvent.destroyMember,
    ?_, ?_, ?_, ?_, ?_⟩
  · simp [Sdk.destroy, h]
  · have hnot : TeardownEvent.commandQueueWait ∉
        (declarationOrder.reverse.filter d.holds).map TeardownEvent.destroyMember := by
      simp
    rw [List.count_cons_self, List.count_cons_of_ne (by decide),
      List.count_eq_zero_of_not_mem hnot]
  · intro e he
    obtain ⟨m, _, rfl⟩ := List.mem_map.mp he
    exact ⟨m, rfl⟩
  · intro m hm hheld
    exact List.mem_map.mpr ⟨m, List.mem_filter.mpr ⟨List.mem_reverse.mpr hm, hheld⟩, rfl⟩
  · intro op
    cases op <;> decide

/-- C1 at a concrete input: the `Sdk` constructed with default options, its
members declared in the order of `Member.all`. -/
theorem Sdk.destroy_waits_once_before_teardown_witness :
    (Sdk.construct false ⟨false, false, false⟩).commandQueue_ = true ∧
    ∃ rest : List TeardownEvent,
      Sdk.destroy Member.all (Sdk.construct false ⟨false, false, false⟩)
          = some (TeardownEvent.commandQueueWait :: TeardownEvent.clearInstance :: rest)
        ∧ (TeardownEvent.commandQueueWait :: TeardownEvent.clearInstance :: rest).count
            TeardownEvent.commandQueueWait = 1
        ∧ (∀ e ∈ rest, ∃ m, e = TeardownEvent.destroyMember m)
        ∧ (∀ m ∈ Member.all, (Sdk.construct false ⟨false, false, false⟩).holds m = true →
            TeardownEvent.destroyMember m ∈ rest)
        ∧ ∀ op : FacadeOp, Callee.CommandQueue_wait ∉ op.calls :=
  ⟨rfl, Sdk.destroy_waits_once_before_teardown Member.all
    (Sdk.construct false ⟨false, false, false⟩) rfl⟩

/-! ## Ordering in the command queue -/

namespace CommandQueue

theorem takeFirst_none {p : Entry → Bool} :
    ∀ {l : List Entry}, takeFirst p l = none → l.filter p = []
  | [], _ => rfl
  | e :: es, h => by
    unfold takeFirst at h
    by_cases hp : p e = true
    · simp [hp] at h
    · simp only [hp, Bool.false_eq_true, if_false, Option.map_eq_none'] at h
      simp [hp, takeFirst_none h]

theorem takeFirst_some {p : Entry → Bool} :
    ∀ {l : List Entry} {x : Entry} {r : List Entry}, takeFirst p l = some (x, r) →
      p x = true ∧ l.filter p = x :: r.filter p ∧
        ∀ q : Entry → Bool, q x = false → l.filter q = r.filter q
  | [], _, _, h => by simp [takeFirst] at h
  | e :: es, x, r, h => by
    unfold takeFirst at h
    by_cases hp : p e = true
    · simp only [hp, if_true, Option.some.injEq, Prod.mk.injEq] at h
      obtain ⟨rfl, rfl⟩ := h
      refine ⟨hp, by simp [hp], ?_⟩
      intro q hq
      simp [hq]
    · simp only [hp, Bool.false_eq_true, if_false, Option.map_eq_some'] at h
      obtain ⟨⟨y, r0⟩, h0, heq⟩ := h
      simp only [Prod.mk.injEq] at heq
      obtain ⟨rfl, rfl⟩ := heq
      obtain ⟨h1, h2, h3⟩ := takeFirst_some h0
      refine ⟨h1, ?_, ?_⟩
      · simp [hp, h2]
      · intro q hq
        by_cases hqe : q e = true
        · simp [hqe, h3 q hq]
        · simp [hqe, h3 q hq]

theorem inv_empty : Inv State.empty :=
  { split := fun _ => rfl
    single := fun _ => Nat.zero_le _
    idle := fun _ _ => rfl
    fired := List.Sublist.refl _
    ids := rfl }

theorem inv_enqueue {q : State} (hq : Inv q) (target : Nat) (context : Option Nat) :
    Inv (enqueue q target context) := by
  unfold CommandQueue.enqueue
  by_cases hany : q.running.any (onTarget target) = true
  · -- the target is busy: the unit waits
    simp only [hany, if_true]
    have hne : q.running.filter (onTarget target) ≠ [] := by
      intro h
      rw [List.filter_eq_nil_iff] at h
      obtain ⟨x, hx, hpx⟩ := List.any_eq_true.mp hany
      exact h x hx hpx
    refine ⟨?_, hq.single, ?_, hq.fired, ?_⟩
    · intro t
      simp only [List.filter_append, hq.split t, List.append_assoc]
    · intro t ht
      by_cases htt : target = t
      · subst htt; exact absurd ht hne
      · simp [List.filter_append, hq.idle t ht, onTarget, htt]
    · simp [List.map_append, hq.ids, List.range_succ]
  · -- the target is idle: the unit starts at once
    simp only [hany, Bool.false_eq_true, if_false]
    have hnil : q.running.filter (onTarget target) = [] := by
      rw [List.filter_eq_nil_iff]
      intro x hx hpx
      exact hany (List.any_eq_true.mpr ⟨x, hx, hpx⟩)
    refine ⟨?_, ?_, ?_, hq.fired, ?_⟩
    · intro t
      by_cases htt : target = t
      · subst htt
        simp [List.filter_append, hq.split target, hnil, hq.idle target hnil, onTarget]
      · simp [List.filter_append, hq.split t, onTarget, htt]
    · intro t
      by_cases htt : target = t
      · subst htt
        simp [List.filter_append, hnil, onTarget]
      · simpa [List.filter_append, onTarget, htt] using hq.single t
    · intro t ht
      by_cases htt : target = t
      · subst htt
        simp [List.filter_append, onTarget] at ht
      · apply hq.idle t
        simpa [List.filter_append, onTarget, htt] using ht
    · simp [List.map_append, hq.ids, List.range_succ]

theorem fire_sublist (q : State) (e : Entry) (h : q.fired.Sublist q.completed) :
    (fire q e).Sublist (q.completed ++ [e]) := by
  unfold fire
  cases e.context with
  | none => exact h.trans (List.sublist_append_left _ _)
  | some c =>
    by_cases hc : c ∈ q.destroyedContexts
    · simpa [hc] using h.trans (List.sublist_append_left _ _)
    · simpa [hc] using List.Sublist.append h (List.Sublist.refl [e])

theorem inv_complete {q : State} (hq : Inv q) (target : Nat) : Inv (complete q target) := by
  unfold CommandQueue.complete
  cases hrun : takeFirst (onTarget target) q.running with
  | none => exact hq
  | some pr =>
    obtain ⟨e, running⟩ := pr
    obtain ⟨he, hsplit, hother⟩ := takeFirst_some hrun
    have hrest : running.filter (onTarget target) = [] := by
      have h1 := hq.single target
      rw [hsplit] at h1
      exact List.length_eq_zero.mp (by simpa using h1)
    have het : e.target = target := by simpa [onTarget] using he
    have hoff : ∀ t, t ≠ target → onTarget t e = false := by
      intro t ht
      simp only [onTarget, beq_eq_false_iff_ne, ne_eq, het]
      exact fun h => ht h.symm
    cases hwait : takeFirst (onTarget target) q.waiting with
    | none =>
      have hw := takeFirst_none hwait
      simp only [hwait]
      refine ⟨?_, ?_, ?_, fire_sublist q e hq.fired, hq.ids⟩
      · intro t
        by_cases htt : t = target
        · subst htt
          simp [List.filter_append, hq.split t, hsplit, hrest, hw, he]
        · simp [List.filter_append, hq.split t, hother _ (hoff t htt), hoff t htt]
      · intro t
        by_cases htt : t = target
        · subst htt; simp [hrest]
        · simpa [hother _ (hoff t htt)] using hq.single t
      · intro t ht
        by_cases htt : t = target
        · subst htt; exact hw
        · apply hq.idle t
          simpa [hother _ (hoff t htt)] using ht
    | some pw =>
      obtain ⟨next, waiting⟩ := pw
      obtain ⟨hn, hwsplit, hwother⟩ := takeFirst_some hwait
      simp only [hwait]
      refine ⟨?_, ?_, ?_, fire_sublist q e hq.fired, hq.ids⟩
      · intro t
        by_cases htt : t = target
        · subst htt
          simp [List.filter_append, hq.split t, hsplit, hrest, hwsplit, he, hn]
        · have hnoff : onTarget t next = false := by
            have : next.target = target := by simpa [onTarget] using hn
            simp only [onTarget, beq_eq_false_iff_ne, ne_eq, this]
            exact fun h => htt h.symm
          simp [List.filter_append, hq.split t, hother _ (hoff t htt), hoff t htt,
            hwother _ hnoff, hnoff]
      · intro t
        by_cases htt : t = target
        · subst htt; simp [List.filter_append, hrest, hn]
        · have hnoff : onTarget t next = false := by
            have : next.target = target := by simpa [onTarget] using hn
            simp only [onTarget, beq_eq_false_iff_ne, ne_eq, this]
            exact fun h => htt h.symm
          simpa [List.filter_append, hother _ (hoff t htt), hnoff] using hq.single t
      · intro t ht
        by_cases htt : t = target
        · subst htt; simp [List.filter_append, hn] at ht
        · have hnoff : onTarget t next = false := by
            have : next.target = target := by simpa [onTarget] using hn
            simp only [onTarget, beq_eq_false_iff_ne, ne_eq, this]
            exact fun h => htt h.symm
          rw [← hwother _ hnoff]
          apply hq.idle t
          simpa [List.filter_append, hother _ (hoff t htt), hnoff] using ht

theorem inv_destroyContext {q : State} (hq : Inv q) (context : Nat) :
    Inv (destroyContext q context) :=
  { split := hq.split, single := hq.single, idle := hq.idle, fired := hq.fired,
    ids := hq.ids }

theorem inv_step {q : State} (hq : Inv q) (ev : Event) : Inv (step q ev) := by
  cases ev with
  | enqueue target context => exact inv_enqueue hq target context
  | complete target => exact inv_complete hq target
  | destroyContext context => exact inv_destroyContext hq context

theorem inv_foldl (events : List Event) :
    ∀ {q : State}, Inv q → Inv (events.foldl CommandQueue.step q) := by
  induction events with
  | nil => intro q hq; exact hq
  | cons ev evs ih => intro q hq; exact ih (inv_step hq ev)

theorem complete_submitted (q : State) (target : Nat) :
    (complete q target).submitted = q.submitted := by
  unfold CommandQueue.complete
  cases takeFirst (onTarget target) q.running with
  | none => rfl
  | some pr =>
    obtain ⟨e, running⟩ := pr
    simp only
    cases takeFirst (onTarget target) q.waiting with
    | none => rfl
    | some pw => rfl

theorem foldl_submitted (events : List Event) :
    ∀ q : State, ((events.foldl step q).submitted.map fun e => (e.target, e.context))
      = (q.submitted.map fun e => (e.target, e.context)) ++ enqueueCalls events := by
  induction events with
  | nil => intro q; simp [enqueueCalls]
  | cons ev evs ih =>
    intro q
    rw [List.foldl_cons, ih]
    cases ev with
    | enqueue target context =>
      have : (step q (Event.enqueue target context)).submitted
          = q.submitted ++ [⟨q.submitted.length, target, context⟩] := by
        simp only [step, CommandQueue.enqueue]
        split <;> rfl
      simp [this, enqueueCalls]
    | complete target => simp [step, complete_submitted, enqueueCalls]
    | destroyContext context => simp [step, CommandQueue.destroyContext, enqueueCalls]

/-- C2: for every sequence of queue events and every target key, the entries
recorded as submitted are exactly the enqueue calls in call order, numbered from
zero; the operations completed on that target are an initial segment of the
submissions for that target (they complete in submission order, none skipped);
the callbacks fired for that target are a subsequence of those completions (so
they fire in submission order too); and at most one operation of that target is
in flight. -/
theorem fifo_per_target (events : List Event) (target : Nat) :
    ((run events).submitted.map fun e => (e.target, e.context)) = enqueueCalls events
    ∧ ((run events).submitted.map fun e => e.id) = List.range (run events).submitted.length
    ∧ (run events).completed.filter (onTarget target)
        <+: (run events).submitted.filter (onTarget target)
    ∧ ((run events).fired.filter (onTarget target)).Sublist
        ((run events).completed.filter (onTarget target))
    ∧ ((run events).running.filter (onTarget target)).length ≤ 1 := by
  have hinv : Inv (run events) := inv_foldl events inv_empty
  refine ⟨?_, hinv.ids, ?_, hinv.fired.filter _, hinv.single target⟩
  · simpa [run, State.empty] using foldl_submitted events State.empty
  · rw [hinv.split target, List.append_assoc]
    exact List.prefix_append _ _

end CommandQueue

/-! ## The asynchronous callback contract -/

namespace Async

theorem wf_initial : Wf State.initial :=
  { pendingLt := by intro p hp; cases hp
    pendingNodup := List.nodup_nil
    pendingFresh := by intro p hp; cases hp
    invokedNodup := List.nodup_nil
    invokedLt := by intro i hi; cases hi }

theorem wf_start {s : State} (hs : Wf s)
    (operation : Operation) (context : Nat) : Wf (start s operation context) := by
  refine ⟨?_, ?_, ?_, hs.invokedNodup,
    fun i hi => Nat.lt_succ_of_lt (hs.invokedLt i hi)⟩
  · intro p hp
    simp only [Async.start, List.mem_append, List.mem_singleton] at hp ⊢
    rcases hp with hp | rfl
    · exact Nat.lt_succ_of_lt (hs.pendingLt p hp)
    · exact Nat.lt_succ_self _
  · simp only [Async.start, List.map_append, List.map_cons, List.map_nil]
    refine List.Nodup.append hs.pendingNodup (List.nodup_singleton _) ?_
    intro i hi1 hi2
    obtain ⟨p, hp, rfl⟩ := List.mem_map.mp hi1
    have := hs.pendingLt p hp
    simp only [List.mem_singleton] at hi2
    omega
  · intro p hp
    simp only [Async.start, List.mem_append, List.mem_singleton] at hp ⊢
    rcases hp with hp | rfl
    · exact hs.pendingFresh p hp
    · intro h
      exact Nat.lt_irrefl _ (hs.invokedLt _ h)

theorem complete_cases (s : State) (id : Nat) :
    complete s id = s ∨
    ∃ p ∈ s.pending, p.id = id ∧
      complete s id =
        { s with pending := s.pending.filter (fun p => p.id != id)
                 invoked := if p.context ∈ s.destroyedContexts then s.invoked
                            else s.invoked ++ [p.id] } := by
  unfold Async.complete
  cases h : s.pending.find? (fun p => p.id == id) with
  | none => exact Or.inl rfl
  | some p =>
    refine Or.inr ⟨p, List.mem_of_find?_eq_some h, ?_, rfl⟩
    simpa using List.find?_some h

theorem wf_complete {s : State} (hs : Wf s) (id : Nat) : Wf (complete s id) := by
  rcases complete_cases s id with h | ⟨p, hp, hid, h⟩
  · rw [h]; exact hs
  · rw [h]
    refine ⟨?_, ?_, ?_, ?_, ?_⟩
    · intro r hr
      exact hs.pendingLt r (List.mem_of_mem_filter hr)
    · exact hs.pendingNodup.sublist ((List.filter_sublist _).map _)
    · intro r hr
      have hr1 := List.mem_of_mem_filter hr
      have hr2 : r.id ≠ id := by simpa using (List.mem_filter.mp hr).2
      simp only
      split
      · exact hs.pendingFresh r hr1
      · intro hmem
        rcases List.mem_append.mp hmem with hmem | hmem
        · exact hs.pendingFresh r hr1 hmem
        · simp only [List.mem_singleton] at hmem
          exact hr2 (hmem.trans hid)
    · simp only
      split
      · exact hs.invokedNodup
      · refine List.Nodup.append hs.invokedNodup (List.nodup_singleton _) ?_
        intro i hi1 hi2
        simp only [List.mem_singleton] at hi2
        subst hi2
        exact hs.pendingFresh p hp hi1
    · simp only
      split
      · exact hs.invokedLt
      · intro i hi
        rcases List.mem_append.mp hi with hi | hi
        · exact hs.invokedLt i hi
        · simp only [List.mem_singleton] at hi
          subst hi
          exact hs.pendingLt p hp

theorem wf_destroyContext {s : State} (hs : Wf s) (context : Nat) :
    Wf (destroyContext s context) :=
  { pendingLt := hs.pendingLt, pendingNodup := hs.pendingNodup,
    pendingFresh := hs.pendingFresh, invokedNodup := hs.invokedNodup,
    invokedLt := hs.invokedLt }

theorem step_call (s : State) (operation : Operation) (context : Nat) :
    step s (Event.call operation context) = start s operation context := by
  cases operation <;> rfl

theorem wf_step {s : State} (hs : Wf s) (ev : Event) : Wf (step s ev) := by
  cases ev with
  | call operation context => rw [step_call]; exact wf_start hs operation context
  | complete id => exact wf_complete hs id
  | destroyContext context => exact wf_destroyContext hs context

theorem wf_runFrom (events : List Event) : ∀ {s : State}, Wf s → Wf (runFrom s events) := by
  induction events with
  | nil => intro s hs; exact hs
  | cons ev evs ih => intro s hs; exact ih (wf_step hs ev)

theorem cancelled_step {s : State} {p : Pending} (hc : Cancelled s p) (ev : Event) :
    Cancelled (step s ev) p := by
  cases ev with
  | call operation context =>
    rw [step_call]
    refine ⟨hc.dead, hc.notInvoked, Nat.lt_succ_of_lt hc.lt, ?_⟩
    intro r hr hid
    simp only [Async.start, List.mem_append, List.mem_singleton] at hr
    rcases hr with hr | rfl
    · exact hc.same r hr hid
    · exact absurd hid (Nat.ne_of_gt hc.lt)
  | complete id =>
    show Cancelled (complete s id) p
    rcases complete_cases s id with h | ⟨r, hr, hid, h⟩
    · rw [h]; exact hc
    · rw [h]
      refine ⟨hc.dead, ?_, hc.lt, fun x hx => hc.same x (List.mem_of_mem_filter hx)⟩
      simp only
      split
      · exact hc.notInvoked
      · rename_i halive
        intro hmem
        rcases List.mem_append.mp hmem with hmem | hmem
        · exact hc.notInvoked hmem
        · simp only [List.mem_singleton] at hmem
          have : r = p := hc.same r hr hmem.symm
          subst this
          exact halive hc.dead
  | destroyContext context =>
    exact ⟨List.mem_cons_of_mem _ hc.dead, hc.notInvoked, hc.lt, hc.same⟩

theorem cancelled_runFrom (events : List Event) {p : Pending} :
    ∀ {s : State}, Cancelled s p → Cancelled (runFrom s events) p := by
  induction events with
  | nil => intro s hs; exact hs
  | cons ev evs ih => intro s hs; exact ih (cancelled_step hs ev)

theorem runFrom_append (s : State) (l₁ l₂ : List Event) :
    runFrom s (l₁ ++ l₂) = runFrom (runFrom s l₁) l₂ := by
  simp [Async.runFrom, List.foldl_append]

/-- C3: for every sequence of facade calls (unusedVirtualMachines,
createBuildEngine, createEmulator, setDeviceModels, each with a context),
completions and context destructions, no functor is invoked more than once; and
whenever a context is destroyed while an operation started with it is still
pending, the functor of that operation is not invoked, then or at any later
time. -/
theorem functor_at_most_once_and_never_after_context_destroyed (events : List Event) :
    (∀ id, (run events).invoked.count id ≤ 1) ∧
    ∀ (before after : List Event) (context : Nat) (p : Pending),
      events = before ++ Event.destroyContext context :: after →
      p ∈ (run before).pending → p.context = context →
      p.id ∉ (run events).invoked := by
  constructor
  · intro id
    exact List.nodup_iff_count_le_one.mp (wf_runFrom events wf_initial).invokedNodup id
  · intro before after context p hev hp hctx
    have hw : Wf (run before) := wf_runFrom before wf_initial
    have h0 : Cancelled (destroyContext (run before) context) p :=
      { dead := by simp [Async.destroyContext, hctx]
        notInvoked := hw.pendingFresh p hp
        lt := hw.pendingLt p hp
        same := by
          intro r hr hid
          exact List.inj_on_of_nodup_map hw.pendingNodup hr hp hid }
    have h1 := cancelled_runFrom after h0
    have hrun : run events = runFrom (destroyContext (run before) context) after := by
      rw [hev, run, runFrom_append]
      rfl
    rw [hrun]
    exact h1.notInvoked

/-- C3 at a concrete run: createBuildEngine is called with context 5, the
context is destroyed, then the operation completes; its functor (number 0) is
not invoked. -/
theorem functor_at_most_once_and_never_after_context_destroyed_witness :
    (0 : Nat) ∉ (run [Event.call .createBuildEngine 5, Event.destroyContext 5,
      Event.complete 0]).invoked :=
  (functor_at_most_once_and_never_after_context_destroyed
      [Event.call .createBuildEngine 5, Event.destroyContext 5, Event.complete 0]).2
    [Event.call .createBuildEngine 5] [Event.complete 0] 5
    { id := 0, operation := .createBuildEngine, context := 5 } rfl (by decide) rfl

end Async

/-! ## Registries: add and remove -/

theorem Registry.add_present {ρ : Type} (ident : ρ → String) (reg : Registry ρ) (r : ρ)
    (h : ∃ x ∈ reg.resources, ident x = ident r) :
    Registry.add ident reg r = (.error .ResourceAlreadyExists, reg) := by
  obtain ⟨x, hx, hid⟩ := h
  have : reg.resources.any (fun x => ident x == ident r) = true :=
    List.any_eq_true.mpr ⟨x, hx, by simp [hid]⟩
  simp [Registry.add, this]

theorem Registry.remove_absent {ρ : Type} (ident : ρ → String) (reg : Registry ρ)
    (identity : String) :
    (Registry.remove ident reg identity).resources.any (fun x => ident x == identity)
      = false := by
  unfold Registry.remove
  by_cases h : reg.resources.any (fun x => ident x == identity) = true
  · simp only [h, if_true]
    rw [List.any_eq_false]
    intro x hx
    have := (List.mem_filter.mp hx).2
    simpa using this
  · simp only [h, Bool.false_eq_true, if_false]

theorem Registry.add_after_remove {ρ : Type} (ident : ρ → String) (reg : Registry ρ) (r : ρ) :
    Registry.add ident (Registry.remove ident reg (ident r)) r
      = (.ok (Registry.remove ident reg (ident r)).resources.length,
          { resources := (Registry.remove ident reg (ident r)).resources ++ [r]
            notifications := (Registry.remove ident reg (ident r)).notifications
              ++ [.added (ident r)] }) := by
  have h := Registry.remove_absent ident reg (ident r)
  simp [Registry.add, h]

/-- C4: in each of the three registries (build engines and emulators, identified
by URI; devices, identified by id), `add` of a resource whose identity is
present returns `ResourceAlreadyExists` and the registry it leaves is the one it
was given (same members, same order, same size, and no notification), whereas
`add` right after `remove` of that identity returns an index and appends the
resource. -/
theorem add_present_fails_and_add_after_remove_succeeds :
    (∀ (reg : Registry BuildEngine) (r : BuildEngine),
      ((∃ x ∈ reg.resources, x.uri = r.uri) →
        Sdk.addBuildEngine reg r = (.error .ResourceAlreadyExists, reg)) ∧
      ∃ index after,
        Sdk.addBuildEngine (Sdk.removeBuildEngine reg r.uri) r = (.ok index, after) ∧
        after.resources = (Sdk.removeBuildEngine reg r.uri).resources ++ [r]) ∧
    (∀ (reg : Registry Emulator) (r : Emulator),
      ((∃ x ∈ reg.resources, x.uri = r.uri) →
        Sdk.addEmulator reg r = (.error .ResourceAlreadyExists, reg)) ∧
      ∃ index after,
        Sdk.addEmulator (Sdk.removeEmulator reg r.uri) r = (.ok index, after) ∧
        after.resources = (Sdk.removeEmulator reg r.uri).resources ++ [r]) ∧
    (∀ (reg : Registry Device) (r : Device),
      ((∃ x ∈ reg.resources, x.id = r.id) →
        Sdk.addDevice reg r = (.error .ResourceAlreadyExists, reg)) ∧
      ∃ index after,
        Sdk.addDevice (Sdk.removeDevice reg r.id) r = (.ok index, after) ∧
        after.resources = (Sdk.removeDevice reg r.id).resources ++ [r]) := by
  refine ⟨fun reg r => ⟨fun h => Registry.add_present _ reg r h, ?_⟩,
    fun reg r => ⟨fun h => Registry.add_present _ reg r h, ?_⟩,
    fun reg r => ⟨fun h => Registry.add_present _ reg r h, ?_⟩⟩
  · exact ⟨_, _, Registry.add_after_remove BuildEngine.uri reg r, rfl⟩
  · exact ⟨_, _, Registry.add_after_remove Emulator.uri reg r, rfl⟩
  · exact ⟨_, _, Registry.add_after_remove Device.id reg r, rfl⟩

/-- C4 at the scenario of the specification: with a build engine registered
under `vm://buildengine-1`, adding another one under that URI reports
`ResourceAlreadyExists` and the registry keeps its one member. -/
theorem add_present_fails_and_add_after_remove_succeeds_witness :
    Sdk.addBuildEngine
        { resources := [⟨"vm://buildengine-1", "/home/u", "/home/u/src"⟩], notifications := [] }
        ⟨"vm://buildengine-1", "/srv", "/srv/src"⟩
      = (.error .ResourceAlreadyExists,
          { resources := [⟨"vm://buildengine-1", "/home/u", "/home/u/src"⟩],
            notifications := [] }) :=
  (add_present_fails_and_add_after_remove_succeeds.1
      { resources := [⟨"vm://buildengine-1", "/home/u", "/home/u/src"⟩], notifications := [] }
      ⟨"vm://buildengine-1", "/srv", "/srv/src"⟩).1
    ⟨⟨"vm://buildengine-1", "/home/u", "/home/u/src"⟩, List.mem_singleton.mpr rfl, rfl⟩

/-! ## Device model catalog replacement -/

theorem EmulatorManager.reconcile_missing (deviceModels : List DeviceModelData) (e : Emulator)
    (h : ∀ m ∈ deviceModels, m.name ≠ e.deviceModel.name) :
    EmulatorManager.reconcile deviceModels e = none := by
  have : deviceModels.find? (fun m => m.name == e.deviceModel.name) = none := by
    rw [List.find?_eq_none]
    intro m hm
    simpa using h m hm
  simp [EmulatorManager.reconcile, this]

theorem EmulatorManager.reconcileAll_missing (deviceModels : List DeviceModelData)
    (e : Emulator) (h : ∀ m ∈ deviceModels, m.name ≠ e.deviceModel.name) :
    ∀ es : List Emulator, e ∈ es → EmulatorManager.reconcileAll deviceModels es = none
  | [], he => by cases he
  | x :: xs, he => by
    unfold EmulatorManager.reconcileAll
    rcases List.mem_cons.mp he with rfl | hmem
    · rw [EmulatorManager.reconcile_missing deviceModels e h]
    · cases EmulatorManager.reconcile deviceModels x with
      | none => rfl
      | some x1 =>
        simp only
        rw [EmulatorManager.reconcileAll_missing deviceModels e h xs hmem]

/-- C5: with emulators E1 (device model named "A") and E2 (device model named
"B") registered, replacing the catalog by a list in which no model is named
"B" delivers `false` and leaves the manager as it was: `deviceModels()` returns
the same catalog, and looking E1 and E2 up by URI returns the same emulators,
with the same device models. -/
theorem setDeviceModels_all_or_nothing (m : EmulatorManager) (e1 e2 : Emulator)
    (deviceModels : List DeviceModelData)
    (_h1 : e1 ∈ m.emulators.resources) (h2 : e2 ∈ m.emulators.resources)
    (_hA : e1.deviceModel.name = "A") (hB : e2.deviceModel.name = "B")
    (hmissing : ∀ d ∈ deviceModels, d.name ≠ "B") :
    (Sdk.setDeviceModels m deviceModels).1 = false ∧
    (Sdk.setDeviceModels m deviceModels).2 = m ∧
    Sdk.deviceModels (Sdk.setDeviceModels m deviceModels).2 = Sdk.deviceModels m ∧
    Sdk.emulator (Sdk.setDeviceModels m deviceModels).2 e1.uri = Sdk.emulator m e1.uri ∧
    Sdk.emulator (Sdk.setDeviceModels m deviceModels).2 e2.uri = Sdk.emulator m e2.uri := by
  have hnone : EmulatorManager.reconcileAll deviceModels m.emulators.resources = none :=
    EmulatorManager.reconcileAll_missing deviceModels e2 (by rw [hB]; exact hmissing) _ h2
  have hres : Sdk.setDeviceModels m deviceModels = (false, m) := by
    simp [Sdk.setDeviceModels, EmulatorManager.setDeviceModels, hnone]
  rw [hres]
  exact ⟨rfl, rfl, rfl, rfl, rfl⟩

/-- C5 at a concrete manager: E1 with model "A", E2 with model "B", catalog
"A" and "B", replaced by the catalog holding "A" alone. -/
theorem setDeviceModels_all_or_nothing_witness :
    (Sdk.setDeviceModels EmulatorManager.twoEmulators [⟨"A", (540, 960)⟩]).1 = false ∧
    (Sdk.setDeviceModels EmulatorManager.twoEmulators [⟨"A", (540, 960)⟩]).2
      = EmulatorManager.twoEmulators ∧
    Sdk.deviceModels (Sdk.setDeviceModels EmulatorManager.twoEmulators [⟨"A", (540, 960)⟩]).2
      = Sdk.deviceModels EmulatorManager.twoEmulators ∧
    Sdk.emulator (Sdk.setDeviceModels EmulatorManager.twoEmulators [⟨"A", (540, 960)⟩]).2 "vm://e1"
      = Sdk.emulator EmulatorManager.twoEmulators "vm://e1" ∧
    Sdk.emulator (Sdk.setDeviceModels EmulatorManager.twoEmulators [⟨"A", (540, 960)⟩]).2 "vm://e2"
      = Sdk.emulator EmulatorManager.twoEmulators "vm://e2" :=
  setDeviceModels_all_or_nothing EmulatorManager.twoEmulators
    ⟨"vm://e1", ⟨"A", (540, 960)⟩, true, false⟩ ⟨"vm://e2", ⟨"B", (720, 1280)⟩, true, false⟩
    [⟨"A", (540, 960)⟩]
    (by simp [EmulatorManager.twoEmulators]) (by simp [EmulatorManager.twoEmulators]) rfl rfl
    (by intro d hd; rw [List.mem_singleton.mp hd]; decide)

/-! ## GdbServerReadyWatcher: terminal notifications -/

namespace GdbServerReadyWatcher

/-- C6: a run in which the claim fails.  The watcher for port 2345 is started
at 0 ms; the first port list (at 100 ms) does not hold the port, the second (at
200 ms, the answer to the poll restarted by the first) does.  The watcher
reports done at the first list, after restarting the poll, and again at the
second: two terminal notifications, with no poll left outstanding. -/
theorem session_reports_done_twice :
    (session 2345 0 [⟨[], 100⟩, ⟨[2345], 200⟩]).watcher.reports = [.done, .done] ∧
    (session 2345 0 [⟨[], 100⟩, ⟨[2345], 200⟩]).outstanding = false ∧
    (session 2345 0 [⟨[], 100⟩]).watcher.reports = [.done] ∧
    (session 2345 0 [⟨[], 100⟩]).outstanding = true := by
  decide

end GdbServerReadyWatcher

/-! ## MerEmulatorModeDialog: the lock around the display-property change -/

namespace MerEmulatorModeDialog

/-- C7: when the dialog runs and is accepted while the virtual machine is not
off and 'restart emulator' is checked, the trace of `execDialog` starts with
`dialogExec, lockDown(true), setDisplayProperties called, setDisplayProperties
returned`, and what follows is either nothing or `lockDown(false), connectTo`:
`lockDown(true)` is issued before `setDisplayProperties`, and `lockDown(false)`
and `connectTo` only after it has returned. -/
theorem execDialog_lock_guards_display_change (env : Env)
    (hEmulator : env.emulatorSet = true) (hUi : env.uiUnused = true)
    (hAccepted : env.accepted = true) (hNotOff : env.offAtAccept = false)
    (hRestart : env.restartChecked = true) :
    ∃ rest : List Call,
      (execDialog env).2 =
        [Call.dialogExec, Call.lockDown true,
          Call.setDisplayPropertiesCalled env.currentDeviceModel env.portrait env.scaled,
          Call.setDisplayPropertiesReturned env.setDisplayPropertiesResult] ++ rest ∧
      (rest = [] ∨ rest = [Call.lockDown false, Call.connectTo]) := by
  by_cases hOff : env.offAfter = true
  · exact ⟨[Call.lockDown false, Call.connectTo],
      by simp [execDialog, execAsynchronous, hEmulator, hUi, hAccepted, hNotOff, hRestart, hOff],
      Or.inr rfl⟩
  · exact ⟨[], by simp [execDialog, execAsynchronous, hEmulator, hUi, hAccepted, hNotOff,
      hRestart, hOff],
      Or.inl rfl⟩

/-- C7 at a concrete run: three device models, the virtual machine running at
set-up and at acceptance and off after the change, 'restart emulator' left
checked. -/
theorem execDialog_lock_guards_display_change_witness :
    ∃ rest : List Call,
      (execDialog ⟨true, true, 3, false, true, true, false, "Xperia X", true, false, true,
          true⟩).2 =
        [Call.dialogExec, Call.lockDown true,
          Call.setDisplayPropertiesCalled "Xperia X" true false,
          Call.setDisplayPropertiesReturned true] ++ rest ∧
      (rest = [] ∨ rest = [Call.lockDown false, Call.connectTo]) :=
  execDialog_lock_guards_display_change
    ⟨true, true, 3, false, true, true, false, "Xperia X", true, false, true, true⟩
    rfl rfl rfl rfl (by decide)

end MerEmulatorModeDialog

/-! ## Signal forwarding -/

/-- C8: in a constructed `Sdk`, for each of the seven manager signals whose
manager exists, there is one facade signal, of the same name, such that an
emission of the manager signal with any argument is re-emitted by that facade
signal, once, with the same argument, and by nothing else; and every connection
the constructor makes joins a manager signal to the facade signal of the same
name. -/
theorem Sdk.manager_signals_forwarded_once (ver : Bool) (options : Options)
    (signal : ManagerSignal)
    (h : (Sdk.construct ver options).holds signal.sender = true) :
    (∃ slot : SdkSignal,
      (∀ (α : Type) (argument : α),
        (Sdk.construct ver options).emit signal argument = [(slot, argument)]) ∧
      slot.name = signal.name) ∧
    (∀ c ∈ (Sdk.construct ver options).connections, c.slot.name = c.signal.name) := by
  obtain ⟨v, s, c⟩ := options
  cases v <;> cases s <;> cases c <;> cases ver <;> cases signal <;>
    first
    | exact absurd h (by decide)
    | (refine ⟨⟨_, fun α argument => rfl, rfl⟩, ?_⟩
       intro c hc
       simp only [Sdk.construct, SdkPrivate.connect, SdkPrivate.fresh] at hc
       simp at hc
       rcases hc with rfl | rfl | rfl | rfl | rfl | rfl | rfl <;> rfl)

/-- C8 at a concrete input: default options, `deviceModelsChanged` of the
emulator manager. -/
theorem Sdk.manager_signals_forwarded_once_witness :
    (Sdk.construct false ⟨false, false, false⟩).holds
        ManagerSignal.deviceModelsChanged.sender = true ∧
    ((∃ slot : SdkSignal,
      (∀ (α : Type) (argument : α),
        (Sdk.construct false ⟨false, false, false⟩).emit .deviceModelsChanged argument
          = [(slot, argument)]) ∧
      slot.name = ManagerSignal.deviceModelsChanged.name) ∧
    (∀ c ∈ (Sdk.construct false ⟨false, false, false⟩).connections,
      c.slot.name = c.signal.name)) :=
  ⟨rfl, Sdk.manager_signals_forwarded_once false ⟨false, false, false⟩
    .deviceModelsChanged rfl⟩

/-! ## The facade as a pass-through -/

/-- C9: for every implementation of the managers and the factory, every registry
operation of the facade, every list of arguments of the operation's arity and
every state, running the facade operation returns the value and leaves the state
that the corresponding manager or factory operation returns and leaves for the
same arguments. -/
theorem Sdk.exec_eq_passThrough {σ α β : Type} (managers : Callee → List α → σ → β × σ)
    (op : RegistryOp) (parameters : List α) (s : σ)
    (h : parameters.length = op.arity) :
    Sdk.exec managers op parameters s = some (Sdk.passThrough managers op parameters s) := by
  rcases parameters with _ | ⟨a, _ | ⟨b, _ | ⟨c, _ | ⟨d, t⟩⟩⟩⟩ <;> cases op <;>
    simp [RegistryOp.arity] at h <;> rfl

/-- C9 at a concrete input: managers that return the callee and the arguments
they were given and count the calls; `removeEmulator` with one argument. -/
theorem Sdk.exec_eq_passThrough_witness :
    Sdk.exec (fun callee arguments (n : Nat) => ((callee, arguments), n + 1))
        .removeEmulator ["vm://emulator-1"] 0
      = some (Sdk.passThrough (fun callee arguments (n : Nat) => ((callee, arguments), n + 1))
          .removeEmulator ["vm://emulator-1"] 0) :=
  Sdk.exec_eq_passThrough _ .removeEmulator ["vm://emulator-1"] 0 rfl

/-! ## The process-wide instance -/

theorem World.single_step {w w1 : World} {e : LifeEvent} (hw : w.single)
    (ha : w.assertion e = true) (hs : w.step e = some w1) : w1.single := by
  cases e with
  | construct self ver options =>
    have hnone : w.s_instance = none := by
      simpa [World.assertion] using ha
    have hobj : w.objects = [] := by
      rcases hw with ⟨_, h⟩ | ⟨a, d, h, _⟩
      · exact h
      · rw [hnone] at h; cases h
    simp only [World.step, hobj, List.any_nil, Bool.false_eq_true, if_false, List.nil_append,
      Option.some.injEq] at hs
    subst hs
    exact Or.inr ⟨self, _, rfl, rfl⟩
  | destroy self =>
    rcases hw with ⟨_, hobj⟩ | ⟨a, d, _, hobj⟩
    · simp [World.step, hobj] at hs
    · simp only [World.step, hobj] at hs
      by_cases hself : a = self
      · subst hself
        by_cases hq : d.commandQueue_ = true
        · simp [List.find?, List.filter, hq] at hs
          subst hs
          exact Or.inl ⟨rfl, rfl⟩
        · simp [List.find?, hq] at hs
      · have hne : (a == self) = false := by simpa using hself
        simp [List.find?, hne] at hs

theorem World.single_run : ∀ (events : List LifeEvent) {w w1 : World}, w.single →
    w.respects events = true → w.run events = some w1 → w1.single
  | [], w, w1, hw, _, hrun => by
    simp only [World.run, Option.some.injEq] at hrun
    subst hrun
    exact hw
  | e :: es, w, w1, hw, hres, hrun => by
    simp only [World.respects, Bool.and_eq_true] at hres
    simp only [World.run] at hrun
    cases hstep : w.step e with
    | none => simp [hstep] at hrun
    | some w2 =>
      simp only [hstep] at hrun hres
      exact World.single_run es (World.single_step hw hres.1 hstep) hres.2 hrun

theorem World.respects_append : ∀ (before after : List LifeEvent) (w : World),
    w.respects (before ++ after) = true → w.respects before = true
  | [], _, _, _ => rfl
  | e :: es, after, w, h => by
    simp only [List.cons_append, World.respects, Bool.and_eq_true] at h ⊢
    refine ⟨h.1, ?_⟩
    cases hstep : w.step e with
    | none => rfl
    | some w2 =>
      simp only [hstep] at h ⊢
      exact World.respects_append es after w2 h.2

theorem World.run_append_singleton : ∀ (before : List LifeEvent) (e : LifeEvent) (w w1 : World),
    w.run (before ++ [e]) = some w1 → ∃ w0, w.run before = some w0 ∧ w0.step e = some w1
  | [], e, w, w1, h => by
    refine ⟨w, rfl, ?_⟩
    simp only [List.nil_append, World.run] at h
    cases hstep : w.step e with
    | none => simp [hstep] at h
    | some w2 => simpa [hstep, World.run] using h
  | x :: xs, e, w, w1, h => by
    simp only [List.cons_append, World.run] at h ⊢
    cases hstep : w.step x with
    | none => simp [hstep] at h
    | some w2 =>
      simp only [hstep] at h ⊢
      exact World.run_append_singleton xs e w2 w1 h

/-- C10: take a sequence of constructions and destructions of `Sdk` objects in
which no `Sdk` is registered whenever one is constructed.  `Sdk::instance()` is
null at process start, and after every initial part of the sequence: at most
one `Sdk` exists; if one exists, `Sdk::instance()` is its address; if none
exists, `Sdk::instance()` is null; it is null right after a destruction.
Moreover the sequence can always go on: with no `Sdk` alive any construction
succeeds, and the live `Sdk`, if it holds a command queue, can be destroyed. -/
theorem Sdk.single_instance (events : List LifeEvent)
    (h : World.initial.respects events = true) :
    Sdk.instance_ World.initial = none ∧
    ∀ (before : List LifeEvent) (w : World), before <+: events →
      World.initial.run before = some w →
        w.objects.length ≤ 1 ∧
        (∀ self d, (self, d) ∈ w.objects → Sdk.instance_ w = some self) ∧
        (w.objects = [] → Sdk.instance_ w = none) ∧
        (∀ earlier self, before = earlier ++ [LifeEvent.destroy self] →
          Sdk.instance_ w = none) ∧
        (w.objects = [] → ∀ self ver options,
          (w.step (LifeEvent.construct self ver options)).isSome = true) ∧
        (∀ self d, (self, d) ∈ w.objects → d.commandQueue_ = true →
          (w.step (LifeEvent.destroy self)).isSome = true) := by
  refine ⟨rfl, ?_⟩
  intro before w hpre hrun
  obtain ⟨after, rfl⟩ := hpre
  have hsingle : w.single :=
    World.single_run before (Or.inl ⟨rfl, rfl⟩) (World.respects_append before after _ h) hrun
  refine ⟨?_, ?_, ?_, ?_, ?_, ?_⟩
  · rcases hsingle with ⟨_, hobj⟩ | ⟨a, d, _, hobj⟩ <;> simp [hobj]
  · intro self d hmem
    rcases hsingle with ⟨_, hobj⟩ | ⟨a, d0, hinst, hobj⟩
    · simp [hobj] at hmem
    · simp only [hobj, List.mem_singleton, Prod.mk.injEq] at hmem
      rw [hmem.1]
      exact hinst
  · intro hnil
    rcases hsingle with ⟨hinst, _⟩ | ⟨a, d0, _, hobj⟩
    · exact hinst
    · rw [hobj] at hnil; cases hnil
  · intro earlier self heq
    subst heq
    obtain ⟨w0, _, hstep⟩ := World.run_append_singleton earlier _ _ _ hrun
    simp only [World.step] at hstep
    cases hfind : w0.objects.find? (fun o => o.1 == self) with
    | none => simp [hfind] at hstep
    | some o =>
      simp only [hfind] at hstep
      by_cases hq : o.2.commandQueue_ = true
      · simp only [hq, if_true, Option.some.injEq] at hstep
        subst hstep
        rfl
      · simp [hq] at hstep
  · intro hnil self ver options
    simp [World.step, hnil]
  · intro self d hmem hq
    rcases hsingle with ⟨_, hobj⟩ | ⟨a, d0, _, hobj⟩
    · simp [hobj] at hmem
    · simp only [hobj, List.mem_singleton, Prod.mk.injEq] at hmem
      obtain ⟨rfl, rfl⟩ := hmem
      simp [World.step, hobj, List.find?, hq]

/-- C10 at a concrete sequence: an `Sdk` is constructed at address 1, destroyed,
and another one constructed at address 2; after the first two steps no `Sdk`
exists and `Sdk::instance()` is null, after all three it is 2. -/
theorem Sdk.single_instance_witness :
    World.initial.respects
        [.construct 1 false ⟨false, false, false⟩, .destroy 1,
          .construct 2 true ⟨true, false, true⟩] = true ∧
    (∃ w, World.initial.run [.construct 1 false ⟨false, false, false⟩, .destroy 1] = some w ∧
      w.objects = [] ∧ Sdk.instance_ w = none) ∧
    (∃ w, World.initial.run [.construct 1 false ⟨false, false, false⟩, .destroy 1,
          .construct 2 true ⟨true, false, true⟩] = some w ∧
      w.objects.length ≤ 1 ∧ Sdk.instance_ w = some 2) :=
  ⟨by decide,
    ⟨⟨none, []⟩, by decide, rfl,
      ((Sdk.single_instance
        [.construct 1 false ⟨false, false, false⟩, .destroy 1,
          .construct 2 true ⟨true, false, true⟩] (by decide)).2
        [.construct 1 false ⟨false, false, false⟩, .destroy 1] ⟨none, []⟩
        ⟨[.construct 2 true ⟨true, false, true⟩], rfl⟩ (by decide)).2.2.1 rfl⟩,
    ⟨⟨some 2, [(2, Sdk.construct true ⟨true, false, true⟩)]⟩, by decide,
      ((Sdk.single_instance
        [.construct 1 false ⟨false, false, false⟩, .destroy 1,
          .construct 2 true ⟨true, false, true⟩] (by decide)).2 _
        ⟨some 2, [(2, Sdk.construct true ⟨true, false, true⟩)]⟩
        (List.prefix_refl _) (by decide)).1,
      by decide⟩⟩

/-! ## MerDeviceDebugSupport: source path mappings -/

namespace MerDeviceDebugSupport

theorem mem_start_addSourcePathMap (env : Env) (mountPoint : MountPoint) (path : String) :
    Call.addSourcePathMap mountPoint path ∈ start env ↔
      ∃ engine, env.buildEngine = some engine ∧
        ((mountPoint = .BUILD_ENGINE_SHARED_HOME_MOUNT_POINT ∧
            engine.sharedHomePath.isEmpty = false ∧ path = engine.sharedHomePath) ∨
         (mountPoint = .BUILD_ENGINE_SHARED_SRC_MOUNT_POINT ∧
            engine.sharedSrcPath.isEmpty = false ∧ path = engine.sharedSrcPath)) := by
  have hsolib : Call.addSourcePathMap mountPoint path ∉
      (if env.isCppDebugging then env.projectNodes.flatMap visitProjectNode else []) := by
    split
    · intro h
      obtain ⟨node, _, hn⟩ := List.mem_flatMap.mp h
      unfold visitProjectNode at hn
      split at hn
      · cases hn
      · split at hn
        · cases hn
        · simp at hn
    · simp
  unfold start
  cases hengine : env.buildEngine with
  | none => simpa using hsolib
  | some engine =>
    simp only [Option.some.injEq, exists_eq_left']
    by_cases hh : engine.sharedHomePath.isEmpty = true <;>
      by_cases hs : engine.sharedSrcPath.isEmpty = true <;>
      cases mountPoint <;>
      simp [hh, hs, hsolib]

/-- C11: `MerDeviceDebugSupport::start` calls `addSourcePathMap` with the
shared-home mount point and a path exactly when the kit has a build engine whose
shared home path is not empty, and then the path is that shared home path; it
calls it with the shared-source mount point and a path exactly when the kit has a
build engine whose shared source path is not empty, and then the path is that
shared source path; the two are independent of each other, and with no build
engine `addSourcePathMap` is not called at all. -/
theorem start_maps_shared_paths (env : Env) :
    (∀ path, Call.addSourcePathMap .BUILD_ENGINE_SHARED_HOME_MOUNT_POINT path ∈ start env ↔
      ∃ engine, env.buildEngine = some engine ∧ engine.sharedHomePath.isEmpty = false ∧
        path = engine.sharedHomePath) ∧
    (∀ path, Call.addSourcePathMap .BUILD_ENGINE_SHARED_SRC_MOUNT_POINT path ∈ start env ↔
      ∃ engine, env.buildEngine = some engine ∧ engine.sharedSrcPath.isEmpty = false ∧
        path = engine.sharedSrcPath) ∧
    (env.buildEngine = none →
      ∀ mountPoint path, Call.addSourcePathMap mountPoint path ∉ start env) := by
  refine ⟨fun path => ?_, fun path => ?_, fun hnone mountPoint path hmem => ?_⟩
  · rw [mem_start_addSourcePathMap]
    constructor
    · rintro ⟨engine, he, h | h⟩
      · exact ⟨engine, he, h.2⟩
      · exact absurd h.1 (by decide)
    · rintro ⟨engine, he, h⟩
      exact ⟨engine, he, Or.inl ⟨rfl, h⟩⟩
  · rw [mem_start_addSourcePathMap]
    constructor
    · rintro ⟨engine, he, h | h⟩
      · exact absurd h.1 (by decide)
      · exact ⟨engine, he, h.2⟩
    · rintro ⟨engine, he, h⟩
      exact ⟨engine, he, Or.inr ⟨rfl, h⟩⟩
  · obtain ⟨engine, he, _⟩ := (mem_start_addSourcePathMap env mountPoint path).mp hmem
    rw [hnone] at he
    cases he

/-- C11 at a concrete kit: a build engine with shared home `/home/user` and no
shared source path; the home mapping is added, no source mapping is. -/
theorem start_maps_shared_paths_witness :
    Call.addSourcePathMap .BUILD_ENGINE_SHARED_HOME_MOUNT_POINT "/home/user" ∈
        start ⟨false, [], some ⟨"vm://engine", "/home/user", ""⟩⟩ ∧
    ∀ path, Call.addSourcePathMap .BUILD_ENGINE_SHARED_SRC_MOUNT_POINT path ∉
        start ⟨false, [], some ⟨"vm://engine", "/home/user", ""⟩⟩ :=
  ⟨((start_maps_shared_paths ⟨false, [], some ⟨"vm://engine", "/home/user", ""⟩⟩).1
      "/home/user").mpr ⟨_, rfl, by decide, rfl⟩,
    fun path h => by
      obtain ⟨engine, he, hne, _⟩ :=
        ((start_maps_shared_paths ⟨false, [], some ⟨"vm://engine", "/home/user", ""⟩⟩).2.1
          path).mp h
      cases he
      exact absurd hne (by decide)⟩


end MerDeviceDebugSupport

/-! ## GdbServerReadyWatcher: the timeout -/

namespace GdbServerReadyWatcher

end GdbServerReadyWatcher

/-! ## CommandLineParser: static helpers -/

namespace CommandLineParser

/-- C20: `checkPositionalArgumentsCount(arguments, min, max)` always returns; it
returns true exactly when `min <= count(arguments)` and (`max < 0` or
`count(arguments) <= max`); and when it rejects for too many arguments (the count
is at least `min`, `max` is not negative and the count exceeds `max`), `max` is an
index inside the list and the message names `arguments[max]`. -/
theorem checkPositionalArgumentsCount_spec (arguments : List String) (min max : Int) :
    ∃ out, checkPositionalArgumentsCount arguments min max = some out ∧
      (out.1 = true ↔
        (min ≤ (arguments.length : Int) ∧ (max < 0 ∨ (arguments.length : Int) ≤ max))) ∧
      (min ≤ (arguments.length : Int) → 0 ≤ max → max < (arguments.length : Int) →
        ∃ argument, max.toNat < arguments.length ∧
          arguments[max.toNat]? = some argument ∧
          out = (false, [unexpectedArgumentMessage argument])) := by
  unfold checkPositionalArgumentsCount
  by_cases hmin : (arguments.length : Int) < min
  · refine ⟨(false, [missingArgumentMessage]), by simp [hmin], ?_, ?_⟩
    · simp only [Bool.false_eq_true, false_iff, not_and]
      intro h; omega
    · intro h; omega
  · by_cases hmax : max ≥ 0 ∧ (arguments.length : Int) > max
    · have hlt : max.toNat < arguments.length := by omega
      have hget : arguments[max.toNat]? = some arguments[max.toNat] :=
        List.getElem?_eq_getElem hlt
      refine ⟨(false, [unexpectedArgumentMessage arguments[max.toNat]]), ?_, ?_, ?_⟩
      · simp [hmin, hmax.1, hmax.2, hget]
      · simp only [Bool.false_eq_true, false_iff, not_and, not_or]
        intro _; omega
      · intro _ _ _
        exact ⟨_, hlt, hget, rfl⟩
    · refine ⟨(true, []), ?_, ?_, ?_⟩
      · have : ¬(max ≥ 0) ∨ ¬((arguments.length : Int) > max) := by
          by_contra hcon
          push_neg at hcon
          exact hmax ⟨hcon.1, hcon.2⟩
        rcases this with h | h <;> simp [hmin, h]
      · simp only [true_iff]
        constructor
        · omega
        · by_contra hcon
          push_neg at hcon
          exact hmax ⟨hcon.1, by omega⟩
      · intro _ h0 hlt
        exact absurd ⟨h0, hlt⟩ hmax

/-- C20 at a concrete call: three arguments where at most one is allowed; the
second argument is named. -/
theorem checkPositionalArgumentsCount_spec_witness :
    ∃ argument, (1 : Int).toNat < ["a", "b", "c"].length ∧
      ["a", "b", "c"][(1 : Int).toNat]? = some argument ∧
      checkPositionalArgumentsCount ["a", "b", "c"] 0 1
        = some (false, [unexpectedArgumentMessage argument]) := by
  obtain ⟨out, hout, _, h⟩ := checkPositionalArgumentsCount_spec ["a", "b", "c"] 0 1
  obtain ⟨argument, h1, h2, h3⟩ := h (by decide) (by decide) (by decide)
  exact ⟨argument, h1, h2, by rw [hout, h3]⟩

end CommandLineParser

/-! ## CommandLineParser: exclusive options -/

namespace CommandLineParser

theorem checkExclusiveLoop_spec (isSet : String → Bool) :
    ∀ (options : List String) (out : Option String),
      ((checkExclusiveLoop isSet options out).ok = true ↔
        (out.toList ++ options.filter isSet).length ≤ 1) ∧
      ((checkExclusiveLoop isSet options out).ok = true →
        (checkExclusiveLoop isSet options out).out
          = (out.toList ++ options.filter isSet).head?) ∧
      ((checkExclusiveLoop isSet options out).ok = false →
        (checkExclusiveLoop isSet options out).out = none)
  | [], out => by
    cases out <;> simp [checkExclusiveLoop]
  | option :: options, out => by
    unfold checkExclusiveLoop
    by_cases hset : isSet option = true
    · cases out with
      | none =>
        have ih := checkExclusiveLoop_spec isSet options (some option)
        simpa [hset] using ih
      | some earlier => simp [hset]
    · have ih := checkExclusiveLoop_spec isSet options out
      simpa [hset] using ih

theorem afterParse_quiet_debug (env : Env) (parsed : Parsed)
    (hq : parsed.isSet "quiet" = true) (hd : parsed.isSet "debug" = true) :
    (afterParse env parsed).result = .BadUsage := by
  have hok : (checkExclusiveOption parsed.isSet ["quiet", "debug"]).ok = false := by
    simp [checkExclusiveOption, checkExclusiveLoop, hq, hd]
  unfold afterParse
  simp only [hok, Bool.not_false, if_true]
  split <;> rfl

/-- C16: `checkExclusiveOption` returns true exactly when at most one of the
listed options is set; when it returns true, `out` is the set option, or null if
none is set; when it returns false, `out` is null.  And a command line on which
both `--quiet` and `--debug` are set gives the `BadUsage` result. -/
theorem checkExclusiveOption_spec :
    (∀ (isSet : String → Bool) (options : List String),
      ((checkExclusiveOption isSet options).ok = true ↔
        (options.filter isSet).length ≤ 1) ∧
      ((checkExclusiveOption isSet options).ok = true →
        (checkExclusiveOption isSet options).out = (options.filter isSet).head?) ∧
      ((checkExclusiveOption isSet options).ok = false →
        (checkExclusiveOption isSet options).out = none)) ∧
    (∀ (env : Env) (argv0 : String) (arguments : List String),
      (∀ parsed, parsedCommandLine env argv0 arguments = some parsed →
        parsed.isSet "quiet" = true ∧ parsed.isSet "debug" = true) →
      (construct env argv0 arguments).result = .BadUsage) := by
  refine ⟨fun isSet options => ?_, fun env argv0 arguments h => ?_⟩
  · simpa [checkExclusiveOption] using checkExclusiveLoop_spec isSet options none
  · unfold construct
    unfold parsedCommandLine at h
    cases hall : allArguments env argv0 arguments with
    | error errors => rfl
    | ok all =>
      simp only [hall] at h ⊢
      cases hparse : env.parse all with
      | error errorText => rfl
      | ok parsed =>
        simp only [hparse] at h ⊢
        exact afterParse_quiet_debug env parsed (h parsed rfl).1 (h parsed rfl).2

/-- C16 at a concrete command line: `sfdk --quiet --debug build`. -/
theorem checkExclusiveOption_spec_witness :
    (construct Env.sample "sfdk" ["--quiet", "--debug", "build"]).result = .BadUsage :=
  checkExclusiveOption_spec.2 Env.sample "sfdk" ["--quiet", "--debug", "build"]
    (fun parsed h => by
      have hp : parsedCommandLine Env.sample "sfdk" ["--quiet", "--debug", "build"]
          = some ⟨[("quiet", none), ("debug", none)], ["build"]⟩ := by decide
      rw [hp] at h
      cases h
      exact ⟨by decide, by decide⟩)

end CommandLineParser

/-! ## CommandLineParser: the stages of the constructor -/

namespace CommandLineParser

theorem commandStage_fields (env : Env) (parsed : Parsed) (init : Parser) :
    (commandStage env parsed init).noSession = init.noSession ∧
    (commandStage env parsed init).useSystemSettingsOnly = init.useSystemSettingsOnly ∧
    (commandStage env parsed init).verbosity = init.verbosity ∧
    (commandStage env parsed init).pushed = init.pushed := by
  unfold commandStage
  split
  · exact ⟨rfl, rfl, rfl, rfl⟩
  · split <;> exact ⟨rfl, rfl, rfl, rfl⟩

theorem configurationStage_flags (env : Env) (parsed : Parsed) (init : Parser) :
    (configurationStage env parsed init).useSystemSettingsOnly
      = (parsed.isSet "system-config-only" || init.useSystemSettingsOnly) ∧
    (configurationStage env parsed init).noSession
      = (parsed.isSet "system-config-only" || parsed.isSet "no-session" ||
          !envIsEmpty env.noSessionEnvVar || init.noSession) := by
  unfold configurationStage
  have hc := commandStage_fields env parsed
  by_cases hsys : parsed.isSet "system-config-only" = true <;>
    by_cases hno : (parsed.isSet "no-session" || !envIsEmpty env.noSessionEnvVar) = true
  all_goals
    simp only [hsys, hno, if_true, if_false, Bool.false_eq_true, Bool.true_or, Bool.false_or]
    split
    · exact ⟨rfl, rfl⟩
    · split
      · exact ⟨rfl, rfl⟩
      · rw [(hc _).1, (hc _).2.1]
        exact ⟨rfl, rfl⟩

theorem helpStage_of_not_global (env : Env) (parsed : Parsed) (init : Parser)
    (h : globalHelpOrVersion env parsed = false) :
    helpStage env parsed init = configurationStage env parsed init := by
  simp only [globalHelpOrVersion, Bool.or_eq_false_iff] at h
  obtain ⟨⟨⟨⟨h1, h2⟩, h3⟩, h4⟩, h5⟩ := h
  have hfind : (domainHelpOptions env).find? (fun o => parsed.isSet o.1) = none := by
    rw [List.find?_eq_none]
    intro o ho
    rw [List.any_eq_false] at h2
    exact h2 o ho
  unfold helpStage
  simp [h1, hfind, h3, h4, h5]

theorem helpStage_of_global (env : Env) (parsed : Parsed) (init : Parser)
    (h : globalHelpOrVersion env parsed = true) :
    ((helpStage env parsed init).result = .Usage ∨
      (helpStage env parsed init).result = .Version) ∧
    (helpStage env parsed init).noSession = init.noSession ∧
    (helpStage env parsed init).useSystemSettingsOnly = init.useSystemSettingsOnly := by
  unfold helpStage
  by_cases h1 : parsed.isSet "help-all" = true
  · simp [h1]
  · simp only [h1, Bool.false_eq_true, if_false]
    cases hfind : (domainHelpOptions env).find? (fun o => parsed.isSet o.1) with
    | some o => simp
    | none =>
      simp only
      by_cases h3 : parsed.isSet "help" = true
      · simp [h3]
      · by_cases h4 : parsed.isSet "h" = true
        · simp [h3, h4]
        · by_cases h5 : parsed.isSet "version" = true
          · simp [h3, h4, h5]
          · exfalso
            have h2 : (domainHelpOptions env).any (fun o => parsed.isSet o.1) = false := by
              rw [List.any_eq_false]
              intro o ho
              have := List.find?_eq_none.mp hfind o ho
              simpa using this
            simp [globalHelpOrVersion, h1, h2, h3, h4, h5] at h

theorem afterParse_of_exclusive (env : Env) (parsed : Parsed)
    (h : (checkExclusiveOption parsed.isSet ["quiet", "debug"]).ok = true) :
    ∃ init : Parser, afterParse env parsed = helpStage env parsed init ∧
      init.result = .BadUsage ∧ init.noSession = false ∧
      init.useSystemSettingsOnly = false ∧ init.command = none ∧
      init.commandArguments = [] ∧ init.pushed = [] ∧ init.validators = [] ∧
      init.errors = [] ∧ init.shown = none := by
  unfold afterParse
  simp only [h, Bool.not_true, Bool.false_eq_true, if_false]
  refine ⟨_, rfl, ?_⟩
  by_cases hp : parsed.isSet "no-pager" = true <;>
    by_cases hq : parsed.isSet "quiet" = true <;>
    by_cases hd : parsed.isSet "debug" = true <;>
    simp [hp, hq, hd, Parser.badUsage]

theorem afterParse_of_not_exclusive (env : Env) (parsed : Parsed)
    (h : (checkExclusiveOption parsed.isSet ["quiet", "debug"]).ok = false) :
    (afterParse env parsed).result = .BadUsage ∧
    (afterParse env parsed).noSession = false ∧
    (afterParse env parsed).useSystemSettingsOnly = false := by
  unfold afterParse
  simp only [h, Bool.not_false, if_true]
  split <;> exact ⟨rfl, rfl, rfl⟩

theorem construct_cases (env : Env) (argv0 : String) (arguments : List String) :
    (parsedCommandLine env argv0 arguments = none ∧
      ∃ errors, construct env argv0 arguments = Parser.badUsage errors) ∨
    ∃ parsed, parsedCommandLine env argv0 arguments = some parsed ∧
      construct env argv0 arguments = afterParse env parsed := by
  unfold construct parsedCommandLine
  cases allArguments env argv0 arguments with
  | error errors => exact Or.inl ⟨rfl, errors, rfl⟩
  | ok all =>
    cases hparse : env.parse all with
    | error errorText => exact Or.inl ⟨by simp [hparse], [errorText], by simp [hparse]⟩
    | ok parsed => exact Or.inr ⟨parsed, by simp [hparse], by simp [hparse]⟩

/-! ## CommandLineParser: session flags -/

/-- C15: every constructed `CommandLineParser` with `useSystemSettingsOnly` set
has `noSession` set; and for every parse that reaches the configuration stage
(`--quiet` and `--debug` not combined, no global help or version option),
`useSystemSettingsOnly` is set exactly when `--system-config-only` is given and
`noSession` is set whenever `--system-config-only` or `--no-session` is given or
the no-session environment variable is not empty. -/
theorem systemConfigOnly_implies_noSession (env : Env) (argv0 : String)
    (arguments : List String) :
    ((construct env argv0 arguments).useSystemSettingsOnly = true →
      (construct env argv0 arguments).noSession = true) ∧
    (∀ parsed, parsedCommandLine env argv0 arguments = some parsed →
      reachesConfigurationStage env parsed = true →
      (construct env argv0 arguments).useSystemSettingsOnly
        = parsed.isSet "system-config-only" ∧
      ((parsed.isSet "system-config-only" = true ∨ parsed.isSet "no-session" = true ∨
          envIsEmpty env.noSessionEnvVar = false) →
        (construct env argv0 arguments).noSession = true)) := by
  rcases construct_cases env argv0 arguments with ⟨hnone, errors, hc⟩ | ⟨parsed, hsome, hc⟩
  · rw [hc, hnone]
    exact ⟨fun h => (by cases h), fun parsed h => (by cases h)⟩
  · rw [hc, hsome]
    by_cases hex : (checkExclusiveOption parsed.isSet ["quiet", "debug"]).ok = true
    · obtain ⟨init, hinit, _, hns, hsys, _⟩ := afterParse_of_exclusive env parsed hex
      rw [hinit]
      by_cases hg : globalHelpOrVersion env parsed = true
      · obtain ⟨_, h1, h2⟩ := helpStage_of_global env parsed init hg
        rw [h1, h2, hns, hsys]
        refine ⟨fun h => (by cases h), fun p hp hreach => ?_⟩
        cases hp
        simp [reachesConfigurationStage, hg] at hreach
      · have hg0 : globalHelpOrVersion env parsed = false := by simpa using hg
        rw [helpStage_of_not_global env parsed init hg0]
        obtain ⟨h1, h2⟩ := configurationStage_flags env parsed init
        rw [h1, h2, hns, hsys]
        refine ⟨fun h => (by simp_all), fun p hp _ => ?_⟩
        cases hp
        refine ⟨by simp, fun h => ?_⟩
        rcases h with h | h | h <;> simp [h]
    · have hex0 : (checkExclusiveOption parsed.isSet ["quiet", "debug"]).ok = false := by
        simpa using hex
      obtain ⟨_, h1, h2⟩ := afterParse_of_not_exclusive env parsed hex0
      rw [h1, h2]
      refine ⟨fun h => (by cases h), fun p hp hreach => ?_⟩
      cases hp
      simp [reachesConfigurationStage, hex0] at hreach

/-- C15 at a concrete command line: `sfdk --system-config-only build`. -/
theorem systemConfigOnly_implies_noSession_witness :
    (construct Env.sample "sfdk" ["--system-config-only", "build"]).useSystemSettingsOnly
      = true ∧
    (construct Env.sample "sfdk" ["--system-config-only", "build"]).noSession = true :=
  ⟨by decide,
    (systemConfigOnly_implies_noSession Env.sample "sfdk"
      ["--system-config-only", "build"]).1 (by decide)⟩

end CommandLineParser

/-! ## CommandLineParser: the command name -/

namespace CommandLineParser

theorem helpRequest_result (env : Env) (command : Command) (scanned : List String) :
    (helpRequest env command scanned).1 = .Usage ∨
      (helpRequest env command scanned).1 = .Dispatch := by
  unfold helpRequest
  split
  · exact Or.inl rfl
  · split
    · exact Or.inl rfl
    · split
      · exact Or.inl rfl
      · split
        · exact Or.inl rfl
        · exact Or.inr rfl

theorem commandStage_cases (env : Env) (parsed : Parsed) (init : Parser) :
    (parsed.positionalArguments = [] ∧
      (commandStage env parsed init).result = init.result ∧
      (commandStage env parsed init).errors = ["Command name expected"]) ∨
    (∃ commandName rest, parsed.positionalArguments = commandName :: rest ∧
      env.command commandName = none ∧
      (commandStage env parsed init).result = init.result ∧
      (commandStage env parsed init).errors = [unrecognizedCommandMessage commandName]) ∨
    (∃ commandName rest command, parsed.positionalArguments = commandName :: rest ∧
      env.command commandName = some command ∧
      (commandStage env parsed init).command = some command ∧
      (commandStage env parsed init).commandArguments = rest ∧
      (commandStage env parsed init).result =
        (helpRequest env command
          (commandArgumentsWithoutDynamicSubcommands command rest)).1) := by
  unfold commandStage
  cases hpos : parsed.positionalArguments with
  | nil => exact Or.inl ⟨rfl, rfl, rfl⟩
  | cons commandName rest =>
    cases hcommand : env.command commandName with
    | none =>
      refine Or.inr (Or.inl ⟨commandName, rest, rfl, hcommand, ?_, ?_⟩) <;> simp [hcommand]
    | some command =>
      refine Or.inr (Or.inr ⟨commandName, rest, command, rfl, hcommand, ?_, ?_, ?_⟩) <;>
        simp [hcommand]

theorem configurationStage_cases (env : Env) (parsed : Parsed) (init : Parser) :
    (configurationAccepted env parsed = false ∧
      (configurationStage env parsed init).result = init.result) ∨
    (configurationAccepted env parsed = true ∧
      ∃ next : Parser, configurationStage env parsed init = commandStage env parsed next ∧
        next.result = init.result) := by
  unfold configurationStage configurationAccepted
  cases hpush : pushConfigOptions env.occurenceFromString (parsed.values "c") [] [] with
  | mk pushed r1 =>
    obtain ⟨validators, error⟩ := r1
    cases error with
    | some e =>
      refine Or.inl ⟨rfl, ?_⟩
      simp only
      split <;> split <;> rfl
    | none =>
      simp only
      cases halias : pushAliasOptions parsed (aliasOptions env) pushed validators with
      | mk pushed2 r2 =>
        obtain ⟨validators2, error2⟩ := r2
        cases error2 with
        | some e =>
          refine Or.inl ⟨rfl, ?_⟩
          simp only
          split <;> split <;> rfl
        | none =>
          refine Or.inr ⟨rfl, _, rfl, ?_⟩
          simp only
          split <;> split <;> rfl

theorem afterParse_stage (env : Env) (parsed : Parsed) :
    ((checkExclusiveOption parsed.isSet ["quiet", "debug"]).ok = false ∧
      (afterParse env parsed).result = .BadUsage) ∨
    ((checkExclusiveOption parsed.isSet ["quiet", "debug"]).ok = true ∧
      globalHelpOrVersion env parsed = true ∧
      ((afterParse env parsed).result = .Usage ∨ (afterParse env parsed).result = .Version)) ∨
    ((checkExclusiveOption parsed.isSet ["quiet", "debug"]).ok = true ∧
      globalHelpOrVersion env parsed = false ∧ configurationAccepted env parsed = false ∧
      (afterParse env parsed).result = .BadUsage) ∨
    ((checkExclusiveOption parsed.isSet ["quiet", "debug"]).ok = true ∧
      globalHelpOrVersion env parsed = false ∧ configurationAccepted env parsed = true ∧
      ∃ next : Parser, afterParse env parsed = commandStage env parsed next ∧
        next.result = .BadUsage) := by
  by_cases hex : (checkExclusiveOption parsed.isSet ["quiet", "debug"]).ok = true
  · obtain ⟨init, hinit, hres, _⟩ := afterParse_of_exclusive env parsed hex
    rw [hinit]
    by_cases hg : globalHelpOrVersion env parsed = true
    · exact Or.inr (Or.inl ⟨hex, hg, (helpStage_of_global env parsed init hg).1⟩)
    · have hg0 : globalHelpOrVersion env parsed = false := by simpa using hg
      rw [helpStage_of_not_global env parsed init hg0]
      rcases configurationStage_cases env parsed init with ⟨hacc, hr⟩ | ⟨hacc, next, hn, hr⟩
      · exact Or.inr (Or.inr (Or.inl ⟨hex, hg0, hacc, hr.trans hres⟩))
      · exact Or.inr (Or.inr (Or.inr ⟨hex, hg0, hacc, next, hn, hr.trans hres⟩))
  · have hex0 : (checkExclusiveOption parsed.isSet ["quiet", "debug"]).ok = false := by
      simpa using hex
    exact Or.inl ⟨hex0, (afterParse_of_not_exclusive env parsed hex0).1⟩

/-- C17: the result is `Dispatch` only if the command line parsed, there is a
first positional argument and the dispatcher knows a command of that name; then
`command()` is that command and the command arguments are the remaining
positional arguments, in order.  And if the command line parsed without a global
help or version option, then with no positional argument, or with a first
positional argument that names no command, the result is `BadUsage`; when
nothing was rejected before (options and pushed configuration accepted) the
message is "Command name expected", respectively "Unrecognized command" with the
name. -/
theorem command_name_required (env : Env) (argv0 : String) (arguments : List String) :
    ((construct env argv0 arguments).result = .Dispatch →
      ∃ parsed commandName rest command,
        parsedCommandLine env argv0 arguments = some parsed ∧
        parsed.positionalArguments = commandName :: rest ∧
        env.command commandName = some command ∧
        (construct env argv0 arguments).command = some command ∧
        (construct env argv0 arguments).commandArguments = rest) ∧
    (∀ parsed, parsedCommandLine env argv0 arguments = some parsed →
      globalHelpOrVersion env parsed = false →
      (parsed.positionalArguments = [] →
        (construct env argv0 arguments).result = .BadUsage ∧
        ((checkExclusiveOption parsed.isSet ["quiet", "debug"]).ok = true →
          configurationAccepted env parsed = true →
          (construct env argv0 arguments).errors = ["Command name expected"])) ∧
      (∀ commandName rest, parsed.positionalArguments = commandName :: rest →
        env.command commandName = none →
        (construct env argv0 arguments).result = .BadUsage ∧
        ((checkExclusiveOption parsed.isSet ["quiet", "debug"]).ok = true →
          configurationAccepted env parsed = true →
          (construct env argv0 arguments).errors
            = [unrecognizedCommandMessage commandName]))) := by
  rcases construct_cases env argv0 arguments with ⟨hnone, errors, hc⟩ | ⟨parsed, hsome, hc⟩
  · rw [hc, hnone]
    exact ⟨fun h => (by cases h), fun parsed h => (by cases h)⟩
  · rw [hc, hsome]
    constructor
    · intro hdispatch
      rcases afterParse_stage env parsed with ⟨_, hr⟩ | ⟨_, _, hr⟩ | ⟨_, _, _, hr⟩ |
          ⟨_, _, _, next, hn, hnr⟩
      · rw [hr] at hdispatch; cases hdispatch
      · rcases hr with hr | hr <;> (rw [hr] at hdispatch; cases hdispatch)
      · rw [hr] at hdispatch; cases hdispatch
      · rw [hn] at hdispatch ⊢
        rcases commandStage_cases env parsed next with ⟨_, hr, _⟩ | ⟨_, _, _, _, hr, _⟩ |
            ⟨commandName, rest, command, hpos, hcommand, h1, h2, _⟩
        · rw [hr, hnr] at hdispatch; cases hdispatch
        · rw [hr, hnr] at hdispatch; cases hdispatch
        · exact ⟨parsed, commandName, rest, command, rfl, hpos, hcommand, h1, h2⟩
    · intro p hp hglobal
      cases hp
      rcases afterParse_stage env parsed with ⟨hex, hr⟩ | ⟨_, hg, _⟩ | ⟨_, _, hacc, hr⟩ |
          ⟨_, _, _, next, hn, hnr⟩
      · refine ⟨fun _ => ⟨hr, fun h => ?_⟩, fun _ _ _ _ => ⟨hr, fun h => ?_⟩⟩ <;>
          (rw [hex] at h; cases h)
      · rw [hglobal] at hg; cases hg
      · refine ⟨fun _ => ⟨hr, fun _ h => ?_⟩, fun _ _ _ _ => ⟨hr, fun _ h => ?_⟩⟩ <;>
          (rw [hacc] at h; cases h)
      · rw [hn]
        rcases commandStage_cases env parsed next with ⟨hpos, hr, he⟩ |
            ⟨commandName, rest, hpos, hcommand, hr, he⟩ |
            ⟨commandName, rest, command, hpos, hcommand, _⟩
        · refine ⟨fun _ => ⟨hr.trans hnr, fun _ _ => he⟩, fun name tail h _ => ?_⟩
          rw [hpos] at h; cases h
        · refine ⟨fun h => ?_, fun name tail h hnone => ?_⟩
          · rw [hpos] at h; cases h
          · rw [hpos] at h
            cases h
            exact ⟨hr.trans hnr, fun _ _ => he⟩
        · refine ⟨fun h => ?_, fun name tail h hnone => ?_⟩
          · rw [hpos] at h; cases h
          · rw [hpos] at h
            cases h
            rw [hcommand] at hnone
            cases hnone

/-- C17 at concrete command lines: `sfdk engine exec ls` is dispatched to the
command `engine` with the arguments `exec ls`. -/
theorem command_name_required_witness :
    ∃ parsed commandName rest command,
      parsedCommandLine Env.sample "sfdk" ["engine", "exec", "ls"] = some parsed ∧
      parsed.positionalArguments = commandName :: rest ∧
      Env.sample.command commandName = some command ∧
      (construct Env.sample "sfdk" ["engine", "exec", "ls"]).command = some command ∧
      (construct Env.sample "sfdk" ["engine", "exec", "ls"]).commandArguments = rest :=
  (command_name_required Env.sample "sfdk" ["engine", "exec", "ls"]).1 (by decide)

end CommandLineParser

/-! ## CommandLineParser: the options environment variable -/

namespace CommandLineParser

theorem afterParse_withOptionsEnvVar (env : Env) (value : Option String) (parsed : Parsed) :
    afterParse (env.withOptionsEnvVar value) parsed = afterParse env parsed := rfl

/-- C12, as the code has it: let the value of the options environment variable be
empty, or split without error into arguments that, after the program name, parse
on their own without error and without positional arguments.  Then constructing
the parser with the variable set to that value gives the same parser (result
code, verbosity, session flags, pushed configuration, command, command arguments
and messages) as constructing it with the variable unset on the program name,
followed by the split value, followed by the other arguments. -/
theorem optionsEnvVar_as_leading_arguments (env : Env) (value : String)
    (fromEnvironment : List String) (argv0 : String) (arguments : List String)
    (hsplit : environmentVariableAsArguments (env.withOptionsEnvVar (some value))
      = some fromEnvironment)
    (hoptions : fromEnvironment = [] ∨
      ∃ parsed, env.parse (argv0 :: fromEnvironment) = .ok parsed ∧
        parsed.positionalArguments = []) :
    construct (env.withOptionsEnvVar (some value)) argv0 arguments
      = construct (env.withOptionsEnvVar none) argv0 (fromEnvironment ++ arguments) := by
  have hall : allArguments (env.withOptionsEnvVar (some value)) argv0 arguments
      = .ok (argv0 :: (fromEnvironment ++ arguments)) := by
    unfold allArguments
    rw [hsplit]
    rcases hoptions with rfl | ⟨parsed, hparse, hpos⟩
    · rfl
    · cases fromEnvironment with
      | nil => rfl
      | cons a rest =>
        have hparse1 : (env.withOptionsEnvVar (some value)).parse (argv0 :: a :: rest)
            = .ok parsed := hparse
        simp [hparse1, hpos]
  have hnone : allArguments (env.withOptionsEnvVar none) argv0 (fromEnvironment ++ arguments)
      = .ok (argv0 :: (fromEnvironment ++ arguments)) := rfl
  unfold construct
  rw [hall, hnone]
  rfl

/-- C12 fails as stated: with the variable set to `build` and no other argument
the constructor rejects the positional argument received through the variable
(`BadUsage`), whereas with the variable unset the command line `sfdk build`,
where `build` is what the value splits into, is dispatched. -/
theorem optionsEnvVar_differs_for_positional_argument :
    Env.sample.splitArgs "build" = some ["build"] ∧
    (construct (Env.sample.withOptionsEnvVar (some "build")) "sfdk" []).result = .BadUsage ∧
    (construct (Env.sample.withOptionsEnvVar none) "sfdk" (["build"] ++ [])).result
      = .Dispatch := by
  decide

/-- C12 as amended, at a concrete input: the variable holds `--quiet --no-session`
and the command line is `sfdk build`. -/
theorem optionsEnvVar_as_leading_arguments_witness :
    construct (Env.sample.withOptionsEnvVar (some "--quiet --no-session")) "sfdk" ["build"]
      = construct (Env.sample.withOptionsEnvVar none) "sfdk"
          (["--quiet", "--no-session"] ++ ["build"]) :=
  optionsEnvVar_as_leading_arguments Env.sample "--quiet --no-session"
    ["--quiet", "--no-session"] "sfdk" ["build"] (by decide)
    (Or.inr ⟨⟨[("quiet", none), ("no-session", none)], []⟩, rfl, rfl⟩)

end CommandLineParser

/-! ## CommandLineParser: help requests among the command arguments -/

namespace CommandLineParser

theorem mem_leadingOptions (a : String) :
    ∀ arguments : List String, a ∈ leadingOptions arguments ↔
      ∃ before after, arguments = before ++ a :: after ∧
        (∀ x ∈ before, startsWithDash x = true) ∧ startsWithDash a = true
  | [] => by simp [leadingOptions]
  | x :: xs => by
    unfold leadingOptions
    by_cases hx : startsWithDash x = true
    · simp only [hx, Bool.not_true, Bool.false_eq_true, if_false, List.mem_cons]
      constructor
      · rintro (rfl | h)
        · exact ⟨[], xs, rfl, by simp, hx⟩
        · obtain ⟨before, after, rfl, hb, ha⟩ := (mem_leadingOptions a xs).mp h
          refine ⟨x :: before, after, rfl, ?_, ha⟩
          intro y hy
          rcases List.mem_cons.mp hy with rfl | hy
          · exact hx
          · exact hb y hy
      · rintro ⟨before, after, heq, hb, ha⟩
        cases before with
        | nil =>
          simp only [List.nil_append, List.cons.injEq] at heq
          exact Or.inl heq.1.symm
        | cons y ys =>
          simp only [List.cons_append, List.cons.injEq] at heq
          refine Or.inr ((mem_leadingOptions a xs).mpr ⟨ys, after, heq.2, ?_, ha⟩)
          intro z hz
          exact hb z (List.mem_cons_of_mem _ hz)
    · simp only [hx, Bool.not_false, if_true, List.not_mem_nil, false_iff]
      rintro ⟨before, after, heq, hb, ha⟩
      cases before with
      | nil =>
        simp only [List.nil_append, List.cons.injEq] at heq
        rw [heq.1] at hx
        exact hx ha
      | cons y ys =>
        simp only [List.cons_append, List.cons.injEq] at heq
        rw [heq.1] at hx
        exact hx (hb y (List.mem_cons_self _ _))

theorem stops_cons_mem (dyn : List String) (u : Bool) (x : String) (l : List String)
    (h : x ∈ dyn) : stops dyn u (x :: l) = stops dyn true l := by
  have hc : dyn.contains x = true := by simpa using h
  simp only [stops, hc, Bool.not_true, Bool.false_and, Bool.false_or, Bool.or_true]

theorem stops_cons_stop (dyn : List String) (x : String) (l : List String)
    (h : x ∉ dyn) (hx : startsWithDash x = false) : stops dyn true (x :: l) = true := by
  have hc : dyn.contains x = false := by simpa using h
  simp only [stops, hc, hx, Bool.not_false, Bool.and_self, Bool.true_or]

theorem stops_cons_skip (dyn : List String) (u : Bool) (x : String) (l : List String)
    (h : x ∉ dyn) (hx : (u && !startsWithDash x) = false) :
    stops dyn u (x :: l) = stops dyn u l := by
  have hc : dyn.contains x = false := by simpa using h
  have hunfold : stops dyn u (x :: l)
      = ((!dyn.contains x && !startsWithDash x && u) ||
          stops dyn (u || dyn.contains x) l) := rfl
  rw [hunfold, hc]
  cases u <;> cases hd : startsWithDash x <;> simp_all

theorem upToDynamicArgument_cons (dyn : List String) (u : Bool) (x : String)
    (l : List String) :
    (x ∈ dyn → upToDynamicArgument dyn u (x :: l) = x :: upToDynamicArgument dyn true l) ∧
    (x ∉ dyn → (u && !startsWithDash x) = true → upToDynamicArgument dyn u (x :: l) = []) ∧
    (x ∉ dyn → (u && !startsWithDash x) = false →
      upToDynamicArgument dyn u (x :: l) = x :: upToDynamicArgument dyn u l) := by
  refine ⟨fun h => ?_, fun h hx => ?_, fun h hx => ?_⟩
  · have hc : dyn.contains x = true := by simpa using h
    simp only [upToDynamicArgument, hc, if_true]
  · have hc : dyn.contains x = false := by simpa using h
    simp only [upToDynamicArgument, hc, hx, Bool.false_eq_true, if_false, if_true]
  · have hc : dyn.contains x = false := by simpa using h
    simp only [upToDynamicArgument, hc, hx, Bool.false_eq_true, if_false]

theorem mem_upToDynamicArgument (dyn : List String) (a : String) :
    ∀ (arguments : List String) (underDynamic : Bool),
      a ∈ upToDynamicArgument dyn underDynamic arguments ↔
        ∃ before after, arguments = before ++ a :: after ∧
          stops dyn underDynamic (before ++ [a]) = false
  | [], u => by simp [upToDynamicArgument]
  | x :: xs, u => by
    obtain ⟨hmem, hstopped, hskip⟩ := upToDynamicArgument_cons dyn u x xs
    by_cases hd : x ∈ dyn
    · rw [hmem hd, List.mem_cons]
      constructor
      · rintro (rfl | h)
        · refine ⟨[], xs, rfl, ?_⟩
          rw [List.nil_append, stops_cons_mem dyn u a [] hd]
          rfl
        · obtain ⟨before, after, rfl, hs⟩ := (mem_upToDynamicArgument dyn a xs true).mp h
          refine ⟨x :: before, after, rfl, ?_⟩
          rw [List.cons_append, stops_cons_mem dyn u x _ hd]
          exact hs
      · rintro ⟨before, after, heq, hs⟩
        cases before with
        | nil =>
          simp only [List.nil_append, List.cons.injEq] at heq
          exact Or.inl heq.1.symm
        | cons y ys =>
          simp only [List.cons_append, List.cons.injEq] at heq
          obtain ⟨rfl, rfl⟩ := heq
          refine Or.inr ((mem_upToDynamicArgument dyn a _ true).mpr ⟨ys, after, rfl, ?_⟩)
          rw [List.cons_append, stops_cons_mem dyn u x _ hd] at hs
          exact hs
    · by_cases hstop : (u && !startsWithDash x) = true
      · rw [hstopped hd hstop]
        simp only [List.not_mem_nil, false_iff]
        rintro ⟨before, after, heq, hs⟩
        simp only [Bool.and_eq_true, Bool.not_eq_true'] at hstop
        obtain ⟨rfl, hx⟩ := hstop
        cases before with
        | nil =>
          simp only [List.nil_append, List.cons.injEq] at heq
          obtain ⟨rfl, rfl⟩ := heq
          rw [List.nil_append, stops_cons_stop dyn x [] hd hx] at hs
          cases hs
        | cons y ys =>
          simp only [List.cons_append, List.cons.injEq] at heq
          obtain ⟨rfl, rfl⟩ := heq
          rw [List.cons_append, stops_cons_stop dyn x _ hd hx] at hs
          cases hs
      · have hstop0 : (u && !startsWithDash x) = false := by simpa using hstop
        rw [hskip hd hstop0, List.mem_cons]
        constructor
        · rintro (rfl | h)
          · refine ⟨[], xs, rfl, ?_⟩
            rw [List.nil_append, stops_cons_skip dyn u a [] hd hstop0]
            rfl
          · obtain ⟨before, after, rfl, hs⟩ := (mem_upToDynamicArgument dyn a xs u).mp h
            refine ⟨x :: before, after, rfl, ?_⟩
            rw [List.cons_append, stops_cons_skip dyn u x _ hd hstop0]
            exact hs
        · rintro ⟨before, after, heq, hs⟩
          cases before with
          | nil =>
            simp only [List.nil_append, List.cons.injEq] at heq
            exact Or.inl heq.1.symm
          | cons y ys =>
            simp only [List.cons_append, List.cons.injEq] at heq
            obtain ⟨rfl, rfl⟩ := heq
            refine Or.inr ((mem_upToDynamicArgument dyn a _ u).mpr ⟨ys, after, rfl, ?_⟩)
            rw [List.cons_append, stops_cons_skip dyn u x _ hd hstop0] at hs
            exact hs

theorem stops_append_dash (dyn : List String) (a : String) (ha : startsWithDash a = true) :
    ∀ (l : List String) (u : Bool), stops dyn u (l ++ [a]) = stops dyn u l
  | [], u => by
    rw [List.nil_append]
    by_cases hd : a ∈ dyn
    · rw [stops_cons_mem dyn u a [] hd]; rfl
    · rw [stops_cons_skip dyn u a [] hd (by simp [ha])]
  | x :: l, u => by
    rw [List.cons_append]
    by_cases hd : x ∈ dyn
    · rw [stops_cons_mem dyn u x _ hd, stops_cons_mem dyn u x _ hd,
        stops_append_dash dyn a ha l true]
    · by_cases hstop : (u && !startsWithDash x) = true
      · simp only [Bool.and_eq_true, Bool.not_eq_true'] at hstop
        obtain ⟨rfl, hx⟩ := hstop
        rw [stops_cons_stop dyn x _ hd hx, stops_cons_stop dyn x _ hd hx]
      · have hstop0 : (u && !startsWithDash x) = false := by simpa using hstop
        rw [stops_cons_skip dyn u x _ hd hstop0, stops_cons_skip dyn u x _ hd hstop0,
          stops_append_dash dyn a ha l u]

theorem stops_true_iff (dyn : List String) :
    ∀ l : List String, stops dyn true l = true ↔
      ∃ l1 b l2, l = l1 ++ b :: l2 ∧ b ∉ dyn ∧ startsWithDash b = false
  | [] => by
    constructor
    · intro h; cases h
    · rintro ⟨l1, b, l2, h, _⟩
      cases l1 <;> cases h
  | x :: l => by
    by_cases hd : x ∈ dyn
    · rw [stops_cons_mem dyn true x l hd, stops_true_iff dyn l]
      constructor
      · rintro ⟨l1, b, l2, rfl, hb, hx⟩
        exact ⟨x :: l1, b, l2, rfl, hb, hx⟩
      · rintro ⟨l1, b, l2, heq, hb, hx⟩
        cases l1 with
        | nil =>
          simp only [List.nil_append, List.cons.injEq] at heq
          rw [heq.1] at hd
          exact absurd hd hb
        | cons y ys =>
          simp only [List.cons_append, List.cons.injEq] at heq
          exact ⟨ys, b, l2, heq.2, hb, hx⟩
    · by_cases hx : startsWithDash x = false
      · rw [stops_cons_stop dyn x l hd hx]
        simp only [true_iff]
        exact ⟨[], x, l, rfl, hd, hx⟩
      · have hx1 : startsWithDash x = true := by simpa using hx
        rw [stops_cons_skip dyn true x l hd (by simp [hx1]), stops_true_iff dyn l]
        constructor
        · rintro ⟨l1, b, l2, rfl, hb, hbx⟩
          exact ⟨x :: l1, b, l2, rfl, hb, hbx⟩
        · rintro ⟨l1, b, l2, heq, hb, hbx⟩
          cases l1 with
          | nil =>
            simp only [List.nil_append, List.cons.injEq] at heq
            rw [heq.1] at hx
            exact absurd hbx hx
          | cons y ys =>
            simp only [List.cons_append, List.cons.injEq] at heq
            exact ⟨ys, b, l2, heq.2, hb, hbx⟩

theorem stops_false_iff (dyn : List String) :
    ∀ l : List String, stops dyn false l = true ↔ HasDynamicArgument dyn l
  | [] => by
    constructor
    · intro h; cases h
    · rintro ⟨before, d, between, b, after, h, _⟩
      cases before <;> cases h
  | x :: l => by
    by_cases hd : x ∈ dyn
    · rw [stops_cons_mem dyn false x l hd, stops_true_iff dyn l]
      constructor
      · rintro ⟨l1, b, l2, rfl, hb, hx⟩
        exact ⟨[], x, l1, b, l2, rfl, hd, hb, hx⟩
      · rintro ⟨before, d, between, b, after, heq, _, hb, hx⟩
        cases before with
        | nil =>
          simp only [List.nil_append, List.cons.injEq] at heq
          exact ⟨between, b, after, heq.2, hb, hx⟩
        | cons y ys =>
          simp only [List.cons_append, List.cons.injEq] at heq
          refine ⟨ys ++ d :: between, b, after, ?_, hb, hx⟩
          rw [heq.2]
          simp
    · rw [stops_cons_skip dyn false x l hd rfl, stops_false_iff dyn l]
      constructor
      · rintro ⟨before, d, between, b, after, rfl, hdd, hb, hx⟩
        exact ⟨x :: before, d, between, b, after, rfl, hdd, hb, hx⟩
      · rintro ⟨before, d, between, b, after, heq, hdd, hb, hx⟩
        cases before with
        | nil =>
          simp only [List.nil_append, List.cons.injEq] at heq
          rw [heq.1] at hd
          exact absurd hdd hd
        | cons y ys =>
          simp only [List.cons_append, List.cons.injEq] at heq
          exact ⟨ys, d, between, b, after, heq.2, hdd, hb, hx⟩

theorem isHelpRequest_startsWithDash (env : Env) (a : String) (h : IsHelpRequest env a) :
    startsWithDash a = true := by
  rcases h with rfl | rfl | rfl | ⟨d, _, rfl⟩
  · rfl
  · rfl
  · rfl
  · simp [startsWithDash, String.data_append]

theorem helpRequest_usage_iff (env : Env) (command : Command) (scanned : List String) :
    (helpRequest env command scanned).1 = .Usage ↔
      ∃ a ∈ scanned, IsHelpRequest env a := by
  unfold helpRequest
  by_cases h1 : scanned.contains "-h" = true
  · simp only [h1, if_true, true_iff]
    exact ⟨"-h", by simpa using h1, Or.inl rfl⟩
  · by_cases h2 : scanned.contains "--help" = true
    · simp only [h1, h2, Bool.false_eq_true, if_false, if_true, true_iff]
      exact ⟨"--help", by simpa using h2, Or.inr (Or.inl rfl)⟩
    · by_cases h3 : scanned.contains "--help-all" = true
      · simp only [h1, h2, h3, Bool.false_eq_true, if_false, if_true, true_iff]
        exact ⟨"--help-all", by simpa using h3, Or.inr (Or.inr (Or.inl rfl))⟩
      · simp only [h1, h2, h3, Bool.false_eq_true, if_false]
        cases hfind : env.domains.find? (fun d => scanned.contains ("--help-" ++ d)) with
        | some d =>
          simp only [true_iff]
          have hd := List.find?_some hfind
          have hmem := List.mem_of_find?_eq_some hfind
          exact ⟨"--help-" ++ d, by simpa using hd, Or.inr (Or.inr (Or.inr ⟨d, hmem, rfl⟩))⟩
        | none =>
          refine ⟨fun h => (by cases h), ?_⟩
          rintro ⟨a, ha, hreq⟩
          exfalso
          rcases hreq with rfl | rfl | rfl | ⟨d, hd, rfl⟩
          · exact h1 (by simpa using ha)
          · exact h2 (by simpa using ha)
          · exact h3 (by simpa using ha)
          · have := List.find?_eq_none.mp hfind d hd
            exact this (by simpa using ha)

theorem commandStage_command (env : Env) (parsed : Parsed) (init : Parser)
    (h0 : init.command = none) (command : Command)
    (h : (commandStage env parsed init).command = some command) :
    ∃ commandName rest, parsed.positionalArguments = commandName :: rest ∧
      env.command commandName = some command ∧
      (commandStage env parsed init).commandArguments = rest ∧
      (commandStage env parsed init).result =
        (helpRequest env command
          (commandArgumentsWithoutDynamicSubcommands command rest)).1 := by
  unfold commandStage at h ⊢
  cases hpos : parsed.positionalArguments with
  | nil =>
    simp only [hpos] at h
    rw [h0] at h
    cases h
  | cons commandName rest =>
    simp only [hpos] at h ⊢
    cases hcommand : env.command commandName with
    | none =>
      simp only [hcommand] at h
      rw [h0] at h
      cases h
    | some c =>
      simp only [hcommand, Option.some.injEq] at h ⊢
      subst h
      exact ⟨commandName, rest, rfl, hcommand, rfl, rfl⟩

theorem configurationStage_command (env : Env) (parsed : Parsed) (init : Parser)
    (h0 : init.command = none) (command : Command)
    (h : (configurationStage env parsed init).command = some command) :
    ∃ next : Parser, configurationStage env parsed init = commandStage env parsed next ∧
      next.command = none := by
  unfold configurationStage at h ⊢
  cases hpush : pushConfigOptions env.occurenceFromString (parsed.values "c") [] [] with
  | mk pushed r1 =>
    obtain ⟨validators, error⟩ := r1
    cases error with
    | some e =>
      exfalso
      simp only [hpush] at h
      revert h
      split <;> split <;> simp [h0]
    | none =>
      simp only [hpush] at h ⊢
      cases halias : pushAliasOptions parsed (aliasOptions env) pushed validators with
      | mk pushed2 r2 =>
        obtain ⟨validators2, error2⟩ := r2
        cases error2 with
        | some e =>
          exfalso
          simp only [halias] at h
          revert h
          split <;> split <;> simp [h0]
        | none =>
          refine ⟨_, rfl, ?_⟩
          simp only
          split <;> split <;> exact h0

theorem helpStage_command_of_global (env : Env) (parsed : Parsed) (init : Parser)
    (h : globalHelpOrVersion env parsed = true) :
    (helpStage env parsed init).command = init.command := by
  unfold helpStage
  by_cases h1 : parsed.isSet "help-all" = true
  · simp [h1]
  · simp only [h1, Bool.false_eq_true, if_false]
    cases hfind : (domainHelpOptions env).find? (fun o => parsed.isSet o.1) with
    | some o => simp
    | none =>
      simp only
      by_cases h3 : parsed.isSet "help" = true
      · simp [h3]
      · by_cases h4 : parsed.isSet "h" = true
        · simp [h3, h4]
        · by_cases h5 : parsed.isSet "version" = true
          · simp [h3, h4, h5]
          · exfalso
            have h2 : (domainHelpOptions env).any (fun o => parsed.isSet o.1) = false := by
              rw [List.any_eq_false]
              intro o ho
              have := List.find?_eq_none.mp hfind o ho
              simpa using this
            simp [globalHelpOrVersion, h1, h2, h3, h4, h5] at h

theorem afterParse_command (env : Env) (parsed : Parsed) (command : Command)
    (h : (afterParse env parsed).command = some command) :
    ∃ next : Parser, afterParse env parsed = commandStage env parsed next ∧
      next.command = none := by
  by_cases hex : (checkExclusiveOption parsed.isSet ["quiet", "debug"]).ok = true
  · obtain ⟨init, hinit, _, _, _, hcommand, _⟩ := afterParse_of_exclusive env parsed hex
    rw [hinit] at h ⊢
    by_cases hg : globalHelpOrVersion env parsed = true
    · rw [helpStage_command_of_global env parsed init hg, hcommand] at h
      cases h
    · have hg0 : globalHelpOrVersion env parsed = false := by simpa using hg
      rw [helpStage_of_not_global env parsed init hg0] at h ⊢
      exact configurationStage_command env parsed init hcommand command h
  · have hex0 : (checkExclusiveOption parsed.isSet ["quiet", "debug"]).ok = false := by
      simpa using hex
    exfalso
    unfold afterParse at h
    simp only [hex0, Bool.not_false, if_true] at h
    revert h
    split <;> simp [Parser.badUsage]

/-- C14: when the constructor has found the command, the result is `Usage` if a
help request (`-h`, `--help`, `--help-all` or `--help-<domain>`) is among the
command arguments in the part that is scanned, and `Dispatch` otherwise.  For a
command marked dynamic the scanned part ends before the first argument that does
not start with '-'; otherwise, for a command with dynamic subcommands, it ends
before the first argument that follows a dynamic subcommand name, is not such a
name and does not start with '-'; for any other command it is all of the command
arguments. -/
theorem help_request_before_dynamic_argument (env : Env) (argv0 : String)
    (arguments : List String) (command : Command)
    (h : (construct env argv0 arguments).command = some command) :
    ((construct env argv0 arguments).result = .Usage ↔
      HelpRequested env command (construct env argv0 arguments).commandArguments) ∧
    ((construct env argv0 arguments).result = .Usage ∨
      (construct env argv0 arguments).result = .Dispatch) := by
  rcases construct_cases env argv0 arguments with ⟨_, errors, hc⟩ | ⟨parsed, _, hc⟩
  · rw [hc] at h
    cases h
  · rw [hc] at h ⊢
    obtain ⟨next, hnext, hnone⟩ := afterParse_command env parsed command h
    rw [hnext] at h ⊢
    obtain ⟨commandName, rest, _, _, hargs, hresult⟩ :=
      commandStage_command env parsed next hnone command h
    rw [hargs, hresult]
    refine ⟨?_, helpRequest_result env command _⟩
    rw [helpRequest_usage_iff]
    unfold HelpRequested commandArgumentsWithoutDynamicSubcommands
    by_cases hdyn : command.dynamic = true
    · simp only [hdyn, if_true]
      constructor
      · rintro ⟨a, ha, hreq⟩
        obtain ⟨before, after, heq, hb, _⟩ := (mem_leadingOptions a rest).mp ha
        exact ⟨before, a, after, heq, hreq, hb⟩
      · rintro ⟨before, a, after, heq, hreq, hb⟩
        exact ⟨a, (mem_leadingOptions a rest).mpr
          ⟨before, after, heq, hb, isHelpRequest_startsWithDash env a hreq⟩, hreq⟩
    · by_cases hsub : command.dynamicSubcommands.isEmpty = false
      · simp only [hdyn, hsub, Bool.false_eq_true, if_false, Bool.not_false, if_true]
        constructor
        · rintro ⟨a, ha, hreq⟩
          obtain ⟨before, after, heq, hs⟩ :=
            (mem_upToDynamicArgument command.dynamicSubcommands a rest false).mp ha
          refine ⟨before, a, after, heq, hreq, ?_⟩
          rw [stops_append_dash _ a (isHelpRequest_startsWithDash env a hreq)] at hs
          intro hhas
          rw [(stops_false_iff _ before).mpr hhas] at hs
          cases hs
        · rintro ⟨before, a, after, heq, hreq, hno⟩
          refine ⟨a, (mem_upToDynamicArgument command.dynamicSubcommands a rest false).mpr
            ⟨before, after, heq, ?_⟩, hreq⟩
          rw [stops_append_dash _ a (isHelpRequest_startsWithDash env a hreq)]
          cases hst : stops command.dynamicSubcommands false before with
          | false => rfl
          | true => exact absurd ((stops_false_iff _ before).mp hst) hno
      · have hsub1 : command.dynamicSubcommands.isEmpty = true := by simpa using hsub
        simp only [hdyn, hsub1, Bool.false_eq_true, if_false, Bool.not_true]
        constructor
        · rintro ⟨a, ha, hreq⟩
          obtain ⟨before, after, heq⟩ := List.append_of_mem ha
          exact ⟨before, a, after, heq, hreq, trivial⟩
        · rintro ⟨before, a, after, heq, hreq, _⟩
          exact ⟨a, by rw [heq]; simp, hreq⟩

/-- C14 at a concrete command line: `sfdk engine --help exec ls` asks for help on
`engine`, the request standing before the argument of the dynamic subcommand. -/
theorem help_request_before_dynamic_argument_witness :
    ((construct Env.sample "sfdk" ["engine", "--help", "exec", "ls"]).result = .Usage ↔
      HelpRequested Env.sample ⟨"engine", false, ["exec"], []⟩
        (construct Env.sample "sfdk" ["engine", "--help", "exec", "ls"]).commandArguments) ∧
    ((construct Env.sample "sfdk" ["engine", "--help", "exec", "ls"]).result = .Usage ∨
      (construct Env.sample "sfdk" ["engine", "--help", "exec", "ls"]).result = .Dispatch) :=
  help_request_before_dynamic_argument Env.sample "sfdk" ["engine", "--help", "exec", "ls"]
    ⟨"engine", false, ["exec"], []⟩ (by decide)

end CommandLineParser

/-! ## CommandLineParser: compact option lists -/

namespace CommandLineParser

theorem isOppositeOf_iff (name opposite : List Char) :
    isOppositeOf name opposite = true ↔
      ∃ p, opposite = p ++ ("no-".toList ++ name) ∧ '\n' ∉ p ∧
        wordStartsAfter p.getLast? = true := by
  have hlen : ("no-".toList ++ name).length = name.length + 3 := by
    rw [List.length_append, Nat.add_comm]; rfl
  unfold isOppositeOf
  constructor
  · intro h
    simp only [Bool.and_eq_true, List.isSuffixOf_iff_suffix, Bool.not_eq_true',
      List.contains_eq_any_beq, List.any_eq_false, beq_iff_eq] at h
    obtain ⟨⟨⟨p, hp⟩, hnl⟩, hb⟩ := h
    have htake : opposite.take (opposite.length - (name.length + 3)) = p := by
      rw [← hp, List.length_append, hlen, Nat.add_sub_cancel, List.take_left']
      rfl
    rw [htake] at hnl hb
    refine ⟨p, hp.symm, ?_, hb⟩
    intro hmem
    exact hnl '\n' hmem rfl
  · rintro ⟨p, rfl, hnl, hb⟩
    have htake : (p ++ ("no-".toList ++ name)).take
        ((p ++ ("no-".toList ++ name)).length - (name.length + 3)) = p := by
      rw [List.length_append, hlen, Nat.add_sub_cancel, List.take_left']
      rfl
    rw [htake]
    simp only [Bool.and_eq_true, List.isSuffixOf_iff_suffix, Bool.not_eq_true',
      List.contains_eq_any_beq, List.any_eq_false, beq_iff_eq]
    refine ⟨⟨⟨p, rfl⟩, ?_⟩, hb⟩
    intro c hc hcn
    exact hnl (hcn ▸ hc)

/-- The character before the end of `p`, or `previous` when `p` is empty. -/
theorem containsNo_append (rest : List Char) :
    ∀ (p : List Char) (previous : Option Char),
      containsNo (match p.getLast? with | some c => some c | none => previous) rest = true →
      containsNo previous (p ++ rest) = true
  | [], previous, h => by simpa using h
  | c :: p, previous, h => by
    have hrec : containsNo (some c) (p ++ rest) = true := by
      apply containsNo_append rest p (some c)
      cases hp : p.getLast? with
      | none =>
        have : p = [] := List.getLast?_eq_none_iff.mp hp
        subst this
        simpa using h
      | some d =>
        have hlast : (c :: p).getLast? = some d := by
          cases p with
          | nil => simp at hp
          | cons e es => simpa [List.getLast?_cons_cons] using hp
        rw [hlast] at h
        simpa using h
    rw [List.cons_append]
    unfold containsNo
    rw [hrec, Bool.or_true]

theorem containsNo_no (previous : Option Char) (name : List Char)
    (h : wordStartsAfter previous = true) :
    containsNo previous ("no-".toList ++ name) = true := by
  have : "no-".toList ++ name = 'n' :: 'o' :: '-' :: name := rfl
  rw [this]
  unfold containsNo
  rw [h]
  simp [List.isPrefixOf]

theorem isOppositeCandidate_of_opposite (name opposite : List Char)
    (h : isOppositeOf name opposite = true) : isOppositeCandidate opposite = true := by
  obtain ⟨p, rfl, _, hb⟩ := (isOppositeOf_iff name _).mp h
  apply containsNo_append
  apply containsNo_no
  cases hp : p.getLast? with
  | none => rfl
  | some c => rw [hp] at hb; exact hb

theorem opposite_share_aux (n n' o : List Char) (h : isOppositeOf n o = true)
    (h' : isOppositeOf n' o = true) (hlen : n.length ≤ n'.length) :
    n = n' ∨ isOppositeCandidate n' = true := by
  obtain ⟨p, rfl, _, hb⟩ := (isOppositeOf_iff n _).mp h
  obtain ⟨p', heq, _, _⟩ := (isOppositeOf_iff n' _).mp h'
  have hs1 : n <:+ p ++ ("no-".toList ++ n) := ⟨p ++ "no-".toList, by simp⟩
  have hs2 : n' <:+ p ++ ("no-".toList ++ n) := ⟨p' ++ "no-".toList, by rw [heq]; simp⟩
  obtain ⟨t, ht⟩ := List.suffix_of_suffix_length_le hs1 hs2 hlen
  subst ht
  have heq2 : p ++ "no-".toList = p' ++ "no-".toList ++ t := by
    have : (p ++ "no-".toList) ++ n = (p' ++ "no-".toList ++ t) ++ n := by
      simpa [List.append_assoc] using heq
    exact List.append_cancel_right this
  have hno : "no-".toList = ['n', 'o', '-'] := rfl
  rw [hno] at heq2
  match t, heq2 with
  | [], _ => exact Or.inl (by simp)
  | [a], heq2 =>
    exfalso
    have h1 : (p ++ ['n', 'o']) ++ ['-'] = (p' ++ ['n', 'o', '-']) ++ [a] := by
      simpa [List.append_assoc] using heq2
    have h2 := (List.append_inj' h1 rfl).1
    have h3 : (p ++ ['n']) ++ ['o'] = (p' ++ ['n', 'o']) ++ ['-'] := by
      simpa [List.append_assoc] using h2
    have h4 := (List.append_inj' h3 rfl).2
    exact absurd h4 (by decide)
  | [a, b], heq2 =>
    exfalso
    have h1 : (p ++ ['n']) ++ ['o', '-'] = (p' ++ ['n', 'o', '-']) ++ [a, b] := by
      simpa [List.append_assoc] using heq2
    have h2 := (List.append_inj' h1 rfl).1
    have h3 : p ++ ['n'] = (p' ++ ['n', 'o']) ++ ['-'] := by
      simpa [List.append_assoc] using h2
    have h4 := (List.append_inj' h3 rfl).2
    exact absurd h4 (by decide)
  | a :: b :: c :: t2, heq2 =>
    right
    have hsuf1 : ['n', 'o', '-'] <:+ p ++ ['n', 'o', '-'] := ⟨p, rfl⟩
    have hsuf2 : (a :: b :: c :: t2) <:+ p ++ ['n', 'o', '-'] :=
      ⟨p' ++ ['n', 'o', '-'], by rw [heq2]⟩
    obtain ⟨t', ht'⟩ := List.suffix_of_suffix_length_le hsuf1 hsuf2
      (by simp)
    rw [← ht'] at heq2 ⊢
    have hp : p = p' ++ ['n', 'o', '-'] ++ t' := by
      have : p ++ ['n', 'o', '-'] = (p' ++ ['n', 'o', '-'] ++ t') ++ ['n', 'o', '-'] := by
        simpa [List.append_assoc] using heq2
      exact List.append_cancel_right this
    unfold isOppositeCandidate
    rw [List.append_assoc]
    apply containsNo_append
    apply containsNo_no
    cases ht : t'.getLast? with
    | none => rfl
    | some d =>
      have hlast : p.getLast? = some d := by
        rw [hp, List.getLast?_append, ht]
        rfl
      rw [hlast] at hb
      exact hb

theorem opposite_of_one_name (n n' o : List Char) (h : isOppositeOf n o = true)
    (h' : isOppositeOf n' o = true) (hc : isOppositeCandidate n = false)
    (hc' : isOppositeCandidate n' = false) : n = n' := by
  rcases Nat.le_total n.length n'.length with hlen | hlen
  · rcases opposite_share_aux n n' o h h' hlen with heq | hcand
    · exact heq
    · rw [hcand] at hc'; cases hc'
  · rcases opposite_share_aux n' n o h' h hlen with heq | hcand
    · exact heq.symm
    · rw [hcand] at hc; cases hc

theorem takeFirstMatch_none (p : List Char → Bool) :
    ∀ l : List (List Char), takeFirstMatch p l = none → ∀ x ∈ l, p x = false
  | [], _, x, hx => by cases hx
  | y :: ys, h, x, hx => by
    unfold takeFirstMatch at h
    by_cases hy : p y = true
    · simp [hy] at h
    · simp only [hy, Bool.false_eq_true, if_false] at h
      cases hrec : takeFirstMatch p ys with
      | some r => simp [hrec] at h
      | none =>
        rcases List.mem_cons.mp hx with rfl | hx
        · simpa using hy
        · exact takeFirstMatch_none p ys hrec x hx

theorem takeFirstMatch_some (p : List Char → Bool) :
    ∀ (l : List (List Char)) (y : List Char) (r : List (List Char)),
      takeFirstMatch p l = some (y, r) →
      p y = true ∧ l.find? p = some y ∧ y ∈ l ∧ (∀ x ∈ r, x ∈ l) ∧
        (∀ x ∈ l, x ≠ y → x ∈ r) ∧ (l.Nodup → y ∉ r ∧ r.Nodup) ∧
        (∀ q : List Char → Bool, q y = false → r.find? q = l.find? q)
  | [], y, r, h => by simp [takeFirstMatch] at h
  | z :: zs, y, r, h => by
    unfold takeFirstMatch at h
    by_cases hz : p z = true
    · simp only [hz, if_true, Option.some.injEq, Prod.mk.injEq] at h
      obtain ⟨rfl, rfl⟩ := h
      refine ⟨hz, by simp [hz], List.mem_cons_self _ _, fun x hx => List.mem_cons_of_mem _ hx,
        ?_, ?_, ?_⟩
      · intro x hx hne
        rcases List.mem_cons.mp hx with rfl | hx
        · exact absurd rfl hne
        · exact hx
      · intro hnd
        exact ⟨(List.nodup_cons.mp hnd).1, (List.nodup_cons.mp hnd).2⟩
      · intro q hq
        simp [hq]
    · simp only [hz, Bool.false_eq_true, if_false] at h
      cases hrec : takeFirstMatch p zs with
      | none => simp [hrec] at h
      | some pr =>
        obtain ⟨y1, r1⟩ := pr
        simp only [hrec, Option.some.injEq, Prod.mk.injEq] at h
        obtain ⟨rfl, rfl⟩ := h
        obtain ⟨h1, h2, h3, h4, h5, h6, h7⟩ := takeFirstMatch_some p zs y1 r1 hrec
        refine ⟨h1, by simp [hz, h2], List.mem_cons_of_mem _ h3, ?_, ?_, ?_, ?_⟩
        · intro x hx
          rcases List.mem_cons.mp hx with rfl | hx
          · exact List.mem_cons_self _ _
          · exact List.mem_cons_of_mem _ (h4 x hx)
        · intro x hx hne
          rcases List.mem_cons.mp hx with rfl | hx
          · exact List.mem_cons_self _ _
          · exact List.mem_cons_of_mem _ (h5 x hx hne)
        · intro hnd
          obtain ⟨hzn, hzs⟩ := List.nodup_cons.mp hnd
          obtain ⟨hy1, hr1⟩ := h6 hzs
          refine ⟨?_, List.nodup_cons.mpr ⟨fun hmem => hzn (h4 z hmem), hr1⟩⟩
          intro hmem
          rcases List.mem_cons.mp hmem with rfl | hmem
          · exact hzn h3
          · exact hy1 hmem
        · intro q hq
          by_cases hqz : q z = true
          · simp [hqz]
          · simp [hqz, h7 q hq]

theorem takeFirstMatch_of_find (p : List Char → Bool) :
    ∀ (l : List (List Char)) (y : List Char), l.find? p = some y →
      ∃ r, takeFirstMatch p l = some (y, r)
  | [], y, h => by simp at h
  | z :: zs, y, h => by
    unfold takeFirstMatch
    by_cases hz : p z = true
    · simp only [List.find?_cons, hz, Option.some.injEq] at h
      subst h
      exact ⟨zs, by simp [hz]⟩
    · simp only [List.find?_cons, hz] at h
      obtain ⟨r, hr⟩ := takeFirstMatch_of_find p zs y h
      exact ⟨z :: r, by simp [hz, hr]⟩

theorem bracketed_ne (x body n : List Char) (h : x.head? ≠ some '[') :
    x ≠ ['['] ++ body ++ [']'] ++ n := by
  intro heq
  rw [heq] at h
  simp at h

theorem compactLoop_after (entry n o : List Char) (hn : n.head? ≠ some '[')
    (ho : o.head? ≠ some '[') :
    ∀ (names cands done acc : List (List Char)),
      entry ∈ acc → n ∉ names → n ∉ acc → n ∉ cands → o ∉ acc → o ∉ cands → o ∈ done →
      entry ∈ compactLoop names cands done acc ∧ n ∉ compactLoop names cands done acc ∧
        o ∉ compactLoop names cands done acc
  | [], cands, done, acc, he, _, hna, hnc, hoa, hoc, _ => by
    unfold compactLoop
    refine ⟨List.mem_append_left _ he, ?_, ?_⟩
    · intro h
      rcases List.mem_append.mp h with h | h
      · exact hna h
      · exact hnc h
    · intro h
      rcases List.mem_append.mp h with h | h
      · exact hoa h
      · exact hoc h
  | m :: names, cands, done, acc, he, hnn, hna, hnc, hoa, hoc, hod => by
    have hnm : n ≠ m := fun h => hnn (h ▸ List.mem_cons_self _ _)
    have hnn' : n ∉ names := fun h => hnn (List.mem_cons_of_mem _ h)
    unfold compactLoop
    by_cases hc : cands.contains m = true
    · simp only [hc, if_true]
      exact compactLoop_after entry n o hn ho names cands done acc he hnn' hna hnc hoa hoc hod
    · simp only [hc, Bool.false_eq_true, if_false]
      by_cases hd : done.contains m = true
      · simp only [hd, if_true]
        exact compactLoop_after entry n o hn ho names cands done acc he hnn' hna hnc hoa hoc
          hod
      · simp only [hd, Bool.false_eq_true, if_false]
        have hmd : m ∉ done := by simpa using hd
        have hom : o ≠ m := fun h => hmd (h ▸ hod)
        cases htake : takeFirstMatch (isOppositeOf m) cands with
        | none =>
          simp only
          apply compactLoop_after entry n o hn ho names cands done _ (List.mem_append_left _ he)
            hnn' _ hnc _ hoc hod
          · intro h
            rcases List.mem_append.mp h with h | h
            · exact hna h
            · exact hnm (List.mem_singleton.mp h)
          · intro h
            rcases List.mem_append.mp h with h | h
            · exact hoa h
            · exact hom (List.mem_singleton.mp h)
        | some pr =>
          obtain ⟨om, rest⟩ := pr
          simp only
          obtain ⟨_, _, _, hsub, _⟩ := takeFirstMatch_some _ cands om rest htake
          apply compactLoop_after entry n o hn ho names rest _ _ (List.mem_append_left _ he)
            hnn' _ (fun h => hnc (hsub n h)) _ (fun h => hoc (hsub o h))
            (List.mem_cons_of_mem _ hod)
          · intro h
            rcases List.mem_append.mp h with h | h
            · exact hna h
            · exact bracketed_ne n _ m hn (List.mem_singleton.mp h)
          · intro h
            rcases List.mem_append.mp h with h | h
            · exact hoa h
            · exact bracketed_ne o _ m ho (List.mem_singleton.mp h)

theorem compactLoop_before (n o : List Char) (hcn : isOppositeCandidate n = false)
    (hn : n.head? ≠ some '[') (ho : o.head? ≠ some '[') :
    ∀ (names cands done acc : List (List Char)),
      names.Nodup → n ∈ names → n ∉ cands → n ∉ done →
      cands.find? (isOppositeOf n) = some o → cands.Nodup → n ∉ acc → o ∉ acc →
      (∀ m ∈ names, isOppositeCandidate m = true → m ∈ cands ∨ m ∈ done) →
      (['['] ++ chopped o n.length ++ [']'] ++ n) ∈ compactLoop names cands done acc ∧
        n ∉ compactLoop names cands done acc ∧ o ∉ compactLoop names cands done acc
  | [], _, _, _, _, hmem, _, _, _, _, _, _, _ => by cases hmem
  | m :: names, cands, done, acc, hnd, hmem, hnc, hndone, hfind, hcnd, hna, hoa, hcand => by
    obtain ⟨hmn, hnames⟩ := List.nodup_cons.mp hnd
    have hcand' : ∀ x ∈ names, isOppositeCandidate x = true → x ∈ cands ∨ x ∈ done :=
      fun x hx => hcand x (List.mem_cons_of_mem _ hx)
    have hoc : o ∈ cands := List.mem_of_find?_eq_some hfind
    unfold compactLoop
    by_cases hnm : n = m
    · subst hnm
      have hc : cands.contains n = false := by simpa using hnc
      have hd : done.contains n = false := by simpa using hndone
      obtain ⟨rest, htake⟩ := takeFirstMatch_of_find _ cands o hfind
      obtain ⟨_, _, _, hsub, _, hnodup, _⟩ := takeFirstMatch_some _ cands o rest htake
      simp only [hc, hd, Bool.false_eq_true, if_false, htake]
      apply compactLoop_after _ n o hn ho names rest _ _ (by simp) hmn _
        (fun h => hnc (hsub n h)) _ (hnodup hcnd).1 (List.mem_cons_self _ _)
      · intro h
        rcases List.mem_append.mp h with h | h
        · exact hna h
        · exact bracketed_ne n _ n hn (List.mem_singleton.mp h)
      · intro h
        rcases List.mem_append.mp h with h | h
        · exact hoa h
        · exact bracketed_ne o _ n ho (List.mem_singleton.mp h)
    · have hmem' : n ∈ names := by
        rcases List.mem_cons.mp hmem with h | h
        · exact absurd h hnm
        · exact h
      by_cases hc : cands.contains m = true
      · simp only [hc, if_true]
        exact compactLoop_before n o hcn hn ho names cands done acc hnames hmem' hnc hndone
          hfind hcnd hna hoa hcand'
      · simp only [hc, Bool.false_eq_true, if_false]
        by_cases hd : done.contains m = true
        · simp only [hd, if_true]
          exact compactLoop_before n o hcn hn ho names cands done acc hnames hmem' hnc hndone
            hfind hcnd hna hoa hcand'
        · simp only [hd, Bool.false_eq_true, if_false]
          have hmc : m ∉ cands := by simpa using hc
          have hmd : m ∉ done := by simpa using hd
          have hcm : isOppositeCandidate m = false := by
            cases hval : isOppositeCandidate m with
            | false => rfl
            | true =>
              rcases hcand m (List.mem_cons_self _ _) hval with h | h
              · exact absurd h hmc
              · exact absurd h hmd
          have hom : o ≠ m := fun h => hmc (h ▸ hoc)
          cases htake : takeFirstMatch (isOppositeOf m) cands with
          | none =>
            simp only
            apply compactLoop_before n o hcn hn ho names cands done _ hnames hmem' hnc hndone
              hfind hcnd _ _ hcand'
            · intro h
              rcases List.mem_append.mp h with h | h
              · exact hna h
              · exact hnm (List.mem_singleton.mp h)
            · intro h
              rcases List.mem_append.mp h with h | h
              · exact hoa h
              · exact hom (List.mem_singleton.mp h)
          | some pr =>
            obtain ⟨om, rest⟩ := pr
            simp only
            obtain ⟨hpm, _, homc, hsub, hkeep, hnodup, hfindrest⟩ :=
              takeFirstMatch_some _ cands om rest htake
            have hnotn : isOppositeOf n om = false := by
              cases hval : isOppositeOf n om with
              | false => rfl
              | true => exact absurd (opposite_of_one_name n m om hval hpm hcn hcm) hnm
            apply compactLoop_before n o hcn hn ho names rest _ _ hnames hmem'
              (fun h => hnc (hsub n h)) _ ((hfindrest _ hnotn).trans hfind) (hnodup hcnd).2 _ _ _
            · intro h
              rcases List.mem_cons.mp h with h | h
              · exact hnc (h ▸ homc)
              · exact hndone h
            · intro h
              rcases List.mem_append.mp h with h | h
              · exact hna h
              · exact bracketed_ne n _ m hn (List.mem_singleton.mp h)
            · intro h
              rcases List.mem_append.mp h with h | h
              · exact hoa h
              · exact bracketed_ne o _ m ho (List.mem_singleton.mp h)
            · intro x hx hxc
              rcases hcand' x hx hxc with h | h
              · by_cases hxo : x = om
                · exact Or.inr (hxo ▸ List.mem_cons_self _ _)
                · exact Or.inl (hkeep x h hxo)
              · exact Or.inr (List.mem_cons_of_mem _ h)

theorem find_filter_candidates (n : List Char) :
    ∀ names : List (List Char),
      (names.filter isOppositeCandidate).find? (isOppositeOf n)
        = names.find? (isOppositeOf n)
  | [] => rfl
  | x :: xs => by
    by_cases hx : isOppositeOf n x = true
    · have hcx := isOppositeCandidate_of_opposite n x hx
      simp [List.filter_cons, hcx, hx]
    · by_cases hcx : isOppositeCandidate x = true
      · simp [List.filter_cons, hcx, hx, find_filter_candidates n xs]
      · simp [List.filter_cons, hcx, hx, find_filter_candidates n xs]

theorem isOppositeName_iff (name opposite : List Char) :
    IsOppositeName name opposite ↔ isOppositeOf name opposite = true := by
  rw [isOppositeOf_iff]
  constructor
  · rintro ⟨q, hq, hnl, hb⟩
    refine ⟨q, by rw [hq, List.append_assoc], hnl, ?_⟩
    cases hlast : q.getLast? with
    | none => rfl
    | some c => simp [wordStartsAfter, hb c hlast]
  · rintro ⟨q, hq, hnl, hb⟩
    refine ⟨q, by rw [hq, List.append_assoc], hnl, ?_⟩
    intro c hc
    rw [hc] at hb
    simpa [wordStartsAfter] using hb

theorem isFirstOppositeName_iff (name : List Char) (names : List (List Char))
    (opposite : List Char) :
    IsFirstOppositeName name names opposite ↔
      names.find? (isOppositeOf name) = some opposite := by
  rw [List.find?_eq_some]
  constructor
  · rintro ⟨before, after, hnames, hopp, hfirst⟩
    refine ⟨(isOppositeName_iff _ _).mp hopp, before, after, hnames, fun x hx => ?_⟩
    have := hfirst x hx
    rw [isOppositeName_iff] at this
    simpa using this
  · rintro ⟨hopp, before, after, hnames, hfirst⟩
    refine ⟨before, after, hnames, (isOppositeName_iff _ _).mpr hopp, fun x hx => ?_⟩
    rw [isOppositeName_iff]
    simpa using hfirst x hx

theorem compactLoop_keeps (o : List Char) :
    ∀ (names cands done acc : List (List Char)),
      names.Nodup → o ∈ cands →
      (∀ m ∈ names, isOppositeCandidate m = true → m ∈ cands ∨ m ∈ done) →
      (∀ m ∈ names, isOppositeCandidate m = false → isOppositeOf m o = true →
        ∃ first, first ≠ o ∧ cands.find? (isOppositeOf m) = some first) →
      o ∈ compactLoop names cands done acc
  | [], cands, _, acc, _, hoc, _, _ => by
    unfold compactLoop
    exact List.mem_append_right _ hoc
  | m :: names, cands, done, acc, hnd, hoc, hcand, hfirst => by
    obtain ⟨hmn, hnames⟩ := List.nodup_cons.mp hnd
    have hcand' : ∀ x ∈ names, isOppositeCandidate x = true → x ∈ cands ∨ x ∈ done :=
      fun x hx => hcand x (List.mem_cons_of_mem _ hx)
    have hfirst' : ∀ x ∈ names, isOppositeCandidate x = false → isOppositeOf x o = true →
        ∃ first, first ≠ o ∧ cands.find? (isOppositeOf x) = some first :=
      fun x hx => hfirst x (List.mem_cons_of_mem _ hx)
    unfold compactLoop
    by_cases hc : cands.contains m = true
    · simp only [hc, if_true]
      exact compactLoop_keeps o names cands done acc hnames hoc hcand' hfirst'
    · simp only [hc, Bool.false_eq_true, if_false]
      by_cases hd : done.contains m = true
      · simp only [hd, if_true]
        exact compactLoop_keeps o names cands done acc hnames hoc hcand' hfirst'
      · simp only [hd, Bool.false_eq_true, if_false]
        have hmc : m ∉ cands := by simpa using hc
        have hmd : m ∉ done := by simpa using hd
        have hcm : isOppositeCandidate m = false := by
          cases hval : isOppositeCandidate m with
          | false => rfl
          | true =>
            rcases hcand m (List.mem_cons_self _ _) hval with h | h
            · exact absurd h hmc
            · exact absurd h hmd
        cases htake : takeFirstMatch (isOppositeOf m) cands with
        | none =>
          simp only
          exact compactLoop_keeps o names cands done _ hnames hoc hcand' hfirst'
        | some pr =>
          obtain ⟨om, rest⟩ := pr
          simp only
          obtain ⟨hpm, hfindm, _, _, hkeep, _, hfindrest⟩ :=
            takeFirstMatch_some _ cands om rest htake
          have hne : o ≠ om := by
            intro heq
            subst heq
            obtain ⟨first, hfne, hff⟩ := hfirst m (List.mem_cons_self _ _) hcm hpm
            rw [hfindm] at hff
            exact hfne (Option.some.inj hff).symm
          apply compactLoop_keeps o names rest _ _ hnames (hkeep o hoc hne)
          · intro x hx hxc
            rcases hcand' x hx hxc with h | h
            · by_cases hxo : x = om
              · exact Or.inr (hxo ▸ List.mem_cons_self _ _)
              · exact Or.inl (hkeep x h hxo)
            · exact Or.inr (List.mem_cons_of_mem _ h)
          · intro x hx hxc hxo
            obtain ⟨first, hfne, hff⟩ := hfirst' x hx hxc hxo
            refine ⟨first, hfne, ?_⟩
            have hnot : isOppositeOf x om = false := by
              cases hval : isOppositeOf x om with
              | false => rfl
              | true =>
                have := opposite_of_one_name x m om hval hpm hxc hcm
                exact absurd (this ▸ hx) hmn
            rw [hfindrest _ hnot]
            exact hff

/-- C13, as the code has it: take a list of distinct option names none of which
starts with '[', and a name `n` in it in which `no-` does not occur at the start of
a word.  If the list has an opposite name of `n` (a name `q`, `no-`, `n` with no
line feed in `q` and the `no-` starting at a word boundary), then for the first
opposite name of `n` in the list, `p` followed by `n`, the output of
`compactOptions` contains the entry `[p]n`, contains neither `n` nor that opposite
name as entries, and contains every other opposite name of `n` in the list as an
entry of its own. -/
theorem compactOptions_compacts_first_opposite (names : List (List Char))
    (n : List Char) (hnodup : names.Nodup)
    (hbracket : ∀ x ∈ names, x.head? ≠ some '[')
    (hn : n ∈ names) (hcn : isOppositeCandidate n = false)
    (hopposite : ∃ o ∈ names, IsOppositeName n o) :
    ∃ p, IsFirstOppositeName n names (p ++ n) ∧
      (['['] ++ p ++ [']'] ++ n) ∈ compactOptions names ∧
      n ∉ compactOptions names ∧ (p ++ n) ∉ compactOptions names ∧
      ∀ o ∈ names, IsOppositeName n o → o ≠ p ++ n → o ∈ compactOptions names := by
  obtain ⟨o0, ho0, hoo0⟩ := hopposite
  rw [isOppositeName_iff] at hoo0
  cases hfind : names.find? (isOppositeOf n) with
  | none => exact absurd hoo0 (by simpa using List.find?_eq_none.mp hfind o0 ho0)
  | some o =>
    have hon : isOppositeOf n o = true := by simpa using List.find?_some hfind
    have hom : o ∈ names := List.mem_of_find?_eq_some hfind
    obtain ⟨q, hq, _, _⟩ := (isOppositeOf_iff n o).mp hon
    have hchop : chopped o n.length = q ++ "no-".toList := by
      rw [hq, chopped, ← List.append_assoc, List.length_append, Nat.add_sub_cancel,
        List.take_left']
      rfl
    have hsplit : o = (q ++ "no-".toList) ++ n := by rw [hq, List.append_assoc]
    have hfilter := (find_filter_candidates n names).trans hfind
    have hloop := compactLoop_before n o hcn (hbracket n hn) (hbracket o hom) names
      (names.filter isOppositeCandidate) [] [] hnodup hn
      (fun h => by
        have := (List.mem_filter.mp h).2
        rw [hcn] at this
        cases this)
      (by simp) hfilter (hnodup.filter _)
      (by simp) (by simp)
      (fun m hm hc => Or.inl (List.mem_filter.mpr ⟨hm, hc⟩))
    rw [hchop] at hloop
    refine ⟨q ++ "no-".toList, ?_, hloop.1, hloop.2.1, ?_, ?_⟩
    · rw [← hsplit]
      exact (isFirstOppositeName_iff n names o).mpr hfind
    · rw [← hsplit]
      exact hloop.2.2
    · intro other hother hopp hne
      rw [← hsplit] at hne
      rw [isOppositeName_iff] at hopp
      apply compactLoop_keeps other names (names.filter isOppositeCandidate) [] [] hnodup
        (List.mem_filter.mpr ⟨hother, isOppositeCandidate_of_opposite n other hopp⟩)
        (fun m hm hc => Or.inl (List.mem_filter.mpr ⟨hm, hc⟩))
      intro m _ hcm hmo
      have hmn : m = n := opposite_of_one_name m n other hmo hopp hcm hcn
      subst hmn
      exact ⟨o, fun h => hne h.symm, hfilter⟩

/-- C13 fails as stated.  In `foo, no-foo, bar.no-foo` the name `bar.no-foo` is an
opposite name of `foo`, yet the output has no entry `[bar.no-]foo` and keeps
`bar.no-foo` as an entry of its own (`no-foo` was taken).  In
`]bar, bar, no-bar, [no-]bar` the name `[no-]bar` is the opposite name of `]bar`,
and the output, which has `[[no-]]bar` for the pair, has the entry `[no-]bar`,
made for `bar` and `no-bar`.  In `foo, a<line feed>no-foo` the second name ends in
`no-foo` with `no-` at a word boundary, yet the output is the input: the regular
expression does not match across the line feed. -/
theorem compactOptions_claim_fails :
    (["foo".toList, "no-foo".toList, "bar.no-foo".toList].Nodup ∧
      isOppositeCandidate "foo".toList = false ∧
      isOppositeOf "foo".toList ("bar.no-".toList ++ "foo".toList) = true ∧
      compactOptions ["foo".toList, "no-foo".toList, "bar.no-foo".toList]
        = ["[no-]foo".toList, "bar.no-foo".toList] ∧
      (['['] ++ "bar.no-".toList ++ [']'] ++ "foo".toList) ∉
        compactOptions ["foo".toList, "no-foo".toList, "bar.no-foo".toList] ∧
      ("bar.no-".toList ++ "foo".toList) ∈
        compactOptions ["foo".toList, "no-foo".toList, "bar.no-foo".toList]) ∧
    (["]bar".toList, "bar".toList, "no-bar".toList, "[no-]bar".toList].Nodup ∧
      isOppositeCandidate "]bar".toList = false ∧
      isOppositeOf "]bar".toList ("[no-".toList ++ "]bar".toList) = true ∧
      compactOptions ["]bar".toList, "bar".toList, "no-bar".toList, "[no-]bar".toList]
        = ["[[no-]]bar".toList, "[no-]bar".toList] ∧
      ("[no-".toList ++ "]bar".toList) ∈
        compactOptions ["]bar".toList, "bar".toList, "no-bar".toList, "[no-]bar".toList]) ∧
    (["foo".toList, "a\nno-foo".toList].Nodup ∧
      isOppositeCandidate "foo".toList = false ∧
      ("no-".toList ++ "foo".toList).isSuffixOf ("a\n".toList ++ "no-foo".toList) = true ∧
      wordStartsAfter ("a\n".toList).getLast? = true ∧
      compactOptions ["foo".toList, "a\nno-foo".toList]
        = ["foo".toList, "a\nno-foo".toList]) := by
  decide

/-- C13 as amended, at `foo, no-foo, bar.no-foo`: the entry `[no-]foo` is made with
the first opposite name, and `bar.no-foo` stays; and at the example of the claim,
`foo, no-foo` gives `[no-]foo`. -/
theorem compactOptions_compacts_first_opposite_witness :
    (∃ p, IsFirstOppositeName "foo".toList
        ["foo".toList, "no-foo".toList, "bar.no-foo".toList] (p ++ "foo".toList) ∧
      (['['] ++ p ++ [']'] ++ "foo".toList) ∈
        compactOptions ["foo".toList, "no-foo".toList, "bar.no-foo".toList] ∧
      "foo".toList ∉ compactOptions ["foo".toList, "no-foo".toList, "bar.no-foo".toList] ∧
      (p ++ "foo".toList) ∉
        compactOptions ["foo".toList, "no-foo".toList, "bar.no-foo".toList] ∧
      ∀ o ∈ ["foo".toList, "no-foo".toList, "bar.no-foo".toList],
        IsOppositeName "foo".toList o → o ≠ p ++ "foo".toList →
        o ∈ compactOptions ["foo".toList, "no-foo".toList, "bar.no-foo".toList]) ∧
    compactOptions ["foo".toList, "no-foo".toList, "bar.no-foo".toList]
      = ["[no-]foo".toList, "bar.no-foo".toList] ∧
    compactOptions ["foo".toList, "no-foo".toList] = ["[no-]foo".toList] :=
  ⟨compactOptions_compacts_first_opposite
      ["foo".toList, "no-foo".toList, "bar.no-foo".toList] "foo".toList
      (by decide) (by decide) (by decide) (by decide)
      ⟨"bar.no-foo".toList, by decide, "bar.".toList, rfl, by decide, by
        intro c hc
        cases hc
        decide⟩,
    by decide, by decide⟩

end CommandLineParser


/-! ## CommandLineParser: the list of related configuration options -/

namespace CommandLineParser

theorem lexLess_irrefl (a : List Nat) : lexLess a a = false := by
  induction a with
  | nil => rfl
  | cons x xs ih => simp [lexLess, ih]

theorem lexLess_trans : ∀ a b c : List Nat,
    lexLess a b = true → lexLess b c = true → lexLess a c = true
  | _, [], _, h, _ => by cases h1 : ‹List Nat› <;> simp [lexLess] at h
  | _, _ :: _, [], _, h => by simp [lexLess] at h
  | [], _ :: _, _ :: _, _, _ => by simp [lexLess]
  | x :: xs, y :: ys, z :: zs, h1, h2 => by
    simp only [lexLess, Bool.or_eq_true, Bool.and_eq_true, decide_eq_true_eq,
      beq_iff_eq] at h1 h2 ⊢
    rcases h1 with h1 | ⟨h1, h1r⟩
    · rcases h2 with h2 | ⟨h2, _⟩
      · exact Or.inl (lt_trans h1 h2)
      · exact Or.inl (h2 ▸ h1)
    · rcases h2 with h2 | ⟨h2, h2r⟩
      · exact Or.inl (h1 ▸ h2)
      · exact Or.inr ⟨h1.trans h2, lexLess_trans xs ys zs h1r h2r⟩

theorem lexLess_split : ∀ a b c : List Nat,
    lexLess a c = true → lexLess a b = true ∨ lexLess b c = true
  | _, _, [], h => by cases h1 : ‹List Nat› <;> simp [lexLess] at h
  | [], [], _ :: _, _ => by simp [lexLess]
  | [], _ :: _, _ :: _, _ => by simp [lexLess]
  | _ :: _, [], _ :: _, _ => by simp [lexLess]
  | x :: xs, y :: ys, z :: zs, h => by
    simp only [lexLess, Bool.or_eq_true, Bool.and_eq_true, decide_eq_true_eq,
      beq_iff_eq] at h ⊢
    rcases lt_trichotomy x y with hxy | hxy | hxy
    · exact Or.inl (Or.inl hxy)
    · rcases lt_trichotomy y z with hyz | hyz | hyz
      · exact Or.inr (Or.inl hyz)
      · rcases h with h | ⟨_, hr⟩
        · omega
        · rcases lexLess_split xs ys zs hr with hs | hs
          · exact Or.inl (Or.inr ⟨hxy, hs⟩)
          · exact Or.inr (Or.inr ⟨hyz, hs⟩)
      · rcases h with h | ⟨h, _⟩ <;> omega
    · rcases h with h | ⟨h, _⟩
      · exact Or.inr (Or.inl (by omega))
      · exact Or.inr (Or.inl (by omega))

/-- The comparator of `listRelatedConfigurationOptions` is a strict weak
ordering, as `Utils::sort` needs. -/
theorem baseLess_strictWeakOrder : StrictWeakOrder baseLess :=
  ⟨fun _ => lexLess_irrefl _,
   fun _ _ _ => lexLess_trans _ _ _,
   fun _ _ _ => lexLess_split _ _ _⟩

/-- Insertion sort orders by any strict weak ordering. -/
theorem sortByInsertion_sortsBy : SortsBy sortByInsertion := by
  intro less l h
  obtain ⟨hirr, htrans, hsplit⟩ := h
  haveI : IsTotal (List Char) (fun a b => less b a = false) := ⟨fun a b => by
    cases hba : less b a
    · exact Or.inl rfl
    · right
      cases hab : less a b
      · rfl
      · have := htrans a b a hab hba
        rw [hirr a] at this
        cases this⟩
  haveI : IsTrans (List Char) (fun a b => less b a = false) := ⟨fun a b c hab hbc => by
    cases hca : less c a
    · rfl
    · rcases hsplit c b a hca with h1 | h1
      · rw [hbc] at h1; cases h1
      · rw [hab] at h1; cases h1⟩
  exact ⟨List.perm_insertionSort _ l, List.sorted_insertionSort _ l⟩

/-- C18. `listRelatedConfigurationOptions`, for a `Utils::sort` that orders by a
strict weak ordering: the text returned is the entries of `compactOptions` (the
names with the "[no-]option" form for opposite pairs), each between single quotes,
joined by ", ", in an order in which the text after the first ']' of an entry is
never greater than that of the entry which follows it. -/
theorem listRelatedConfigurationOptions_sorted_quoted
    (sort : (List Char → List Char → Bool) → List (List Char) → List (List Char))
    (hsort : SortsBy sort) (names : List (List Char)) :
    ∃ entries : List (List Char),
      listRelatedConfigurationOptions sort names =
        ", ".toList.intercalate (entries.map fun s => ['\''] ++ s ++ ['\'']) ∧
      entries.Perm (compactOptions names) ∧
      entries.Chain' (fun e next =>
        lexLess (utf16 (afterBracket next)) (utf16 (afterBracket e)) = false) := by
  obtain ⟨hperm, hsorted⟩ := hsort baseLess (compactOptions names) baseLess_strictWeakOrder
  exact ⟨sort baseLess (compactOptions names), rfl, hperm, hsorted.chain'⟩

/-- C18 on a run with an insertion sort for `Utils::sort`: six option names,
two opposite pairs among them. -/
theorem listRelatedConfigurationOptions_sorted_quoted_witness :
    SortsBy sortByInsertion ∧
    listRelatedConfigurationOptions sortByInsertion
        ["target".toList, "no-snapshot".toList, "device".toList, "snapshot".toList,
         "no-fix-version".toList, "fix-version".toList] =
      "'device', '[no-]fix-version', '[no-]snapshot', 'target'".toList ∧
    ∃ entries : List (List Char),
      listRelatedConfigurationOptions sortByInsertion
          ["target".toList, "no-snapshot".toList, "device".toList, "snapshot".toList,
           "no-fix-version".toList, "fix-version".toList] =
        ", ".toList.intercalate (entries.map fun s => ['\''] ++ s ++ ['\'']) ∧
      entries.Perm (compactOptions
        ["target".toList, "no-snapshot".toList, "device".toList, "snapshot".toList,
         "no-fix-version".toList, "fix-version".toList]) ∧
      entries.Chain' (fun e next =>
        lexLess (utf16 (afterBracket next)) (utf16 (afterBracket e)) = false) :=
  ⟨sortByInsertion_sortsBy, by decide,
   listRelatedConfigurationOptions_sorted_quoted sortByInsertion sortByInsertion_sortsBy _⟩

end CommandLineParser

end Sfdk
